import Mathlib

/-!
# Medusa core: memory areas, cells, the text database and the ARM formatter

A shallow embedding of `src/core/memory_area.cpp`, `src/db/text/text_db.cpp` and
`src/arch/arm/arm_architecture.cpp`.

Conventions of the embedding

* `TOffset` (an unsigned 64-bit integer) is a `Nat`; every arithmetic operation the
  source performs on it is reduced modulo `2 ^ 64`.
* `CellData::SPtr` is `Option CellData`; `none` is the null pointer, which the
  specification calls *absent*.
* `m_Cells` (a `std::vector<CellData::SPtr>`) is a `List (Option CellData)`.
* A function returning `bool` and writing its result through a reference returns an
  `Option` of the written value, `none` standing for `false`, unless said otherwise.
-/

namespace Medusa

/-! ## Addresses and cells -/

/-- Number of values of a `TOffset`. -/
def TOffsetMod : Nat := 2 ^ 64

/-- An address: a base (segment) and an offset. -/
structure Address where
  m_Base : Nat
  m_Offset : Nat
deriving DecidableEq, Repr

/-- Modelled from the spec: `Cell::ValueType`, an enumerator of the cell header
that is not part of the sources; only its identity matters. -/
def Cell.ValueType : Nat := 2

/-- Modelled from the spec: `Value::HexadecimalType`, an enumerator of the value
header that is not part of the sources; only its identity matters. -/
def Value.HexadecimalType : Nat := 3

/-- Modelled from the spec: `MEDUSA_ARCH_UNK`, the tag of the unknown architecture. -/
def MEDUSA_ARCH_UNK : Nat := 0

/-- The record `CellData`, with the seven fields the database parser passes to its
constructor. `m_Length` is what `GetLength` returns. -/
structure CellData where
  m_Type : Nat
  m_SubType : Nat
  m_Length : Nat
  m_FormatStyle : Nat
  m_Flags : Nat
  m_ArchTag : Nat
  m_Mode : Nat
deriving DecidableEq, Repr

/-- The function `CellData::GetLength`. -/
def CellData.GetLength (c : CellData) : Nat := c.m_Length

/-- The cell `CellData(Cell::ValueType, Value::HexadecimalType, 1)` that
`MappedMemoryArea::GetCellData` synthesises: the default one-byte hexadecimal value. -/
def defaultCellData : CellData :=
  { m_Type := Cell.ValueType, m_SubType := Value.HexadecimalType, m_Length := 1,
    m_FormatStyle := 0, m_Flags := 0, m_ArchTag := MEDUSA_ARCH_UNK, m_Mode := 0 }

/-! ## Mapped memory areas -/

/-- The state of a `MappedMemoryArea`. -/
structure MappedMemoryArea where
  m_Name : String
  m_Access : Nat
  m_FileOffset : Nat
  m_FileSize : Nat
  m_VirtualBase : Address
  m_VirtualSize : Nat
  m_Cells : List (Option CellData)
deriving DecidableEq, Repr

namespace MappedMemoryArea

/-- The function `MappedMemoryArea::GetSize`. -/
def GetSize (A : MappedMemoryArea) : Nat := A.m_VirtualSize

/-- The function `MappedMemoryArea::GetBaseAddress`. -/
def GetBaseAddress (A : MappedMemoryArea) : Address := A.m_VirtualBase

/-- The function `MappedMemoryArea::MakeAddress`: the base address with its offset replaced. -/
def MakeAddress (A : MappedMemoryArea) (Offset : Nat) : Address :=
  { A.m_VirtualBase with m_Offset := Offset }

/-- Modelled from the spec: `Address::IsBetween(size, x)`, declared in the address
header, "returns true iff base ≤ x < base+size". -/
def IsBetween (Base : Address) (Size Off : Nat) : Bool :=
  decide (Base.m_Offset ≤ Off) && decide (Off < Base.m_Offset + Size)

/-- Modelled from the spec: `IsCellPresent(offset)`, defined in the memory-area
header, is "true iff offset ∈ [base, base+size)". -/
def IsCellPresent (A : MappedMemoryArea) (Offset : Nat) : Bool :=
  IsBetween A.m_VirtualBase A.GetSize Offset

/-- The function `MappedMemoryArea::_GetPreviousCellOffset`: the greatest index below `Offset`
that holds a cell, `none` when the function returns `false`. -/
def _GetPreviousCellOffset (A : MappedMemoryArea) : Nat → Option Nat
  | 0 => none
  | Offset + 1 =>
    match A.m_Cells.getD Offset none with
    | some _ => some Offset
    | none => _GetPreviousCellOffset A Offset

/-- The function `MappedMemoryArea::GetCellData`. -/
def GetCellData (A : MappedMemoryArea) (Offset : Nat) : Option CellData :=
  if A.IsCellPresent Offset = false then none
  else
    let CellOff := Offset - A.m_VirtualBase.m_Offset
    if CellOff ≥ A.m_Cells.length then some defaultCellData
    else
      match A.m_Cells.getD CellOff none with
      | some c => some c
      | none =>
        match A._GetPreviousCellOffset CellOff with
        | some PrevOff =>
          match A.m_Cells.getD PrevOff none with
          | some prev =>
            if CellOff < PrevOff + prev.GetLength then none else some defaultCellData
          | none => some defaultCellData
        | none => some defaultCellData

/-- Bounds-checked `_GetPreviousCellOffset`: the outer `none` is an access
outside the vector. -/
def _GetPreviousCellOffsetChecked (A : MappedMemoryArea) : Nat → Option (Option Nat)
  | 0 => some none
  | Offset + 1 =>
    match A.m_Cells[Offset]? with
    | none => none
    | some (some _) => some (some Offset)
    | some none => _GetPreviousCellOffsetChecked A Offset

/-- Bounds-checked `GetCellData`: every `m_Cells[i]` of the source is an
`m_Cells[i]?`, and the outer `none` is an access outside the vector (or the
dereference of a null `sprPrevCellData`). -/
def GetCellDataChecked (A : MappedMemoryArea) (Offset : Nat) : Option (Option CellData) :=
  if A.IsCellPresent Offset = false then some none
  else
    let CellOff := Offset - A.m_VirtualBase.m_Offset
    if CellOff ≥ A.m_Cells.length then some (some defaultCellData)
    else
      match A.m_Cells[CellOff]? with
      | none => none
      | some (some c) => some (some c)
      | some none =>
        match A._GetPreviousCellOffsetChecked CellOff with
        | none => none
        | some (some PrevOff) =>
          match A.m_Cells[PrevOff]? with
          | some (some prev) =>
            if CellOff < PrevOff + prev.GetLength then some none
            else some (some defaultCellData)
          | _ => none
        | some none => some (some defaultCellData)

/-- The loop `for (Idx = From; Idx < To; ++Idx) m_Cells[Idx] = nullptr`, bounds
checked: `none` is a write outside the vector. `Count` is `To - From`. -/
def nullOut : List (Option CellData) → Nat → Nat → Option (List (Option CellData))
  | v, _, 0 => some v
  | v, Idx, Count + 1 =>
    if Idx < v.length then nullOut (v.set Idx none) (Idx + 1) Count else none

/-- The call `m_Cells.resize(NewSize)` for `NewSize` above the current size. -/
def resize (v : List (Option CellData)) (NewSize : Nat) : List (Option CellData) :=
  v ++ List.replicate (NewSize - v.length) none

/-- The function `MappedMemoryArea::SetCellData`. The result is `none` when the source writes
outside the vector; otherwise the returned `bool`, the new area and the caller's
list of deleted addresses. -/
def SetCellData (A : MappedMemoryArea) (Offset : Nat) (spCellData : CellData)
    (rDeletedCellAddresses : List Address) (_Force : Bool) :
    Option (Bool × MappedMemoryArea × List Address) :=
  if A.IsCellPresent Offset = false then some (false, A, rDeletedCellAddresses)
  else
    let CellOffset := Offset - A.m_VirtualBase.m_Offset
    let OldSize := A.m_Cells.length
    let NewSize := CellOffset + spCellData.GetLength
    let grown : Option (List (Option CellData)) :=
      if OldSize < NewSize then nullOut (resize A.m_Cells NewSize) OldSize (NewSize - OldSize)
      else some A.m_Cells
    match grown with
    | none => none
    | some v =>
      if CellOffset < v.length then
        match nullOut (v.set CellOffset (some spCellData)) (CellOffset + 1)
            (NewSize - (CellOffset + 1)) with
        | none => none
        | some v2 => some (true, { A with m_Cells := v2 }, rDeletedCellAddresses)
      else none

end MappedMemoryArea

/-- An empty mapped area at offset `base` of size `size`. -/
def emptyArea (base size : Nat) : MappedMemoryArea :=
  { m_Name := "", m_Access := 0, m_FileOffset := 0, m_FileSize := 0,
    m_VirtualBase := ⟨0, base⟩, m_VirtualSize := size, m_Cells := [] }

/-- A cell of the given length. -/
def cellOfLength (n : Nat) : CellData :=
  { m_Type := 1, m_SubType := 0, m_Length := n, m_FormatStyle := 0, m_Flags := 0,
    m_ArchTag := 0, m_Mode := 0 }

/-! ## Recorded cells and the invariants of the cell vector -/

namespace MappedMemoryArea

/-- The cell recorded at index `i` of the vector, `none` when the slot is null or
beyond the end of the vector. -/
def cellAt (A : MappedMemoryArea) (i : Nat) : Option CellData := A.m_Cells.getD i none

/-- Invariant C1 of the specification (P3): no recorded cell starts strictly inside
the length of another recorded cell, so the intervals `[start, start+length)` of
the recorded cells are pairwise disjoint. -/
def NonOverlap (A : MappedMemoryArea) : Prop :=
  ∀ i j ci cj, A.cellAt i = some ci → A.cellAt j = some cj → i < j → i + ci.GetLength ≤ j

/-- The representation invariant `SetCellData` establishes: the vector is long
enough to hold every recorded cell, and every recorded cell is at least one byte long. -/
def CellsFit (A : MappedMemoryArea) : Prop :=
  ∀ i c, A.cellAt i = some c → 1 ≤ c.GetLength ∧ i + c.GetLength ≤ A.m_Cells.length

/-- The areas the program can build: the cell vector starts empty and is only ever
changed by a `SetCellData` that returns `true`, with cells at least one byte long. -/
inductive Built : MappedMemoryArea → Prop
  | init (A : MappedMemoryArea) (h : A.m_Cells = []) : Built A
  | step (A A2 : MappedMemoryArea) (o : Nat) (c : CellData) (d d2 : List Address) (f : Bool)
      (hA : Built A) (hl : 1 ≤ c.GetLength)
      (hs : A.SetCellData o c d f = some (true, A2, d2)) : Built A2

end MappedMemoryArea

/-- The area of scenario 2 of the specification: an empty area, then a four-byte
cell at `0x10`, then a forced two-byte cell at `0x12`. The result is the returned
flag, the area and the list of deleted addresses. -/
def overlapScenario : Option (Bool × MappedMemoryArea × List Address) :=
  match (emptyArea 0 0x100).SetCellData 0x10 (cellOfLength 4) [] false with
  | some (_, A1, d1) => A1.SetCellData 0x12 (cellOfLength 2) d1 true
  | none => none

/-- The area the overlap scenario ends in. -/
def overlapArea : MappedMemoryArea :=
  { emptyArea 0 0x100 with
    m_Cells := List.replicate 0x10 none ++
      [some (cellOfLength 4), none, some (cellOfLength 2), none] }

/-! ## Navigation inside a mapped area -/

/-- Outcome of a navigation function: the address written to `rMovedAddress` when
the function returns `true`, `failed` when it returns `false`, and `undefined` when
the source does not return or its behaviour is undefined (signed overflow). -/
inductive Move where
  | moved (a : Address)
  | failed
  | undefined
deriving DecidableEq, Repr

/-- Largest value of an `s32`. -/
def INT32_MAX : Int := 2 ^ 31 - 1

namespace MappedMemoryArea

/-- The function `MappedMemoryArea::ConvertOffsetToFileOffset`. -/
def ConvertOffsetToFileOffset (A : MappedMemoryArea) (Offset : Nat) : Option Nat :=
  if IsBetween A.m_VirtualBase A.m_FileSize Offset = false then none
  else some ((Offset - A.m_VirtualBase.m_Offset + A.m_FileOffset) % TOffsetMod)

/-- The loop of `GetNextAddress`, `Count` being `LimitOffset - Offset`. -/
def nextLoop (A : MappedMemoryArea) : Nat → Nat → Option Address
  | 0, _ => none
  | Count + 1, Offset =>
    match A.GetCellData Offset with
    | some _ => some (A.MakeAddress Offset)
    | none => nextLoop A Count (Offset + 1)

/-- The function `MappedMemoryArea::GetNextAddress`. -/
def GetNextAddress (A : MappedMemoryArea) (rAddress : Address) : Option Address :=
  let LimitOffset := (A.m_VirtualBase.m_Offset + A.GetSize) % TOffsetMod
  let Start := (rAddress.m_Offset + 1) % TOffsetMod
  nextLoop A (LimitOffset - Start) Start

/-- The inner `while (true)` of `MoveAddressForward`: one step from `MovedOffset`.
`some (some o)` is the `break` at offset `o`, `some none` is `return false`, and
`none` is a loop that has not ended after `fuel` rounds. -/
def forwardInner (A : MappedMemoryArea) : Nat → Nat → Option (Option Nat)
  | 0, _ => none
  | fuel + 1, MovedOffset =>
    let Next :=
      match A.GetCellData MovedOffset with
      | some c => (MovedOffset + c.GetLength) % TOffsetMod
      | none => (MovedOffset + 1) % TOffsetMod
    if A.IsCellPresent Next then some (some Next)
    else if Next > (A.m_VirtualBase.m_Offset + A.GetSize) % TOffsetMod then some none
    else forwardInner A fuel Next

/-- The loop `while (Offset--)` of `MoveAddressForward`. The inner loop only goes
round on offsets outside the area, one byte at a time, so after `2 ^ 64 + 1` rounds
it has come back to an offset it has already left and never ends. -/
def forwardLoop (A : MappedMemoryArea) : Nat → Nat → Move
  | 0, MovedOffset => Move.moved (A.MakeAddress MovedOffset)
  | Offset + 1, MovedOffset =>
    match forwardInner A (TOffsetMod + 1) MovedOffset with
    | none => Move.undefined
    | some none => Move.failed
    | some (some Next) => forwardLoop A Offset Next

/-- The function `MappedMemoryArea::MoveAddressForward`, for the step counts `Offset ≥ 0` it is
called with. -/
def MoveAddressForward (A : MappedMemoryArea) (rAddress : Address) (Offset : Nat) : Move :=
  if Offset = 0 then Move.moved rAddress
  else forwardLoop A Offset rAddress.m_Offset

/-- The `for` loop of `MoveAddressBackward`, from `PrevOff` down with the counter
`SkippedOff`; the result is the pair of both after the loop. `none` is the signed
overflow of `SkippedOff`, which is reached before `fuel = 2 ^ 31 + 1` runs out. -/
def backwardScan (A : MappedMemoryArea) : Nat → Nat → Int → Option (Nat × Int)
  | 0, _, _ => none
  | fuel + 1, PrevOff, SkippedOff =>
    if PrevOff ≥ A.m_VirtualBase.m_Offset then
      match A.GetCellData PrevOff with
      | some c => some (PrevOff, SkippedOff - c.GetLength)
      | none =>
        if SkippedOff + 1 > INT32_MAX then none
        else backwardScan A fuel ((PrevOff + TOffsetMod - 1) % TOffsetMod) (SkippedOff + 1)
    else some (PrevOff, SkippedOff)

/-- The `while (true)` of `MoveAddressBackward`, on the state `(MovedOff, Offset)`. -/
def backwardLoop (A : MappedMemoryArea) : Nat → Nat → Int → Move
  | 0, _, _ => Move.undefined
  | fuel + 1, MovedOff, Offset =>
    match backwardScan A (2 ^ 31 + 1) ((MovedOff + TOffsetMod - 1) % TOffsetMod) 0 with
    | none => Move.undefined
    | some (PrevOff, Skipped) =>
      let SkippedOff : Int := if Skipped < 0 then 0 else Skipped
      let Offset1 : Int := if SkippedOff = 0 then Offset - 1 else Offset
      let Offset2 : Int := if SkippedOff > Offset1 then 0 else Offset1
      if Offset2 = 0 then Move.moved (A.MakeAddress PrevOff)
      else if PrevOff = A.m_VirtualBase.m_Offset then Move.failed
      else backwardLoop A fuel PrevOff Offset2

/-- The function `MappedMemoryArea::MoveAddressBackward`. The budget never grows and the loop
ends when it reaches zero, so a run of more than `2 ^ 64 * |Offset|` rounds has
repeated a state `(MovedOff, Offset)` and never ends. -/
def MoveAddressBackward (A : MappedMemoryArea) (rAddress : Address) (Offset : Int) : Move :=
  if Offset = 0 then Move.moved rAddress
  else backwardLoop A (TOffsetMod * Offset.natAbs + 1) rAddress.m_Offset (-Offset)

/-- The function `MappedMemoryArea::MoveAddress`. -/
def MoveAddress (A : MappedMemoryArea) (rAddress : Address) (Offset : Int) : Move :=
  if Offset < 0 then A.MoveAddressBackward rAddress Offset
  else if Offset > 0 then A.MoveAddressForward rAddress Offset.toNat
  else Move.moved rAddress

/-- One step of the reference algorithm of the specification: "if the current
offset hosts a cell of length ℓ, advance by ℓ; else advance by 1". -/
def refAdvance (A : MappedMemoryArea) (cur : Nat) : Nat :=
  match A.GetCellData cur with
  | some c => cur + c.GetLength
  | none => cur + 1

/-- The reference algorithm of the specification for a forward move: repeat `n`
times: advance, failing as soon as the current offset is outside
`[base, base+size)`. `none` is the failure. -/
def refForward (A : MappedMemoryArea) : Nat → Nat → Option Nat
  | 0, cur => some cur
  | n + 1, cur =>
    let next := A.refAdvance cur
    if A.m_VirtualBase.m_Offset ≤ next ∧ next < A.m_VirtualBase.m_Offset + A.m_VirtualSize
    then refForward A n next else none

end MappedMemoryArea

/-- A four-byte cell at the base of an area of 16 bytes at offset 0. -/
def fourByteArea : MappedMemoryArea :=
  { emptyArea 0 16 with m_Cells := [some (cellOfLength 4), none, none, none] }

/-! ## Virtual areas and the two kinds of area -/

/-- The state of a `VirtualMemoryArea`. -/
structure VirtualMemoryArea where
  m_Name : String
  m_Access : Nat
  m_VirtualBase : Address
  m_VirtualSize : Nat
deriving DecidableEq, Repr

namespace VirtualMemoryArea

/-- The function `VirtualMemoryArea::GetSize`. -/
def GetSize (V : VirtualMemoryArea) : Nat := V.m_VirtualSize

/-- The function `VirtualMemoryArea::GetBaseAddress`. -/
def GetBaseAddress (V : VirtualMemoryArea) : Address := V.m_VirtualBase

/-- Modelled from the spec: `IsCellPresent(offset)`, defined in the memory-area
header, is "true iff offset ∈ [base, base+size)". -/
def IsCellPresent (V : VirtualMemoryArea) (Offset : Nat) : Bool :=
  MappedMemoryArea.IsBetween V.m_VirtualBase V.GetSize Offset

/-- The function `VirtualMemoryArea::ConvertOffsetToFileOffset`. -/
def ConvertOffsetToFileOffset (_V : VirtualMemoryArea) (_Offset : Nat) : Option Nat := none

end VirtualMemoryArea

/-- A `MemoryArea*`: a mapped or a virtual area. -/
inductive MemoryArea where
  | mapped (A : MappedMemoryArea)
  | virt (V : VirtualMemoryArea)
deriving DecidableEq, Repr

namespace MemoryArea

/-- Virtual `GetSize`. -/
def GetSize : MemoryArea → Nat
  | mapped A => A.GetSize
  | virt V => V.GetSize

/-- Virtual `GetBaseAddress`. -/
def GetBaseAddress : MemoryArea → Address
  | mapped A => A.GetBaseAddress
  | virt V => V.GetBaseAddress

/-- Virtual `IsCellPresent(TOffset)`. -/
def IsCellPresentOffset : MemoryArea → Nat → Bool
  | mapped A, o => A.IsCellPresent o
  | virt V, o => V.IsCellPresent o

/-- Modelled from the spec: `IsCellPresent(Address const&)`, defined in the
memory-area header: the area "whose range contains addr", the range being the
offsets `[base, base+size)`. -/
def IsCellPresent (M : MemoryArea) (rAddress : Address) : Bool :=
  M.IsCellPresentOffset rAddress.m_Offset

/-- Virtual `ConvertOffsetToFileOffset`. -/
def ConvertOffsetToFileOffset : MemoryArea → Nat → Option Nat
  | mapped A, o => A.ConvertOffsetToFileOffset o
  | virt V, o => V.ConvertOffsetToFileOffset o

end MemoryArea

/-- Modelled from the spec: `Address::operator+`, declared in the address header:
"addition … adjusts the offset", here within the 64 bits of a `TOffset`. -/
def Address.add (a : Address) (n : Nat) : Address :=
  { a with m_Offset := (a.m_Offset + n) % TOffsetMod }

/-! ## The document: coordinate conversion -/

/-- Number of values of a `u32`. -/
def U32Mod : Nat := 2 ^ 32

/-- The function `TextDatabase::GetMemoryArea` on the areas in iteration order. -/
def GetMemoryArea : List MemoryArea → Address → Option MemoryArea
  | [], _ => none
  | M :: rest, rAddress => if M.IsCellPresent rAddress then some M else GetMemoryArea rest rAddress

/-- The loop of `TextDatabase::ConvertAddressToPosition`, `rPosition` being a `u32`. -/
def positionLoop : List MemoryArea → Address → Nat → Option Nat
  | [], _, _ => none
  | M :: rest, rAddress, rPosition =>
    if M.IsCellPresent rAddress then
      some ((rPosition + (rAddress.m_Offset - M.GetBaseAddress.m_Offset) % U32Mod) % U32Mod)
    else positionLoop rest rAddress ((rPosition + M.GetSize) % U32Mod)

/-- The function `TextDatabase::ConvertAddressToPosition`. -/
def ConvertAddressToPosition (areas : List MemoryArea) (rAddress : Address) : Option Nat :=
  match GetMemoryArea areas rAddress with
  | none => none
  | some _ => positionLoop areas rAddress 0

/-- The function `TextDatabase::ConvertPositionToAddress`. -/
def ConvertPositionToAddress : List MemoryArea → Nat → Option Address
  | [], _ => none
  | M :: rest, Position =>
    if Position < M.GetSize then some (M.GetBaseAddress.add Position)
    else ConvertPositionToAddress rest (Position - M.GetSize)

/-- The offsets `[base, base+size)` of an area as a predicate. -/
def MemoryArea.Contains (M : MemoryArea) (o : Nat) : Prop :=
  M.GetBaseAddress.m_Offset ≤ o ∧ o < M.GetBaseAddress.m_Offset + M.GetSize

/-- Invariant D1 of the specification: the ranges of the areas of a document are
pairwise disjoint. -/
def DisjointAreas (areas : List MemoryArea) : Prop :=
  areas.Pairwise fun M N => ∀ o, ¬ (M.Contains o ∧ N.Contains o)

/-- The areas are representable: the size is a `u32` and the range lies in the
64-bit offset space. -/
def RepresentableAreas (areas : List MemoryArea) : Prop :=
  ∀ M ∈ areas, M.GetSize < U32Mod ∧ M.GetBaseAddress.m_Offset + M.GetSize ≤ TOffsetMod

/-- The offsets and lengths an area holds fit their machine types: the end of the
area and the end of every recorded cell are `TOffset` values, and the length of a
recorded cell is a `u16`. -/
def MappedMemoryArea.Representable (A : MappedMemoryArea) : Prop :=
  A.m_VirtualBase.m_Offset + A.m_VirtualSize + 1 < TOffsetMod ∧
  ∀ i c, A.cellAt i = some c →
    c.GetLength < 2 ^ 16 ∧ A.m_VirtualBase.m_Offset + i + c.GetLength < TOffsetMod

/-- The state `MoveAddressBackward` is in after a round that has reached offset
`p` with the budget `m` left: it returns `p` when the budget is spent, fails at the
base of the area, and goes round again otherwise. -/
def MappedMemoryArea.backwardRest (A : MappedMemoryArea) (fuel p : Nat) (m : Int) : Move :=
  if m = 0 then Move.moved (A.MakeAddress p)
  else if p = A.m_VirtualBase.m_Offset then Move.failed
  else backwardLoop A fuel p m

/-- A mapped area of 256 bytes at offset `0x1000` backed by 16 bytes of the file at
file offset `0x200`. -/
def fileArea : MappedMemoryArea :=
  { emptyArea 0x1000 0x100 with m_FileOffset := 0x200, m_FileSize := 0x10 }

/-- A document of two areas: a mapped area of 16 bytes at offset 0 holding one
four-byte cell, and a virtual area of 8 bytes at offset `0x100`. -/
def twoAreas : List MemoryArea :=
  [MemoryArea.mapped fourByteArea,
   MemoryArea.virt { m_Name := "", m_Access := 0, m_VirtualBase := ⟨0, 0x100⟩, m_VirtualSize := 8 }]

/-! ## The text database: base64, `Flush` and `Open`

A `std::string` is a `List Char`; a file is the list of its lines. -/

/-- The 64 digits of base64, in the order of their values. -/
def base64Alphabet : List Char :=
  "ABCDEFGHIJKLMNOPQRSTUVWXYZabcdefghijklmnopqrstuvwxyz0123456789+/".toList

/-- The value of a list of bits, most significant first. -/
def natOfBits (bits : List Bool) : Nat :=
  bits.foldl (fun n b => 2 * n + (if b then 1 else 0)) 0

/-- The bits of a list of bytes, most significant first. -/
def bitsOfBytes (bytes : List Nat) : List Bool :=
  bytes.flatMap fun b => (List.range 8).map fun j => (b % 256).testBit (7 - j)

/-- The function `Base64Encode`: the stream of the bytes cut in groups of six bits, the last one
filled with zero bits (`base64_from_binary<transform_width<char const*, 6, 8>>`),
followed by `Base64Padding[Size % 3]`. -/
def Base64Encode (pRawData : List Nat) : List Char :=
  let bits := bitsOfBytes pRawData
  let digits := (List.range ((bits.length + 5) / 6)).map fun k =>
    base64Alphabet.getD (natOfBits ((List.range 6).map fun j => bits.getD (6 * k + j) false)) 'A'
  digits ++ (["", "==", "="].getD (pRawData.length % 3) "").toList

/-- The table of `binary_from_base64`: the value of a base64 digit, `=` read as 0;
`none` is the exception thrown on any other character, the terminating NUL included. -/
def to6bit (c : Char) : Option Nat :=
  if c = '=' then some 0
  else
    let i := base64Alphabet.indexOf c
    if i < 64 then some i else none

/-- The byte the iterator `transform_width<binary_from_base64<const char*>, 8, 6>`
yields at its `i`-th dereference: bits `8i … 8i+7` of the stream of six-bit digits.
It is `none` when a character it has to read is not a digit, or is the NUL that ends
the C string: the iterator throws. -/
def decodeByte (s : List Char) (i : Nat) : Option Nat :=
  let bits := (List.range 8).map fun j =>
    match s.get? ((8 * i + j) / 6) with
    | none => none
    | some c => (to6bit c).map fun v => v.testBit (5 - (8 * i + j) % 6)
  if bits.all Option.isSome then some (natOfBits (bits.map fun b => b.getD false)) else none

/-- The loop of `Base64Decode`, from `Cur` with `Count = End - Cur` rounds left; an
exception ends it and the bytes read so far are returned. -/
def decodeLoop (s : List Char) : Nat → Nat → List Nat
  | 0, _ => []
  | Count + 1, Cur =>
    match decodeByte s Cur with
    | none => []
    | some b => b :: decodeLoop s Count (Cur + 1)

/-- The function `Base64Decode`. -/
def Base64Decode (rBase64Data : List Char) : List Nat :=
  decodeLoop rBase64Data rBase64Data.length 0

/-- A label: its name, type and version. -/
structure Label where
  m_Name : List Char
  m_Type : Nat
  m_Version : Nat
deriving DecidableEq, Repr

/-- A multi-cell: its kind and size. -/
structure MultiCell where
  m_Type : Nat
  m_Size : Nat
deriving DecidableEq, Repr

/-- The state of a `TextDatabase`. `m_spBinStrm` is the buffer of the binary stream,
`none` being the null pointer. -/
structure TextDatabase where
  m_DatabasePath : List Char
  m_spBinStrm : Option (List Nat)
  m_ArchitectureTags : List Nat
  m_MemoryAreas : List MemoryArea
  m_LabelMap : List (Address × Label)
  m_CrossReferences : List (Address × Address)
  m_MultiCells : List (Address × MultiCell)
  m_Comments : List (Address × List Nat)
deriving DecidableEq, Repr

/-- A database just constructed: no path bound, nothing stored. -/
def TextDatabase.fresh : TextDatabase :=
  { m_DatabasePath := [], m_spBinStrm := none, m_ArchitectureTags := [], m_MemoryAreas := [],
    m_LabelMap := [], m_CrossReferences := [], m_MultiCells := [], m_Comments := [] }

/-- The function `MappedMemoryArea::ForEachCellData`: the pairs the predicate is called with, in
order; `CurOff` counts from zero. -/
def MappedMemoryArea.ForEachCellData (A : MappedMemoryArea) : List (Nat × CellData) :=
  A.m_Cells.enum.filterMap fun (CurOff, spCellData) => spCellData.map fun c => (CurOff, c)

/-- Virtual `ForEachCellData`; the one of a virtual area calls nothing. -/
def MemoryArea.ForEachCellData : MemoryArea → List (Nat × CellData)
  | MemoryArea.mapped A => A.ForEachCellData
  | MemoryArea.virt _ => []

/-- The text forms `Flush` writes through functions and stream operators defined
outside the sources: `Dump` of an area, of a cell (with its offset), of a label, of a
multi-cell and of an address, and the lines of the tags and of the cross-references. -/
structure Dumps where
  tags : List Nat → List Char
  area : MemoryArea → List Char
  cell : Nat → CellData → List Char
  address : Address → List Char
  label : Label → List Char
  crossReferences : List (Address × Address) → List (List Char)
  multiCell : MultiCell → List Char

/-- The lines `TextDatabase::Flush` writes; `none` is the dereference of a null
`m_spBinStrm`. -/
def FlushLines (G : Dumps) (D : TextDatabase) : Option (List (List Char)) :=
  match D.m_spBinStrm with
  | none => none
  | some buf =>
    some (["# Medusa Text Database".toList, "## BinaryStream".toList, Base64Encode buf,
        "## Architecture".toList, G.tags D.m_ArchitectureTags, "## MemoryArea".toList]
      ++ (D.m_MemoryAreas.flatMap fun M =>
            G.area M :: M.ForEachCellData.map fun (Offset, c) => '|' :: G.cell Offset c)
      ++ ["## Label".toList]
      ++ (D.m_LabelMap.map fun (a, l) => G.address a ++ ' ' :: G.label l)
      ++ ["## CrossReference".toList]
      ++ G.crossReferences D.m_CrossReferences
      ++ ["## MultiCell".toList]
      ++ (D.m_MultiCells.map fun (a, m) => G.address a ++ ' ' :: G.multiCell m)
      ++ ["## Comment".toList]
      ++ (D.m_Comments.map fun (a, c) => G.address a ++ ' ' :: Base64Encode c))

/-- The function `TextDatabase::Flush`: `none` when it returns `false` (no path is bound or the
file cannot be opened for writing), else the lines of the file it leaves. -/
def Flush (G : Dumps) (canWrite : Bool) (D : TextDatabase) : Option (List (List Char)) :=
  if D.m_DatabasePath = [] then none
  else if canWrite = false then none
  else FlushLines G D

/-- The states of the parser of `Open`. -/
inductive State where
  | UnknownState
  | BinaryStreamState
  | ArchitectureState
  | MemoryAreaState
  | LabelState
  | CrossReferenceState
  | MultiCellState
  | CommentState
deriving DecidableEq, Repr

/-- The map `StrToState` of `Open`. -/
def StrToState (CurLine : List Char) : Option State :=
  if CurLine = "## BinaryStream".toList then some State.BinaryStreamState
  else if CurLine = "## Architecture".toList then some State.ArchitectureState
  else if CurLine = "## MemoryArea".toList then some State.MemoryAreaState
  else if CurLine = "## Label".toList then some State.LabelState
  else if CurLine = "## CrossReference".toList then some State.CrossReferenceState
  else if CurLine = "## MultiCell".toList then some State.MultiCellState
  else if CurLine = "## Comment".toList then some State.CommentState
  else none

/-- A database bound to a path whose binary stream is empty and which holds nothing
else. -/
def emptyStreamDatabase : TextDatabase :=
  { TextDatabase.fresh with m_DatabasePath := "a.mdt".toList, m_spBinStrm := some [] }

/-! ## The document: navigation across areas -/

/-- Modelled from the spec: `Address::operator<=`, declared in the address header:
the "ordering is lexicographic over (base-kind, base, offset)". -/
def Address.le (a b : Address) : Bool :=
  decide (a.m_Base < b.m_Base) || (decide (a.m_Base = b.m_Base) && decide (a.m_Offset ≤ b.m_Offset))

/-- The conversion of a signed 64-bit value to `u64`. -/
def toU64 (x : Int) : Nat := (x % (TOffsetMod : Int)).toNat

namespace MappedMemoryArea

/-- The `do … while` loop of `GetNearestAddress`, entered with `Offset`; `none` is
`return false`. -/
def nearestLoop (A : MappedMemoryArea) : Nat → Option Nat
  | 0 => none
  | Offset + 1 =>
    match A.GetCellData Offset with
    | some _ => some Offset
    | none => if Offset ≥ A.m_VirtualBase.m_Offset then nearestLoop A Offset else none

/-- The function `MappedMemoryArea::GetNearestAddress`. -/
def GetNearestAddress (A : MappedMemoryArea) (rAddress : Address) : Option Address :=
  let Offset := rAddress.m_Offset
  if Offset < A.m_VirtualBase.m_Offset then some A.m_VirtualBase
  else
    match A.GetCellData Offset with
    | some _ => some (A.MakeAddress rAddress.m_Offset)
    | none => (A.nearestLoop Offset).map A.MakeAddress

end MappedMemoryArea

namespace VirtualMemoryArea

/-- The function `VirtualMemoryArea::MakeAddress`. -/
def MakeAddress (V : VirtualMemoryArea) (Offset : Nat) : Address :=
  { V.m_VirtualBase with m_Offset := Offset }

/-- The function `VirtualMemoryArea::MoveAddressBackward`. -/
def MoveAddressBackward (V : VirtualMemoryArea) (rAddress : Address) (Offset : Int) : Move :=
  let MovedOffset := toU64 (rAddress.m_Offset + Offset)
  if V.IsCellPresent MovedOffset = false then Move.failed
  else Move.moved (V.MakeAddress MovedOffset)

/-- The function `VirtualMemoryArea::MoveAddressForward`. -/
def MoveAddressForward (V : VirtualMemoryArea) (rAddress : Address) (Offset : Int) : Move :=
  let MovedOffset := toU64 (rAddress.m_Offset + Offset)
  if V.IsCellPresent MovedOffset = false then Move.failed
  else Move.moved (V.MakeAddress MovedOffset)

/-- The function `VirtualMemoryArea::MoveAddress`. -/
def MoveAddress (V : VirtualMemoryArea) (rAddress : Address) (Offset : Int) : Move :=
  if Offset < 0 then V.MoveAddressBackward rAddress Offset
  else if Offset > 0 then V.MoveAddressForward rAddress Offset
  else if V.IsCellPresent rAddress.m_Offset = false then Move.failed
  else Move.moved rAddress

/-- The function `VirtualMemoryArea::GetNearestAddress`. -/
def GetNearestAddress (V : VirtualMemoryArea) (rAddress : Address) : Option Address :=
  if V.IsCellPresent rAddress.m_Offset = false then none
  else some (V.MakeAddress rAddress.m_Offset)

end VirtualMemoryArea

namespace MemoryArea

/-- Virtual `MoveAddressForward`; the document calls it with `Offset ≥ 0` only. -/
def MoveAddressForward : MemoryArea → Address → Int → Move
  | mapped A, a, Offset => A.MoveAddressForward a Offset.toNat
  | virt V, a, Offset => V.MoveAddressForward a Offset

/-- Virtual `MoveAddressBackward`. -/
def MoveAddressBackward : MemoryArea → Address → Int → Move
  | mapped A, a, Offset => A.MoveAddressBackward a Offset
  | virt V, a, Offset => V.MoveAddressBackward a Offset

/-- Virtual `GetNearestAddress`. -/
def GetNearestAddress : MemoryArea → Address → Option Address
  | mapped A, a => A.GetNearestAddress a
  | virt V, a => V.GetNearestAddress a

end MemoryArea

/-- The search `for (; itMemArea != end; ++itMemArea) if (IsCellPresent(rAddress))
break`: the areas before the one found, nearest first, the area found and the areas
after it; `none` when the search reaches the end. -/
def findArea : List MemoryArea → List MemoryArea → Address →
    Option (List MemoryArea × MemoryArea × List MemoryArea)
  | _, [], _ => none
  | before, M :: rest, rAddress =>
    if M.IsCellPresent rAddress then some (before, M, rest)
    else findArea (M :: before) rest rAddress

/-- The last `for` loop of `_MoveAddressForward` over the areas from `itMemArea` on. -/
def forwardCarry : List MemoryArea → Address → Int → Move
  | [], _, _ => Move.failed
  | M :: rest, CurAddr, Offset =>
    let MemAreaSize := M.GetSize
    let attempt := if toU64 Offset < MemAreaSize then M.MoveAddressForward CurAddr Offset
      else Move.failed
    match attempt with
    | Move.moved b => Move.moved b
    | Move.undefined => Move.undefined
    | Move.failed => forwardCarry rest M.GetBaseAddress (Offset - MemAreaSize)

/-- The function `TextDatabase::_MoveAddressForward`. -/
def _MoveAddressForward (areas : List MemoryArea) (rAddress : Address) (Offset : Int) : Move :=
  match findArea [] areas rAddress with
  | none => Move.failed
  | some (_, M, after) =>
    let CurMemAreaOff := rAddress.m_Offset - M.GetBaseAddress.m_Offset
    let attempt := if toU64 (CurMemAreaOff + Offset) < M.GetSize
      then M.MoveAddressForward rAddress Offset else Move.failed
    match attempt with
    | Move.moved b => Move.moved b
    | Move.undefined => Move.undefined
    | Move.failed =>
      let DiffOff : Int := (M.GetSize : Int) - CurMemAreaOff
      let Offset2 : Int := if DiffOff ≥ Offset then 0 else Offset - DiffOff
      match after with
      | [] => Move.failed
      | N :: _ => forwardCarry after N.GetBaseAddress Offset2

/-- The `while (itMemArea != begin)` loop of `_MoveAddressBackward` and the call after
it: `M` is `*itMemArea` and `more` the areas before it, nearest first. -/
def backwardCarry : MemoryArea → List MemoryArea → Address → Int → Move
  | M, [], CurAddr, Offset => M.MoveAddressBackward CurAddr Offset
  | M, P :: more, CurAddr, Offset =>
    if toU64 (-Offset) < M.GetSize then M.MoveAddressBackward CurAddr Offset
    else
      backwardCarry P more (M.GetBaseAddress.add ((M.GetSize + U32Mod - 1) % U32Mod))
        (Offset + M.GetSize)

/-- The function `TextDatabase::_MoveAddressBackward`. -/
def _MoveAddressBackward (areas : List MemoryArea) (rAddress : Address) (Offset : Int) : Move :=
  match areas with
  | [] => Move.failed
  | First :: _ =>
    if rAddress.le First.GetBaseAddress then Move.moved rAddress
    else
      match findArea [] areas rAddress with
      | none => Move.failed
      | some (before, M, _) =>
        let CurMemAreaOff := rAddress.m_Offset - M.GetBaseAddress.m_Offset
        if toU64 (-Offset) ≤ CurMemAreaOff then M.MoveAddressBackward rAddress Offset
        else
          match before with
          | [] => Move.failed
          | P :: more =>
            backwardCarry P more (P.GetBaseAddress.add ((P.GetSize + U32Mod - 1) % U32Mod))
              (Offset + CurMemAreaOff)

/-- The function `TextDatabase::MoveAddress`. -/
def TextDatabase.MoveAddress (areas : List MemoryArea) (rAddress : Address) (Offset : Int) : Move :=
  if Offset < 0 then _MoveAddressBackward areas rAddress Offset
  else if Offset > 0 then _MoveAddressForward areas rAddress Offset
  else
    match GetMemoryArea areas rAddress with
    | none => _MoveAddressBackward areas rAddress (-1)
    | some M =>
      match M.GetNearestAddress rAddress with
      | some b => Move.moved b
      | none => Move.failed

/-- A document of two adjacent mapped areas of 16 bytes with no recorded cell. -/
def adjacentAreas : List MemoryArea :=
  [MemoryArea.mapped (emptyArea 0 0x10), MemoryArea.mapped (emptyArea 0x10 0x10)]

/-- A mapped area of 16 bytes at offset `0x10` with no recorded cell. -/
def areaAt0x10 : MappedMemoryArea := emptyArea 0x10 0x10

/-- A document of three adjacent mapped areas of 16 bytes with no recorded cell, in
ascending order: every offset hosts a default one-byte cell. -/
def threeAreas : List MemoryArea :=
  [MemoryArea.mapped (emptyArea 0 0x10), MemoryArea.mapped (emptyArea 0x10 0x10),
   MemoryArea.mapped (emptyArea 0x20 0x10)]

/-! ## Positions inside a mapped area -/

/-- The loop of `MappedMemoryArea::ConvertOffsetToPosition` over the slots of the
vector from `itCell` on: the flag `itCell != itEndCell` and `rPosition` after the loop. -/
def positionScan : List (Option CellData) → Nat → Nat → Nat → Bool × Nat
  | [], _, _, rPosition => (false, rPosition)
  | _ :: rest, CurOff, Offset, rPosition =>
    if CurOff ≥ Offset then
      (true, if CurOff ≠ Offset then (rPosition + TOffsetMod - 1) % TOffsetMod else rPosition)
    else positionScan rest ((CurOff + 1) % TOffsetMod) Offset ((rPosition + 1) % TOffsetMod)

/-- The function `MappedMemoryArea::ConvertOffsetToPosition`: the returned flag and
the value of the `u64` counter `rPosition` afterwards. -/
def MappedMemoryArea.ConvertOffsetToPosition (A : MappedMemoryArea) (Offset rPosition : Nat) :
    Bool × Nat :=
  positionScan A.m_Cells A.m_VirtualBase.m_Offset Offset rPosition

/-- The number of recorded cell starts located in `[base, o)`. -/
def MappedMemoryArea.cellStartsBefore (A : MappedMemoryArea) (o : Nat) : Nat :=
  ((A.m_Cells.take (o - A.m_VirtualBase.m_Offset)).filter Option.isSome).length

/-- An area of 16 bytes at offset 0 with four-byte cells at offsets 0 and 4. -/
def twoCellArea : MappedMemoryArea :=
  { emptyArea 0 16 with
    m_Cells := [some (cellOfLength 4), none, none, none, some (cellOfLength 4), none, none, none] }

/-! ## The set of memory areas -/

/-- Modelled from the spec: `Address::operator<`, declared in the address header: the
strict form of the lexicographic order over (base, offset). -/
def Address.lt (a b : Address) : Bool :=
  decide (a.m_Base < b.m_Base) || (decide (a.m_Base = b.m_Base) && decide (a.m_Offset < b.m_Offset))

/-- Modelled from the spec: `m_MemoryAreas.insert`, the container being declared in a
header outside the sources: "an ordered set of MemoryAreas keyed by base virtual
address". The area is put at its place in the order of the base addresses, and is
not inserted when an area with the same base address is already in the set. -/
def insertArea : MemoryArea → List MemoryArea → List MemoryArea
  | M, [] => [M]
  | M, N :: rest =>
    if M.GetBaseAddress.lt N.GetBaseAddress then M :: N :: rest
    else if N.GetBaseAddress.lt M.GetBaseAddress then N :: insertArea M rest
    else N :: rest

/-- The function `TextDatabase::AddMemoryArea`: the returned flag and the areas of the
document afterwards. -/
def AddMemoryArea (areas : List MemoryArea) (pMemArea : MemoryArea) : Bool × List MemoryArea :=
  (true, insertArea pMemArea areas)

/-- The documents reachable by a sequence of `AddMemoryArea` calls. -/
inductive AreasBuilt : List MemoryArea → Prop
  | empty : AreasBuilt []
  | add (areas : List MemoryArea) (M : MemoryArea) (h : AreasBuilt areas) :
      AreasBuilt (AddMemoryArea areas M).2

/-- A document of two overlapping mapped areas, `[0, 0x20)` and `[0x10, 0x30)`. -/
def overlappingAreas : List MemoryArea :=
  [MemoryArea.mapped (emptyArea 0 0x20), MemoryArea.mapped (emptyArea 0x10 0x20)]

/-! ## The label registry -/

/-- Modelled from the spec: the comparison of two labels, declared in the label
header: "Labels are unique by name", so two labels are the same key of the registry
when their names are equal. -/
def Label.sameKey (l k : Label) : Bool := decide (l.m_Name = k.m_Name)

/-- Modelled from the spec: `m_LabelMap.left.insert`, the registry being a
"unique bidirectional map" declared in a header outside the sources: the pair is
inserted, at its place in the order of the addresses, only when neither its address
nor its label is already a key; otherwise the map is left as it is. -/
def labelInsert (m : List (Address × Label)) (a : Address) (l : Label) :
    List (Address × Label) :=
  if m.any (fun p => decide (p.1 = a) || p.2.sameKey l) then m
  else m.orderedInsert (fun p q => p.1.le q.1 = true) (a, l)

/-- The function `TextDatabase::AddLabel`: the returned flag and the registry afterwards. -/
def AddLabel (m : List (Address × Label)) (rAddress : Address) (rLabel : Label) :
    Bool × List (Address × Label) :=
  (true, labelInsert m rAddress rLabel)

/-- The function `TextDatabase::RemoveLabel`: the returned flag and the registry afterwards. -/
def RemoveLabel (m : List (Address × Label)) (rAddress : Address) :
    Bool × List (Address × Label) :=
  match m.find? (fun p => decide (p.1 = rAddress)) with
  | none => (false, m)
  | some _ => (true, m.eraseP (fun p => decide (p.1 = rAddress)))

/-- The function `TextDatabase::GetLabel`: the label written to `rLabel`, `none` when the
function returns `false`. -/
def GetLabel (m : List (Address × Label)) (rAddress : Address) : Option Label :=
  (m.find? (fun p => decide (p.1 = rAddress))).map Prod.snd

/-- The function `TextDatabase::GetLabelAddress`: the address written to `rAddress`, `none`
when the function returns `false`. -/
def GetLabelAddress (m : List (Address × Label)) (rLabel : Label) : Option Address :=
  (m.find? (fun p => p.2.sameKey rLabel)).map Prod.fst

/-- The registries reachable from the empty one by `AddLabel` and `RemoveLabel`. -/
inductive LabelsBuilt : List (Address × Label) → Prop
  | empty : LabelsBuilt []
  | add (m : List (Address × Label)) (a : Address) (l : Label) (h : LabelsBuilt m) :
      LabelsBuilt (AddLabel m a l).2
  | remove (m : List (Address × Label)) (a : Address) (h : LabelsBuilt m) :
      LabelsBuilt (RemoveLabel m a).2

/-- No two pairs of the registry share an address or a label name. -/
def LabelsUnique (m : List (Address × Label)) : Prop :=
  m.Pairwise fun p q => p.1 ≠ q.1 ∧ p.2.m_Name ≠ q.2.m_Name

/-- A registry with the one label `start` at the address `0x10`. -/
def oneLabel : List (Address × Label) :=
  [(⟨0, 0x10⟩, { m_Name := "start".toList, m_Type := 0, m_Version := 1 })]

/-! ## Opening a database -/

/-- Virtual `SetCellData`; the one of a virtual area returns `false` and does nothing.
The result is `none` when the one of a mapped area writes outside its vector. -/
def MemoryArea.SetCellData : MemoryArea → Nat → CellData → List Address → Bool →
    Option (Bool × MemoryArea × List Address)
  | MemoryArea.mapped A, Offset, spCell, rDeletedCellAddresses, Force =>
    (A.SetCellData Offset spCell rDeletedCellAddresses Force).map fun r =>
      (r.1, MemoryArea.mapped r.2.1, r.2.2)
  | MemoryArea.virt V, _, _, rDeletedCellAddresses, _ =>
    some (false, MemoryArea.virt V, rDeletedCellAddresses)

/-- Modelled from the spec: the place `m_MemoryAreas.insert` gives an area in the
ordered set keyed by base address; `none` when the set holds an area of that base
address already and does not take the new one. -/
def insertSlot : MemoryArea → List MemoryArea → Option Nat
  | _, [] => some 0
  | M, N :: rest =>
    if M.GetBaseAddress.lt N.GetBaseAddress then some 0
    else if N.GetBaseAddress.lt M.GetBaseAddress then (insertSlot M rest).map fun i => i + 1
    else none

/-- What `pMemArea` points to in `Open`: the area, and its place in `m_MemoryAreas`,
`none` when the set did not take it. -/
structure AreaPtr where
  area : MemoryArea
  slot : Option Nat
deriving DecidableEq, Repr

/-- What the loop of `Open` carries from line to line: the database, the parser
state and `pMemArea` (`none` is the null pointer). -/
structure OpenState where
  db : TextDatabase
  CurState : State
  pMemArea : Option AreaPtr
deriving DecidableEq, Repr

/-- The fields `Open` reads from an `ma(m` line. -/
structure MappedFields where
  Name : String
  FileOffset : Nat
  FileSize : Nat
  VirtAddr : Address
  VirtSize : Nat
  Access : List Char

/-- The fields `Open` reads from an `ma(v` line. -/
structure VirtualFields where
  Name : String
  VirtAddr : Address
  VirtSize : Nat
  Access : List Char

/-- The fields `Open` reads from a cell line; `CellType` is the variable `Type`. -/
structure DnaFields where
  DnaOffset : Nat
  CellType : Nat
  SubType : Nat
  Size : Nat
  FormatStyle : Nat
  Flags : Nat
  Mode : Nat
  ArchTag : Nat

/-- What `Open` takes from outside the sources: the module manager
(`FindArchitecture` tells whether it knows a tag), the stream operators that read
the tags of an architecture line and the fields of an area line and of a cell line,
the three access enumerators of `MemoryArea`, and what a line of the label,
cross-reference, multi-cell and comment sections does to the database (none of
these four branches returns, and none touches `CurState` or `pMemArea`). -/
structure Readers where
  FindArchitecture : Nat → Bool
  tags : List Char → List Nat
  mappedFields : List Char → MappedFields
  virtualFields : List Char → VirtualFields
  dnaFields : List Char → DnaFields
  Read : Nat
  Write : Nat
  Execute : Nat
  otherSection : State → List Char → TextDatabase → TextDatabase

/-- The lambda `ParseAccess` of `Open`; a character read past the end of the string
counts as the terminating zero. -/
def ParseAccess (R : Readers) (Acc : List Char) : Nat :=
  let Res := 0
  let Res := if Acc.getD 0 '\x00' = 'R' then Res ||| R.Read else Res
  let Res := if Acc.getD 1 '\x00' = 'W' then Res ||| R.Write else Res
  let Res := if Acc.getD 2 '\x00' = 'X' then Res ||| R.Execute else Res
  Res % U32Mod

/-- Modelled from the spec: the constructor of `MappedMemoryArea`, defined in the
memory-area header: it stores its arguments, and the area owns no cell yet. -/
def MappedMemoryArea.create (f : MappedFields) (Access : Nat) : MappedMemoryArea :=
  { m_Name := f.Name, m_Access := Access, m_FileOffset := f.FileOffset % TOffsetMod,
    m_FileSize := f.FileSize % U32Mod, m_VirtualBase := f.VirtAddr,
    m_VirtualSize := f.VirtSize % U32Mod, m_Cells := [] }

/-- Modelled from the spec: the constructor of `VirtualMemoryArea`, defined in the
memory-area header: it stores its arguments. -/
def VirtualMemoryArea.create (f : VirtualFields) (Access : Nat) : VirtualMemoryArea :=
  { m_Name := f.Name, m_Access := Access, m_VirtualBase := f.VirtAddr,
    m_VirtualSize := f.VirtSize % U32Mod }

/-- The C function `isspace`, which the extraction of a `char` skips. -/
def isspace (c : Char) : Bool :=
  c = ' ' || c = '\t' || c = '\n' || c = '\x0b' || c = '\x0c' || c = '\r'

/-- The outcome of one round of the loop of `Open`: the loop goes on, or `Open`
returns `false` leaving the database given, or the round has no defined behaviour (it
dereferences the null `pMemArea`, erases before the beginning of the line, switches
on a `Type` that was never read, or writes outside a cell vector). -/
inductive LineResult where
  | next (st : OpenState)
  | returnFalse (db : TextDatabase)
  | undefined
deriving DecidableEq, Repr

/-- The outcome of `Open`: the returned `bool` with the database it leaves, or no
defined behaviour. -/
inductive OpenResult where
  | returned (Res : Bool) (db : TextDatabase)
  | undefined
deriving DecidableEq, Repr

/-- The `MemoryAreaState` branch of `Open`, on a line that starts with `ma(`; `AreaType`
is the variable `Type`. -/
def openAreaLine (R : Readers) (CurLine : List Char) (st : OpenState) : LineResult :=
  let erased := CurLine.drop 3
  if erased = [] then LineResult.undefined
  else
    let body := erased.dropLast
    match body.dropWhile isspace with
    | [] => LineResult.undefined
    | AreaType :: iss =>
      let made : Option MemoryArea :=
        if AreaType = 'm' then
          let f := R.mappedFields iss
          some (MemoryArea.mapped (MappedMemoryArea.create f (ParseAccess R f.Access)))
        else if AreaType = 'v' then
          let f := R.virtualFields iss
          some (MemoryArea.virt (VirtualMemoryArea.create f (ParseAccess R f.Access)))
        else none
      match made with
      | none => LineResult.returnFalse st.db
      | some M =>
        LineResult.next
          { st with
            db := { st.db with m_MemoryAreas := insertArea M st.db.m_MemoryAreas }
            pMemArea := some { area := M, slot := insertSlot M st.db.m_MemoryAreas } }

/-- The `MemoryAreaState` branch of `Open`, on a line that starts with `|`. The result
of `SetCellData` is dropped, as in the source. -/
def openCellLine (R : Readers) (CurLine : List Char) (st : OpenState) : LineResult :=
  let f := R.dnaFields CurLine
  let spDna : CellData :=
    { m_Type := f.CellType % 2 ^ 16 % 2 ^ 8, m_SubType := f.SubType % 2 ^ 16 % 2 ^ 8,
      m_Length := f.Size % 2 ^ 16, m_FormatStyle := f.FormatStyle % 2 ^ 16,
      m_Flags := f.Flags % 2 ^ 16 % 2 ^ 8, m_ArchTag := f.ArchTag % U32Mod,
      m_Mode := f.Mode % 2 ^ 16 % 2 ^ 8 }
  match st.pMemArea with
  | none => LineResult.undefined
  | some p =>
    match p.area.SetCellData ((p.area.GetBaseAddress.m_Offset + f.DnaOffset % U32Mod) % TOffsetMod)
        spDna [] true with
    | none => LineResult.undefined
    | some (_, M, _) =>
      let areas :=
        match p.slot with
        | none => st.db.m_MemoryAreas
        | some i => st.db.m_MemoryAreas.set i M
      LineResult.next
        { st with
          db := { st.db with m_MemoryAreas := areas }
          pMemArea := some { p with area := M } }

/-- One round of the `while (std::getline(TextFile, CurLine))` loop of `Open`. -/
def openLine (R : Readers) (CurLine : List Char) (st : OpenState) : LineResult :=
  if CurLine = "# Medusa Text Database".toList then LineResult.next st
  else if CurLine.take 3 = "## ".toList then
    match StrToState CurLine with
    | none => LineResult.returnFalse st.db
    | some s => LineResult.next { st with CurState := s }
  else
    match st.CurState with
    | State.BinaryStreamState =>
      let RawBinStr := Base64Decode CurLine
      if RawBinStr.isEmpty then LineResult.returnFalse st.db
      else LineResult.next { st with db := { st.db with m_spBinStrm := some RawBinStr } }
    | State.ArchitectureState =>
      LineResult.next
        { st with
          db := { st.db with
            m_ArchitectureTags :=
              st.db.m_ArchitectureTags ++ (R.tags CurLine).filter R.FindArchitecture } }
    | State.MemoryAreaState =>
      if CurLine.take 3 = "ma(".toList then openAreaLine R CurLine st
      else if CurLine.head? = some '|' then openCellLine R CurLine st
      else LineResult.next st
    | State.UnknownState => LineResult.returnFalse st.db
    | s => LineResult.next { st with db := R.otherSection s CurLine st.db }

/-- The loop of `Open` over the lines of the file. -/
def openLoop (R : Readers) : List (List Char) → OpenState → OpenResult
  | [], st => OpenResult.returned true st.db
  | CurLine :: rest, st =>
    match openLine R CurLine st with
    | LineResult.returnFalse db => OpenResult.returned false db
    | LineResult.undefined => OpenResult.undefined
    | LineResult.next st2 => openLoop R rest st2

/-- The function `TextDatabase::Open` on a file given by its lines, `none` when the file cannot
be opened. -/
def Open (R : Readers) (file : Option (List (List Char))) (rDatabasePath : List Char)
    (D : TextDatabase) : OpenResult :=
  if D.m_DatabasePath ≠ [] then OpenResult.returned false D
  else
    let D1 := { D with m_DatabasePath := rDatabasePath }
    match file with
    | none => OpenResult.returned false D1
    | some lines =>
      openLoop R lines { db := D1, CurState := State.UnknownState, pMemArea := none }

/-- The state the loop of `Open` has reached when the given lines are read: the
first outcome that ends the loop, `next` when none does. -/
def openAfter (R : Readers) : List (List Char) → OpenState → LineResult
  | [], st => LineResult.next st
  | CurLine :: rest, st =>
    match openLine R CurLine st with
    | LineResult.next st2 => openAfter R rest st2
    | r => r

/-- What `Open` answers when its loop ends with the given outcome. -/
def LineResult.toOpen : LineResult → OpenResult
  | LineResult.next st => OpenResult.returned true st.db
  | LineResult.returnFalse db => OpenResult.returned false db
  | LineResult.undefined => OpenResult.undefined

/-- What a database stores, its path apart. -/
def TextDatabase.content (D : TextDatabase) : TextDatabase := { D with m_DatabasePath := [] }

/-- The type character of an `ma(` line, as `Open` reads it: the first character that
is not a space between `ma(` and the last character of the line. -/
def areaTypeChar (CurLine : List Char) : Option Char :=
  (((CurLine.drop 3).dropLast).dropWhile isspace).head?

/-- A file that stores a binary stream and then has a header of no section. -/
def streamThenBadHeader : List (List Char) :=
  ["# Medusa Text Database".toList, "## BinaryStream".toList, "YWJj".toList, "## Bogus".toList]

/-- A file whose cell line comes before any `ma(` line, followed by a header of no
section. -/
def cellBeforeArea : List (List Char) :=
  ["## MemoryArea".toList, "|0x0 dna(0x2 0x3 0x1 0 0 0 0)".toList, "## NoSuchSection".toList]

/-- A file whose `ma(` line has the type character `x`. -/
def badAreaType : List (List Char) :=
  ["# Medusa Text Database".toList, "## MemoryArea".toList,
   "ma(x .text 0x0 0x10 0:0x0 0x10 RWX)".toList]

/-- Readers that know no architecture and read nothing from a line. -/
def noReaders : Readers :=
  { FindArchitecture := fun _ => false
    tags := fun _ => []
    mappedFields := fun _ =>
      { Name := "", FileOffset := 0, FileSize := 0, VirtAddr := ⟨0, 0⟩, VirtSize := 0,
        Access := [] }
    virtualFields := fun _ => { Name := "", VirtAddr := ⟨0, 0⟩, VirtSize := 0, Access := [] }
    dnaFields := fun _ =>
      { DnaOffset := 0, CellType := 0, SubType := 0, Size := 0, FormatStyle := 0, Flags := 0,
        Mode := 0, ArchTag := 0 }
    Read := 1
    Write := 2
    Execute := 4
    otherSection := fun _ _ D => D }

/-! ## Virtual areas: writing -/

/-- The function `VirtualMemoryArea::SetCellData`: it returns `false` and writes nothing; the
result is the returned `bool`, the area and the caller's list of deleted addresses. -/
def VirtualMemoryArea.SetCellData (V : VirtualMemoryArea) (_Offset : Nat) (_spCell : CellData)
    (rDeletedCellAddresses : List Address) (_Force : Bool) :
    Bool × VirtualMemoryArea × List Address :=
  (false, V, rDeletedCellAddresses)

/-- A virtual area of 8 bytes at offset `0x100`. -/
def virtualArea : VirtualMemoryArea :=
  { m_Name := "", m_Access := 0, m_VirtualBase := ⟨0, 0x100⟩, m_VirtualSize := 8 }

/-! ## Creating a database

The file at the path of a database is an `Option`: `none` when there is no file,
otherwise its lines. The three helpers open it with a stream of the standard library:
an open for reading, or for reading and writing (`in | out`), succeeds exactly on a
file that exists, and an open with `in | out | trunc` creates the file or empties it.
No open fails for another reason, such as a missing permission. -/

/-- The function `TextDatabase::_FileExists`: whether an `std::ifstream` on the path is good. -/
def _FileExists (file : Option (List (List Char))) : Bool := file.isSome

/-- The function `TextDatabase::_FileRemoves`: it opens the path with `in | out | trunc`; the
result is the returned `bool` and the file it leaves. -/
def _FileRemoves (_file : Option (List (List Char))) : Bool × Option (List (List Char)) :=
  (true, some [])

/-- The function `TextDatabase::_FileCanCreate`: whether an `std::fstream` opened with `in | out`
on the path is open. -/
def _FileCanCreate (file : Option (List (List Char))) : Bool := file.isSome

/-- The function `TextDatabase::Create`: the returned `bool`, the database and the file it
leaves at the path. -/
def Create (file : Option (List (List Char))) (rDatabasePath : List Char) (Force : Bool)
    (D : TextDatabase) : Bool × TextDatabase × Option (List (List Char)) :=
  if D.m_DatabasePath ≠ [] then (false, D, file)
  else if (!Force && _FileExists file) = true then (false, D, file)
  else
    let file1 := if Force = true then (_FileRemoves file).2 else file
    if (!_FileCanCreate file1) = true then (false, D, file1)
    else (true, { D with m_DatabasePath := rDatabasePath }, file1)

/-! ## The ARM architecture -/

/-- The part of an `Instruction` that `FormatInstruction` reads and writes: what
`GetName` and `GetPrefix` return and what `UpdateString` sets. -/
structure Instruction where
  m_Name : List Char
  m_Prefix : Nat
  m_String : List Char
deriving DecidableEq, Repr

/-- The table `Suffix` of `FormatInstruction`. -/
def Suffix : List String :=
  ["eq", "ne", "cs", "cc", "mi", "pl", "vs", "vc", "hi", "ls", "ge", "lt", "gt", "le", "", ""]

/-- The function `ArmArchitecture::FormatInstruction`; the enumerator `ARM_Prefix_S`, declared
outside the sources, is a parameter. The database, the stream and the address are
not read. -/
def FormatInstruction (ARM_Prefix_S : Nat) (rInsn : Instruction) : Instruction :=
  let oss := rInsn.m_Name
  let oss := oss ++ (Suffix.getD (rInsn.m_Prefix &&& 0xf) "").toList
  let oss := if rInsn.m_Prefix &&& ARM_Prefix_S ≠ 0 then oss ++ "s".toList else oss
  { rInsn with m_String := oss }

/-- The condition suffix the specification gives for the low four bits of a prefix:
"eq, ne, cs, cc, mi, pl, vs, vc, hi, ls, ge, lt, gt, le, empty, empty". -/
def conditionSuffix : Nat → String
  | 0 => "eq"
  | 1 => "ne"
  | 2 => "cs"
  | 3 => "cc"
  | 4 => "mi"
  | 5 => "pl"
  | 6 => "vs"
  | 7 => "vc"
  | 8 => "hi"
  | 9 => "ls"
  | 10 => "ge"
  | 11 => "lt"
  | 12 => "gt"
  | 13 => "le"
  | _ => ""

/-- A file whose first line of the memory-area section is a cell line. -/
def cellLineFirst : List (List Char) :=
  ["# Medusa Text Database".toList, "## MemoryArea".toList,
   "|0x0 dna(0x2 0x3 0x1 0 0 0 0)".toList]

/-- A file whose cell line follows the line of a mapped area. -/
def cellLineAfterArea : List (List Char) :=
  ["# Medusa Text Database".toList, "## MemoryArea".toList,
   "ma(m .text 0x0 0x10 0:0x0 0x10 RWX)".toList, "|0x0 dna(0x2 0x3 0x1 0 0 0 0)".toList]

/-! ## Reported cells below an offset -/

/-- The offsets of the first `k` bytes of the area, `[base, base + k)`, at which
`GetCellData` returns a cell, greatest first. -/
def MappedMemoryArea.reportedBelow (A : MappedMemoryArea) : Nat → List Nat
  | 0 => []
  | k + 1 =>
    if (A.GetCellData (A.m_VirtualBase.m_Offset + k)).isSome then
      (A.m_VirtualBase.m_Offset + k) :: reportedBelow A k
    else reportedBelow A k

/-- The file `Flush` writes for a binary stream of the two bytes of `hi`, up to the
line of the stream. -/
def hiStreamFile : List (List Char) :=
  ["# Medusa Text Database".toList, "## BinaryStream".toList, Base64Encode [0x68, 0x69]]

/-! ## Replaying the cells of an area -/

/-- The writes `Open` makes for the cell lines of an enumeration of `ForEachCellData`:
each pair `(Offset, cell)` is written with
`SetCellData(GetBaseAddress().GetOffset() + Offset, cell, DelAddr, true)`, whose result
is dropped. `none` is a write outside the cell vector. -/
def MappedMemoryArea.replayCells :
    List (Nat × CellData) → MappedMemoryArea → Option MappedMemoryArea
  | [], B => some B
  | (Offset, spDna) :: rest, B =>
    match B.SetCellData ((B.GetBaseAddress.m_Offset + Offset) % TOffsetMod) spDna [] true with
    | none => none
    | some (_, B2, _) => replayCells rest B2

end Medusa

/-! # Theorems -/

namespace Medusa

namespace MappedMemoryArea

/-! ## Lemmas on the cell vector -/

theorem cellAt_eq_none_of_le (A : MappedMemoryArea) {i : Nat} (h : A.m_Cells.length ≤ i) :
    A.cellAt i = none := by
  unfold cellAt
  simp [List.getD_eq_getElem?_getD, List.getElem?_eq_none h]

theorem cellAt_lt_length (A : MappedMemoryArea) {i : Nat} {c : CellData}
    (h : A.cellAt i = some c) : i < A.m_Cells.length := by
  by_contra hlt
  rw [cellAt_eq_none_of_le A (Nat.le_of_not_lt hlt)] at h
  cases h

theorem getElem?_eq_cellAt (A : MappedMemoryArea) {i : Nat} (h : i < A.m_Cells.length) :
    A.m_Cells[i]? = some (A.cellAt i) := by
  unfold cellAt
  simp [List.getD_eq_getElem?_getD, List.getElem?_eq_getElem h]

theorem prev_some_iff (A : MappedMemoryArea) (n p : Nat) :
    A._GetPreviousCellOffset n = some p ↔
      p < n ∧ (∃ c, A.cellAt p = some c) ∧ ∀ j, p < j → j < n → A.cellAt j = none := by
  induction n with
  | zero => simp [_GetPreviousCellOffset]
  | succ n ih =>
    unfold _GetPreviousCellOffset
    cases hc : A.m_Cells.getD n none with
    | some c =>
      simp only [Option.some.injEq]
      constructor
      · rintro rfl
        exact ⟨Nat.lt_succ_self _, ⟨c, hc⟩, fun j h1 h2 => by omega⟩
      · rintro ⟨h1, _, h3⟩
        by_contra hne
        have hlt : p < n := by omega
        have := h3 n hlt (Nat.lt_succ_self _)
        unfold cellAt at this
        rw [hc] at this
        cases this
    | none =>
      simp only
      rw [ih]
      constructor
      · rintro ⟨h1, h2, h3⟩
        refine ⟨by omega, h2, fun j hj1 hj2 => ?_⟩
        by_cases hjn : j = n
        · subst hjn; exact hc
        · exact h3 j hj1 (by omega)
      · rintro ⟨h1, ⟨c, h2⟩, h3⟩
        have hpn : p ≠ n := by
          rintro rfl
          unfold cellAt at h2
          rw [hc] at h2
          cases h2
        exact ⟨by omega, ⟨c, h2⟩, fun j hj1 hj2 => h3 j hj1 (by omega)⟩

theorem prev_none_iff (A : MappedMemoryArea) (n : Nat) :
    A._GetPreviousCellOffset n = none ↔ ∀ j, j < n → A.cellAt j = none := by
  induction n with
  | zero => simp [_GetPreviousCellOffset]
  | succ n ih =>
    unfold _GetPreviousCellOffset
    cases hc : A.m_Cells.getD n none with
    | some c =>
      simp only
      constructor
      · intro h; cases h
      · intro h
        have := h n (Nat.lt_succ_self _)
        unfold cellAt at this
        rw [hc] at this
        cases this
    | none =>
      simp only
      rw [ih]
      constructor
      · intro h j hj
        by_cases hjn : j = n
        · subst hjn; exact hc
        · exact h j (by omega)
      · intro h j hj
        exact h j (by omega)

theorem isCellPresent_iff (A : MappedMemoryArea) (o : Nat) :
    A.IsCellPresent o = true ↔
      A.m_VirtualBase.m_Offset ≤ o ∧ o < A.m_VirtualBase.m_Offset + A.m_VirtualSize := by
  simp [IsCellPresent, IsBetween, GetSize]

theorem isCellPresent_eq_false_iff (A : MappedMemoryArea) (o : Nat) :
    A.IsCellPresent o = false ↔
      ¬ (A.m_VirtualBase.m_Offset ≤ o ∧ o < A.m_VirtualBase.m_Offset + A.m_VirtualSize) := by
  rw [← isCellPresent_iff]
  cases A.IsCellPresent o <;> simp

theorem nullOut_spec (Count : Nat) : ∀ (v : List (Option CellData)) (Idx : Nat),
    Idx + Count ≤ v.length →
    ∃ v2, nullOut v Idx Count = some v2 ∧ v2.length = v.length ∧
      ∀ j, v2.getD j none = if Idx ≤ j ∧ j < Idx + Count then none else v.getD j none := by
  induction Count with
  | zero =>
    intro v Idx _
    refine ⟨v, rfl, rfl, fun j => ?_⟩
    have : ¬ (Idx ≤ j ∧ j < Idx + 0) := by omega
    rw [if_neg this]
  | succ n ih =>
    intro v Idx h
    have hlt : Idx < v.length := by omega
    obtain ⟨v2, h1, h2, h3⟩ := ih (v.set Idx none) (Idx + 1) (by simp; omega)
    refine ⟨v2, ?_, ?_, fun j => ?_⟩
    · simp [nullOut, hlt, h1]
    · simpa using h2
    · rw [h3 j]
      by_cases hj : j = Idx
      · subst hj
        have c1 : ¬ (j + 1 ≤ j ∧ j < j + 1 + n) := by omega
        have c2 : (j ≤ j ∧ j < j + (n + 1)) := by omega
        simp [c1, c2, List.getD_eq_getElem?_getD, List.getElem?_set, hlt]
      · by_cases hr : Idx + 1 ≤ j ∧ j < Idx + 1 + n
        · have c2 : (Idx ≤ j ∧ j < Idx + (n + 1)) := by omega
          simp [hr, c2]
        · have c2 : ¬ (Idx ≤ j ∧ j < Idx + (n + 1)) := by omega
          have hne : Idx ≠ j := fun h => hj h.symm
          simp [hr, c2, List.getD_eq_getElem?_getD, List.getElem?_set, hne]

theorem resize_length (v : List (Option CellData)) (n : Nat) (h : v.length ≤ n) :
    (resize v n).length = n := by
  simp [resize]; omega

theorem resize_getD (v : List (Option CellData)) (n j : Nat) :
    (resize v n).getD j none = v.getD j none := by
  unfold resize
  by_cases hj : j < v.length
  · simp [List.getD_eq_getElem?_getD, List.getElem?_append_left hj]
  · have hj2 : v.length ≤ j := Nat.le_of_not_lt hj
    simp only [List.getD_eq_getElem?_getD, List.getElem?_append_right hj2,
      List.getElem?_eq_none hj2]
    by_cases hk : j - v.length < n - v.length
    · simp [List.getElem?_replicate, hk]
    · simp [List.getElem?_replicate, hk]

/-- Closed form of a successful `SetCellData`. -/
theorem SetCellData_spec (A : MappedMemoryArea) (o : Nat) (c : CellData) (d : List Address)
    (f : Bool) (hp : A.IsCellPresent o = true) (hl : 1 ≤ c.GetLength) :
    ∃ A2, A.SetCellData o c d f = some (true, A2, d) ∧
      A2.m_VirtualBase = A.m_VirtualBase ∧ A2.m_VirtualSize = A.m_VirtualSize ∧
      A2.m_FileOffset = A.m_FileOffset ∧ A2.m_FileSize = A.m_FileSize ∧
      A2.m_Cells.length = max A.m_Cells.length (o - A.m_VirtualBase.m_Offset + c.GetLength) ∧
      ∀ j, A2.cellAt j =
        if j = o - A.m_VirtualBase.m_Offset then some c
        else if o - A.m_VirtualBase.m_Offset < j ∧
          j < o - A.m_VirtualBase.m_Offset + c.GetLength then none
        else A.cellAt j := by
  unfold SetCellData
  simp only [hp, Bool.true_eq_false, if_false]
  generalize hi : o - A.m_VirtualBase.m_Offset = i
  -- the vector after the optional growth
  have hgrow : ∃ v, (if A.m_Cells.length < i + c.GetLength then
        nullOut (resize A.m_Cells (i + c.GetLength)) A.m_Cells.length
          (i + c.GetLength - A.m_Cells.length)
      else some A.m_Cells) = some v ∧
      v.length = max A.m_Cells.length (i + c.GetLength) ∧
      ∀ j, v.getD j none = A.m_Cells.getD j none := by
    by_cases hlt : A.m_Cells.length < i + c.GetLength
    · have hlen := resize_length A.m_Cells (i + c.GetLength) (Nat.le_of_lt hlt)
      obtain ⟨v, h1, h2, h3⟩ := nullOut_spec (i + c.GetLength - A.m_Cells.length)
        (resize A.m_Cells (i + c.GetLength)) A.m_Cells.length (by rw [hlen]; omega)
      refine ⟨v, by simp [hlt, h1], by rw [h2, hlen]; omega, fun j => ?_⟩
      rw [h3 j, resize_getD]
      split
      · rename_i hj
        simp [List.getD_eq_getElem?_getD, List.getElem?_eq_none hj.1]
      · rfl
    · exact ⟨A.m_Cells, by simp [hlt], by omega, fun _ => rfl⟩
  obtain ⟨v, hv, hvlen, hvget⟩ := hgrow
  rw [hv]
  have hiv : i < v.length := by rw [hvlen]; omega
  simp only [hiv, if_true]
  obtain ⟨v2, h1, h2, h3⟩ := nullOut_spec (i + c.GetLength - (i + 1))
    (v.set i (some c)) (i + 1) (by simp; omega)
  rw [h1]
  refine ⟨{ A with m_Cells := v2 }, rfl, rfl, rfl, rfl, rfl, ?_, fun j => ?_⟩
  · simp only [h2, List.length_set, hvlen]
  · show v2.getD j none = _
    rw [h3 j]
    by_cases hj : j = i
    · subst hj
      have c1 : ¬ (j + 1 ≤ j ∧ j < j + 1 + (j + c.GetLength - (j + 1))) := by omega
      simp [c1, List.getD_eq_getElem?_getD, List.getElem?_set, hiv]
    · by_cases hr : i < j ∧ j < i + c.GetLength
      · have c1 : (i + 1 ≤ j ∧ j < i + 1 + (i + c.GetLength - (i + 1))) := by omega
        simp [c1, hj, hr]
      · have c1 : ¬ (i + 1 ≤ j ∧ j < i + 1 + (i + c.GetLength - (i + 1))) := by omega
        have hne : i ≠ j := fun h => hj h.symm
        have := hvget j
        simp only [List.getD_eq_getElem?_getD] at this
        simp [c1, hj, hr, cellAt, List.getD_eq_getElem?_getD, List.getElem?_set, hne, this]

theorem prevChecked_eq (A : MappedMemoryArea) (n : Nat) (h : n ≤ A.m_Cells.length) :
    A._GetPreviousCellOffsetChecked n = some (A._GetPreviousCellOffset n) := by
  induction n with
  | zero => rfl
  | succ n ih =>
    have hn : n < A.m_Cells.length := by omega
    unfold _GetPreviousCellOffsetChecked _GetPreviousCellOffset
    rw [getElem?_eq_cellAt A hn]
    change (match some (A.cellAt n) with
      | none => none
      | some (some _) => some (some n)
      | some none => A._GetPreviousCellOffsetChecked n) =
      some (match A.cellAt n with
        | some _ => some n
        | none => A._GetPreviousCellOffset n)
    cases A.cellAt n with
    | some c => rfl
    | none => exact ih (by omega)

/-- The bounds-checked reading never leaves the vector and returns what
`GetCellData` returns. -/
theorem GetCellDataChecked_eq (A : MappedMemoryArea) (o : Nat) :
    A.GetCellDataChecked o = some (A.GetCellData o) := by
  unfold GetCellDataChecked GetCellData
  by_cases hp : A.IsCellPresent o = false
  · simp [hp]
  · simp only [hp, if_false]
    generalize o - A.m_VirtualBase.m_Offset = i
    by_cases hi : i ≥ A.m_Cells.length
    · simp [hi]
    · simp only [hi, if_false]
      have hlt : i < A.m_Cells.length := by omega
      rw [getElem?_eq_cellAt A hlt, prevChecked_eq A i (by omega)]
      change (match some (A.cellAt i) with
        | none => none
        | some (some c) => some (some c)
        | some none =>
          match some (A._GetPreviousCellOffset i) with
          | none => none
          | some (some PrevOff) =>
            match A.m_Cells[PrevOff]? with
            | some (some prev) =>
              if i < PrevOff + prev.GetLength then some none
              else some (some defaultCellData)
            | _ => none
          | some none => some (some defaultCellData)) =
        some (match A.cellAt i with
          | some c => some c
          | none =>
            match A._GetPreviousCellOffset i with
            | some PrevOff =>
              match A.cellAt PrevOff with
              | some prev =>
                if i < PrevOff + prev.GetLength then none else some defaultCellData
              | none => some defaultCellData
            | none => some defaultCellData)
      cases hc : A.cellAt i with
      | some c => rfl
      | none =>
        cases hprev : A._GetPreviousCellOffset i with
        | none => rfl
        | some p =>
          obtain ⟨hpi, ⟨pc, hpc⟩, _⟩ := (prev_some_iff A i p).1 hprev
          have hpl : p < A.m_Cells.length := by omega
          simp only [getElem?_eq_cellAt A hpl, hpc]
          split <;> rfl

theorem GetCellData_not_present (A : MappedMemoryArea) (o : Nat)
    (h : A.IsCellPresent o = false) : A.GetCellData o = none := by
  simp [GetCellData, h]

/-- A recorded cell is what `GetCellData` returns at its start. -/
theorem GetCellData_recorded (A : MappedMemoryArea) (o : Nat) (c : CellData)
    (hp : A.IsCellPresent o = true)
    (hc : A.cellAt (o - A.m_VirtualBase.m_Offset) = some c) : A.GetCellData o = some c := by
  have hlt := cellAt_lt_length A hc
  unfold GetCellData
  simp only [hp, Bool.true_eq_false, if_false]
  have : ¬ (o - A.m_VirtualBase.m_Offset ≥ A.m_Cells.length) := by omega
  simp only [this, if_false]
  unfold cellAt at hc
  rw [hc]

/-- An offset whose slot is null and whose nearest recorded predecessor reaches
over it is absent. -/
theorem GetCellData_covered (A : MappedMemoryArea) (o s : Nat) (c : CellData)
    (hlen : o - A.m_VirtualBase.m_Offset < A.m_Cells.length)
    (hs : s < o - A.m_VirtualBase.m_Offset) (hc : A.cellAt s = some c)
    (hgap : ∀ j, s < j → j ≤ o - A.m_VirtualBase.m_Offset → A.cellAt j = none)
    (hcov : o - A.m_VirtualBase.m_Offset < s + c.GetLength) : A.GetCellData o = none := by
  unfold GetCellData
  by_cases hp : A.IsCellPresent o = false
  · simp [hp]
  · simp only [hp, if_false]
    have : ¬ (o - A.m_VirtualBase.m_Offset ≥ A.m_Cells.length) := by omega
    simp only [this, if_false]
    have h0 := hgap _ hs (Nat.le_refl _)
    have hprev : A._GetPreviousCellOffset (o - A.m_VirtualBase.m_Offset) = some s :=
      (prev_some_iff A _ s).2 ⟨hs, ⟨c, hc⟩, fun j h1 h2 => hgap j h1 (by omega)⟩
    unfold cellAt at h0 hc
    rw [h0]
    simp only [hprev]
    rw [hc]
    simp only [hcov, if_true]
    split <;> rfl

/-- An offset of the area that is neither a recorded start nor reached over by the
nearest recorded predecessor reads as the default cell. -/
theorem GetCellData_default (A : MappedMemoryArea) (o : Nat)
    (hp : A.IsCellPresent o = true)
    (hc : A.cellAt (o - A.m_VirtualBase.m_Offset) = none)
    (hfree : ∀ s c, s < o - A.m_VirtualBase.m_Offset → A.cellAt s = some c →
      (∀ j, s < j → j < o - A.m_VirtualBase.m_Offset → A.cellAt j = none) →
      s + c.GetLength ≤ o - A.m_VirtualBase.m_Offset) :
    A.GetCellData o = some defaultCellData := by
  unfold GetCellData
  simp only [hp, Bool.true_eq_false, if_false]
  split
  · rfl
  · have hc2 := hc
    unfold cellAt at hc2
    rw [hc2]
    cases hprev : A._GetPreviousCellOffset (o - A.m_VirtualBase.m_Offset) with
    | none => rfl
    | some p =>
      obtain ⟨hpi, ⟨pc, hpc⟩, hgap⟩ := (prev_some_iff A _ p).1 hprev
      have := hfree p pc hpi hpc hgap
      unfold cellAt at hpc
      simp only [hpc]
      rw [if_neg (by omega)]

/-- The list of deleted addresses comes back from `SetCellData` as it went in. -/
theorem SetCellData_keeps_deleted (A A2 : MappedMemoryArea) (o : Nat) (c : CellData)
    (d d2 : List Address) (f b : Bool) (h : A.SetCellData o c d f = some (b, A2, d2)) :
    d2 = d := by
  unfold SetCellData at h
  split at h
  · simp only [Option.some.injEq, Prod.mk.injEq] at h
    exact h.2.2.symm
  · simp only at h
    split at h
    · cases h
    · split at h
      · split at h
        · cases h
        · simp only [Option.some.injEq, Prod.mk.injEq] at h
          exact h.2.2.symm
      · cases h

theorem SetCellData_not_present (A : MappedMemoryArea) (o : Nat) (c : CellData)
    (d : List Address) (f : Bool) (hp : A.IsCellPresent o = false) :
    A.SetCellData o c d f = some (false, A, d) := by
  simp [SetCellData, hp]

/-- Every area the program can build satisfies the representation invariant. -/
theorem Built.cellsFit {A : MappedMemoryArea} (h : Built A) : A.CellsFit := by
  induction h with
  | init A h =>
    intro i c hc
    simp [cellAt, h] at hc
  | step A A2 o c d d2 f _ hl hs ih =>
    by_cases hp : A.IsCellPresent o = true
    · obtain ⟨A3, h1, _, _, _, _, hlen, hget⟩ := SetCellData_spec A o c d f hp hl
      rw [h1] at hs
      obtain rfl : A3 = A2 := by
        simp only [Option.some.injEq, Prod.mk.injEq, true_and] at hs
        exact hs.1
      intro i ci hci
      rw [hget i] at hci
      by_cases hi : i = o - A.m_VirtualBase.m_Offset
      · simp only [hi, if_true, Option.some.injEq] at hci
        subst hci
        exact ⟨hl, by rw [hlen, hi]; omega⟩
      · simp only [hi, if_false] at hci
        split at hci
        · cases hci
        · have := ih i ci hci
          exact ⟨this.1, by rw [hlen]; omega⟩
    · have hp2 : A.IsCellPresent o = false := by
        cases h : A.IsCellPresent o
        · rfl
        · exact absurd h hp
      rw [SetCellData_not_present A o c d f hp2] at hs
      simp at hs

end MappedMemoryArea

/-- C1 (defect): after a four-byte cell at `0x10` and a forced two-byte cell at `0x12`
on an empty area, `SetCellData` has kept both cells: the area reached is one the
program can build, the cell at `0x10` is still recorded and still reported by
`GetCellData` with length 4, the cell at `0x12` has length 2, and the two intervals
overlap, so the non-overlap invariant is broken. -/
theorem overlapScenario_keeps_both_cells :
    overlapScenario = some (true, overlapArea, []) ∧
    overlapArea.Built ∧
    overlapArea.cellAt 0x10 = some (cellOfLength 4) ∧
    overlapArea.cellAt 0x12 = some (cellOfLength 2) ∧
    overlapArea.GetCellData 0x10 = some (cellOfLength 4) ∧
    overlapArea.GetCellData 0x12 = some (cellOfLength 2) ∧
    ¬ overlapArea.NonOverlap := by
  refine ⟨by decide, ?_, by decide, by decide, by decide, by decide, fun h => ?_⟩
  · exact MappedMemoryArea.Built.step
      { emptyArea 0 0x100 with
        m_Cells := List.replicate 0x10 none ++ [some (cellOfLength 4), none, none, none] }
      overlapArea 0x12 (cellOfLength 2) [] [] true
      (MappedMemoryArea.Built.step (emptyArea 0 0x100) _ 0x10 (cellOfLength 4) [] [] false
        (MappedMemoryArea.Built.init _ rfl) (by decide) (by decide))
      (by decide) (by decide)
  · have := h 0x10 0x12 (cellOfLength 4) (cellOfLength 2) (by decide) (by decide) (by decide)
    revert this
    decide

/-- C2 (defect): in the overlap scenario the caller's list of deleted addresses comes
back empty: the address of the overwritten cell at `0x10` is not in it. -/
theorem overlapScenario_reports_nothing :
    (overlapScenario.map fun r => r.2.2) = some [] ∧
    (overlapScenario.map fun r => decide (overlapArea.MakeAddress 0x10 ∈ r.2.2)) =
      some false := by
  constructor <;> decide

/-- C3: on a mapped area, for an offset `o` of the area and a cell `c` of length at
least one, `SetCellData` stays inside the vector and returns `true`; afterwards the
bounds-checked `GetCellData` returns `c` at `o` and the null pointer at every `p`
with `o < p < o + length`, without leaving the vector. -/
theorem SetCellData_then_GetCellData (A : MappedMemoryArea) (o : Nat) (c : CellData)
    (d : List Address) (f : Bool) (hp : A.IsCellPresent o = true) (hl : 1 ≤ c.GetLength) :
    ∃ A2 d2, A.SetCellData o c d f = some (true, A2, d2) ∧
      A2.GetCellDataChecked o = some (some c) ∧
      ∀ p, o < p → p < o + c.GetLength → A2.GetCellDataChecked p = some none := by
  obtain ⟨A2, h1, hb, hsz, _, _, hlen, hget⟩ := MappedMemoryArea.SetCellData_spec A o c d f hp hl
  have hp2 : A2.IsCellPresent o = true := by
    rw [MappedMemoryArea.isCellPresent_iff] at hp ⊢
    rw [hb, hsz]; exact hp
  have hbase : A.m_VirtualBase.m_Offset ≤ o := ((MappedMemoryArea.isCellPresent_iff A o).1 hp).1
  refine ⟨A2, d, h1, ?_, fun p hp1 hp3 => ?_⟩
  · rw [MappedMemoryArea.GetCellDataChecked_eq]
    congr 1
    apply MappedMemoryArea.GetCellData_recorded A2 o c hp2
    rw [hget, hb]; simp
  · rw [MappedMemoryArea.GetCellDataChecked_eq]
    congr 1
    have hi : o - A.m_VirtualBase.m_Offset < p - A2.m_VirtualBase.m_Offset := by
      rw [hb]; omega
    apply MappedMemoryArea.GetCellData_covered A2 p (o - A.m_VirtualBase.m_Offset) c
    · rw [hlen, hb]; omega
    · exact hi
    · rw [hget]; simp
    · intro j hj1 hj2
      rw [hget]
      rw [hb] at hj2
      have h1 : j ≠ o - A.m_VirtualBase.m_Offset := by omega
      have h2 : o - A.m_VirtualBase.m_Offset < j ∧
          j < o - A.m_VirtualBase.m_Offset + c.GetLength := by omega
      simp [h1, h2]
    · rw [hb]; omega

/-- Witness of C3: a two-byte cell set at offset 5 of an empty area of size 16. -/
theorem SetCellData_then_GetCellData_witness :
    ∃ A2 d2, (emptyArea 0 16).SetCellData 5 (cellOfLength 2) [] false = some (true, A2, d2) ∧
      A2.GetCellDataChecked 5 = some (some (cellOfLength 2)) ∧
      ∀ p, 5 < p → p < 5 + (cellOfLength 2).GetLength → A2.GetCellDataChecked p = some none :=
  SetCellData_then_GetCellData (emptyArea 0 16) 5 (cellOfLength 2) [] false
    (by decide) (by decide)

/-- C4: on a mapped area whose recorded cells do not overlap (C1) and fit in the
vector, for an offset `p` of the area `GetCellData` returns the recorded cell when
one starts at `p`, the null pointer when `p` lies strictly inside a recorded cell,
and the default one-byte hexadecimal value otherwise; for `p` outside the area it
returns the null pointer. Recorded cells are named by their index `s`, that is by
the offset `base + s`. -/
theorem GetCellData_under_C1 (A : MappedMemoryArea) (hfit : A.CellsFit)
    (hno : A.NonOverlap) (p : Nat) :
    (A.IsCellPresent p = true →
      (∀ c, A.cellAt (p - A.m_VirtualBase.m_Offset) = some c → A.GetCellData p = some c) ∧
      ((∃ s c, A.cellAt s = some c ∧ A.m_VirtualBase.m_Offset + s < p ∧
          p < A.m_VirtualBase.m_Offset + s + c.GetLength) → A.GetCellData p = none) ∧
      (A.cellAt (p - A.m_VirtualBase.m_Offset) = none →
        (¬ ∃ s c, A.cellAt s = some c ∧ A.m_VirtualBase.m_Offset + s < p ∧
          p < A.m_VirtualBase.m_Offset + s + c.GetLength) →
        A.GetCellData p = some defaultCellData) ∧
      ((∀ i, A.cellAt i = none) → A.GetCellData p = some defaultCellData)) ∧
    (A.IsCellPresent p = false → A.GetCellData p = none) := by
  refine ⟨fun hp => ⟨fun c hc => MappedMemoryArea.GetCellData_recorded A p c hp hc, ?_, ?_, ?_⟩,
    fun hp => MappedMemoryArea.GetCellData_not_present A p hp⟩
  · rintro ⟨s, c, hc, h1, h2⟩
    have hf := hfit s c hc
    apply MappedMemoryArea.GetCellData_covered A p s c
    · omega
    · omega
    · exact hc
    · intro j hj1 hj2
      cases hj : A.cellAt j with
      | none => rfl
      | some cj =>
        have := hno s j c cj hc hj hj1
        omega
    · omega
  · intro hc hnot
    apply MappedMemoryArea.GetCellData_default A p hp hc
    intro s c hs hsc _
    by_contra hlt
    exact hnot ⟨s, c, hsc, by omega, by omega⟩
  · intro hall
    apply MappedMemoryArea.GetCellData_default A p hp (hall _)
    intro s c _ hsc
    rw [hall s] at hsc
    cases hsc

namespace MappedMemoryArea

/-! ## Lemmas on navigation -/

theorem TOffsetMod_eq : TOffsetMod = 18446744073709551616 := by decide

theorem U32Mod_eq : U32Mod = 4294967296 := by decide

/-- What `GetCellData` returns is a recorded cell or the default cell. -/
theorem GetCellData_some_cases (A : MappedMemoryArea) (o : Nat) (c : CellData)
    (h : A.GetCellData o = some c) :
    A.cellAt (o - A.m_VirtualBase.m_Offset) = some c ∨
      (c = defaultCellData ∧ A.cellAt (o - A.m_VirtualBase.m_Offset) = none) := by
  cases hp : A.IsCellPresent o with
  | false => rw [GetCellData_not_present A o hp] at h; cases h
  | true =>
    unfold GetCellData at h
    simp only [hp, Bool.true_eq_false, if_false] at h
    by_cases hi : o - A.m_VirtualBase.m_Offset ≥ A.m_Cells.length
    · simp only [hi, if_true, Option.some.injEq] at h
      exact Or.inr ⟨h.symm, cellAt_eq_none_of_le A hi⟩
    · simp only [hi, if_false] at h
      cases hc : A.cellAt (o - A.m_VirtualBase.m_Offset) with
      | some c2 =>
        unfold cellAt at hc
        rw [hc] at h
        exact Or.inl h
      | none =>
        right
        refine ⟨?_, rfl⟩
        unfold cellAt at hc
        rw [hc] at h
        simp only at h
        cases hprev : A._GetPreviousCellOffset (o - A.m_VirtualBase.m_Offset) with
        | none =>
          rw [hprev] at h
          exact (Option.some.inj h).symm
        | some q =>
          rw [hprev] at h
          simp only at h
          cases hq : A.m_Cells.getD q none with
          | none =>
            rw [hq] at h
            exact (Option.some.inj h).symm
          | some cq =>
            rw [hq] at h
            simp only at h
            split at h
            · cases h
            · exact (Option.some.inj h).symm

theorem GetCellData_present (A : MappedMemoryArea) (o : Nat) (c : CellData)
    (h : A.GetCellData o = some c) : A.IsCellPresent o = true := by
  cases hp : A.IsCellPresent o
  · rw [GetCellData_not_present A o hp] at h; cases h
  · rfl

/-- The offsets strictly inside a reported cell are absent. -/
theorem GetCellData_inside (A : MappedMemoryArea) (hfit : A.CellsFit) (p : Nat) (c : CellData)
    (h : A.GetCellData p = some c)
    (hgap : ∀ k, p - A.m_VirtualBase.m_Offset < k →
      k < p - A.m_VirtualBase.m_Offset + c.GetLength → A.cellAt k = none)
    (q : Nat) (h1 : p < q) (h2 : q < p + c.GetLength) : A.GetCellData q = none := by
  have hp := (isCellPresent_iff A p).1 (GetCellData_present A p c h)
  rcases GetCellData_some_cases A p c h with hc | ⟨hc, _⟩
  · have hf := hfit _ c hc
    apply GetCellData_covered A q (p - A.m_VirtualBase.m_Offset) c
    · omega
    · omega
    · exact hc
    · intro j hj1 hj2
      exact hgap j hj1 (by omega)
    · omega
  · subst hc
    have : defaultCellData.GetLength = 1 := rfl
    omega

/-- The offset right after a reported cell, when it is in the area, is not absent. -/
theorem GetCellData_after (A : MappedMemoryArea) (p : Nat) (c : CellData)
    (h : A.GetCellData p = some c) (hl : 1 ≤ c.GetLength)
    (hgap : ∀ k, p - A.m_VirtualBase.m_Offset < k →
      k < p - A.m_VirtualBase.m_Offset + c.GetLength → A.cellAt k = none)
    (hnext : A.IsCellPresent (p + c.GetLength) = true) :
    A.GetCellData (p + c.GetLength) ≠ none := by
  have hp := (isCellPresent_iff A p).1 (GetCellData_present A p c h)
  intro hnone
  unfold GetCellData at hnone
  simp only [hnext, Bool.true_eq_false, if_false] at hnone
  generalize hj : p + c.GetLength - A.m_VirtualBase.m_Offset = j at hnone
  generalize hi : p - A.m_VirtualBase.m_Offset = i at hgap
  have hij : j = i + c.GetLength := by omega
  by_cases hlen : j ≥ A.m_Cells.length
  · simp [hlen] at hnone
  · simp only [hlen, if_false] at hnone
    cases hcj : A.m_Cells.getD j none with
    | some cj => rw [hcj] at hnone; cases hnone
    | none =>
      rw [hcj] at hnone
      simp only at hnone
      cases hprev : A._GetPreviousCellOffset j with
      | none => rw [hprev] at hnone; cases hnone
      | some q =>
        rw [hprev] at hnone
        simp only at hnone
        obtain ⟨hqj, ⟨cq, hcq⟩, hgapq⟩ := (prev_some_iff A j q).1 hprev
        have hcq2 := hcq
        unfold cellAt at hcq2
        rw [hcq2] at hnone
        simp only at hnone
        by_cases hcov : j < q + cq.GetLength
        · -- the predecessor reaches over `j`
          rcases Nat.lt_trichotomy q i with hqi | hqi | hqi
          · -- it also reaches over `i`, so `p` would be absent
            have hci : A.cellAt i = none := hgapq i hqi (by omega)
            have : A.GetCellData p = none := by
              apply GetCellData_covered A p q cq
              · rw [hi]; omega
              · rw [hi]; exact hqi
              · exact hcq
              · intro k hk1 hk2
                rw [hi] at hk2
                exact hgapq k hk1 (by omega)
              · rw [hi]; omega
            rw [this] at h; cases h
          · subst hqi
            rcases GetCellData_some_cases A p c h with hc | ⟨_, hc⟩
            · rw [hi, hcq] at hc
              cases hc
              omega
            · rw [hi, hcq] at hc
              cases hc
          · have := hgap q hqi (by omega)
            rw [hcq] at this
            cases this
        · simp [hcov] at hnone

theorem refAdvance_lt (A : MappedMemoryArea) (hrep : A.Representable) (cur : Nat)
    (hcur : A.IsCellPresent cur = true) : A.refAdvance cur < TOffsetMod := by
  have hp := (isCellPresent_iff A cur).1 hcur
  unfold refAdvance
  cases h : A.GetCellData cur with
  | none => have := hrep.1; simp only; omega
  | some c =>
    simp only
    rcases GetCellData_some_cases A cur c h with hc | ⟨hc, _⟩
    · have := (hrep.2 _ c hc).2
      omega
    · subst hc
      have : defaultCellData.GetLength = 1 := rfl
      have := hrep.1
      omega

theorem le_refAdvance (A : MappedMemoryArea) (cur : Nat) : cur ≤ A.refAdvance cur := by
  unfold refAdvance
  cases A.GetCellData cur <;> simp

/-- One round of the `while (Offset--)` loop is one step of the reference algorithm. -/
theorem forwardInner_eq (A : MappedMemoryArea) (hrep : A.Representable) (fuel : Nat)
    (hf : 2 ≤ fuel) (cur : Nat) (hcur : A.IsCellPresent cur = true) :
    forwardInner A fuel cur =
      some (if A.IsCellPresent (A.refAdvance cur) = true then some (A.refAdvance cur)
        else none) := by
  obtain ⟨f, rfl⟩ : ∃ f, fuel = f + 1 := ⟨fuel - 1, by omega⟩
  obtain ⟨g, rfl⟩ : ∃ g, f = g + 1 := ⟨f - 1, by omega⟩
  have hlt := refAdvance_lt A hrep cur hcur
  have hle := le_refAdvance A cur
  have hp := (isCellPresent_iff A cur).1 hcur
  have hlim : (A.m_VirtualBase.m_Offset + A.GetSize) % TOffsetMod =
      A.m_VirtualBase.m_Offset + A.m_VirtualSize := by
    have := hrep.1
    unfold GetSize
    exact Nat.mod_eq_of_lt (by omega)
  have hnext : (match A.GetCellData cur with
      | some c => (cur + c.GetLength) % TOffsetMod
      | none => (cur + 1) % TOffsetMod) = A.refAdvance cur := by
    unfold refAdvance at hlt ⊢
    cases h : A.GetCellData cur with
    | none => rw [h] at hlt; exact Nat.mod_eq_of_lt hlt
    | some c => rw [h] at hlt; exact Nat.mod_eq_of_lt hlt
  unfold forwardInner
  simp only [hnext, hlim]
  cases hpn : A.IsCellPresent (A.refAdvance cur) with
  | true => simp
  | false =>
    simp only [Bool.false_eq_true, if_false]
    have hnp := (isCellPresent_eq_false_iff A _).1 hpn
    by_cases hgt : A.refAdvance cur > A.m_VirtualBase.m_Offset + A.m_VirtualSize
    · simp [hgt]
    · simp only [hgt, if_false]
      have heq : A.refAdvance cur = A.m_VirtualBase.m_Offset + A.m_VirtualSize := by omega
      rw [heq]
      have hnp2 : A.IsCellPresent (A.m_VirtualBase.m_Offset + A.m_VirtualSize) = false := by
        rw [isCellPresent_eq_false_iff]; omega
      have hnp3 : A.IsCellPresent (A.m_VirtualBase.m_Offset + A.m_VirtualSize + 1) = false := by
        rw [isCellPresent_eq_false_iff]; omega
      have hmod : (A.m_VirtualBase.m_Offset + A.m_VirtualSize + 1) % TOffsetMod =
          A.m_VirtualBase.m_Offset + A.m_VirtualSize + 1 := Nat.mod_eq_of_lt hrep.1
      unfold forwardInner
      simp only [GetCellData_not_present A _ hnp2, hmod, hnp3, hlim, Bool.false_eq_true,
        if_false]
      simp

theorem forwardLoop_eq (A : MappedMemoryArea) (hrep : A.Representable) (n : Nat) :
    ∀ cur, A.IsCellPresent cur = true →
      forwardLoop A n cur =
        match A.refForward n cur with
        | some o => Move.moved (A.MakeAddress o)
        | none => Move.failed := by
  induction n with
  | zero => intro cur _; rfl
  | succ n ih =>
    intro cur hcur
    unfold forwardLoop refForward
    rw [forwardInner_eq A hrep (TOffsetMod + 1) (by rw [TOffsetMod_eq]; omega) cur hcur]
    cases hpn : A.IsCellPresent (A.refAdvance cur) with
    | true =>
      have := (isCellPresent_iff A _).1 hpn
      simp only [if_true, this, and_self]
      exact ih _ hpn
    | false =>
      have := (isCellPresent_eq_false_iff A _).1 hpn
      simp only [Bool.false_eq_true, if_false, this]

theorem refForward_present (A : MappedMemoryArea) (n : Nat) :
    ∀ cur o, A.IsCellPresent cur = true → A.refForward n cur = some o →
      A.IsCellPresent o = true := by
  induction n with
  | zero =>
    intro cur o hcur h
    simp only [refForward, Option.some.injEq] at h
    subst h; exact hcur
  | succ n ih =>
    intro cur o _ h
    unfold refForward at h
    simp only at h
    split at h
    · rename_i hin
      exact ih _ o ((isCellPresent_iff A _).2 hin) h
    · cases h

theorem INT32_MAX_eq : INT32_MAX = 2147483647 := by decide

/-- The scan of `MoveAddressBackward` over `t` absent offsets above a reported cell. -/
theorem backwardScan_run (A : MappedMemoryArea) (p : Nat) (c : CellData)
    (hp : A.m_VirtualBase.m_Offset ≤ p) (hc : A.GetCellData p = some c) :
    ∀ (t fuel : Nat) (s : Int), t + 1 ≤ fuel → s + t ≤ INT32_MAX → p + t < TOffsetMod →
      (∀ q, p < q → q ≤ p + t → A.GetCellData q = none) →
      backwardScan A fuel (p + t) s = some (p, s + t - c.GetLength) := by
  intro t
  induction t with
  | zero =>
    intro fuel s hf _ _ _
    obtain ⟨f, rfl⟩ : ∃ f, fuel = f + 1 := ⟨fuel - 1, by omega⟩
    unfold backwardScan
    simp [hp, hc]
  | succ t ih =>
    intro fuel s hf hs hlt hq
    obtain ⟨f, rfl⟩ : ∃ f, fuel = f + 1 := ⟨fuel - 1, by omega⟩
    unfold backwardScan
    have h1 : p + (t + 1) ≥ A.m_VirtualBase.m_Offset := by omega
    have h2 : A.GetCellData (p + (t + 1)) = none := hq _ (by omega) (by omega)
    have h3 : ¬ (s + 1 > INT32_MAX) := by push_cast at hs; omega
    have h4 : (p + (t + 1) + TOffsetMod - 1) % TOffsetMod = p + t := by
      rw [TOffsetMod_eq] at hlt ⊢
      omega
    simp only [h1, if_true, h2, h3, if_false, h4]
    have hs2 : s + 1 + (t : Int) ≤ INT32_MAX := by push_cast at hs; omega
    have hlt2 : p + t < TOffsetMod := Nat.lt_trans (by omega) hlt
    rw [ih f (s + 1) (by omega) hs2 hlt2 (fun q hq1 hq2 => hq q hq1 (by omega))]
    have e : s + 1 + (t : Int) - (c.GetLength : Int) =
        s + ((t + 1 : Nat) : Int) - (c.GetLength : Int) := by push_cast; ring
    rw [e]

/-- One round of `MoveAddressBackward` from the end of a reported cell lands on its
start and spends one unit of the budget. -/
theorem backwardLoop_step (A : MappedMemoryArea) (p : Nat) (c : CellData)
    (hp : A.m_VirtualBase.m_Offset ≤ p) (hc : A.GetCellData p = some c)
    (hl1 : 1 ≤ c.GetLength) (hl2 : c.GetLength < 2 ^ 16)
    (hin : ∀ q, p < q → q < p + c.GetLength → A.GetCellData q = none)
    (hlt : p + c.GetLength < TOffsetMod) (fuel : Nat) (k : Int) (hk : 1 ≤ k) :
    backwardLoop A (fuel + 1) (p + c.GetLength) k = A.backwardRest fuel p (k - 1) := by
  unfold backwardLoop backwardRest
  have h4 : (p + c.GetLength + TOffsetMod - 1) % TOffsetMod = p + (c.GetLength - 1) := by
    rw [TOffsetMod_eq] at hlt ⊢
    omega
  rw [h4, backwardScan_run A p c hp hc (c.GetLength - 1) (2 ^ 31 + 1) 0 (by omega)
    (by rw [INT32_MAX_eq]; omega) (by omega) (fun q h1 h2 => hin q h1 (by omega))]
  have h5 : (0 : Int) + ((c.GetLength - 1 : Nat) : Int) - (c.GetLength : Int) = -1 := by omega
  simp only [h5]
  have h6 : ¬ ((0 : Int) > k - 1) := by omega
  simp [h6]

/-- What the invariants give at an offset where a cell is reported. -/
theorem reported_cell (A : MappedMemoryArea) (hfit : A.CellsFit) (hno : A.NonOverlap)
    (hrep : A.Representable) (p : Nat) (c : CellData) (hc : A.GetCellData p = some c) :
    1 ≤ c.GetLength ∧ c.GetLength < 2 ^ 16 ∧
      (∀ k, p - A.m_VirtualBase.m_Offset < k →
        k < p - A.m_VirtualBase.m_Offset + c.GetLength → A.cellAt k = none) := by
  rcases GetCellData_some_cases A p c hc with h | ⟨h, _⟩
  · refine ⟨(hfit _ c h).1, (hrep.2 _ c h).1, fun k hk1 hk2 => ?_⟩
    cases hk : A.cellAt k with
    | none => rfl
    | some ck =>
      have := hno _ k c ck h hk hk1
      omega
  · subst h
    have hd : defaultCellData.GetLength = 1 := rfl
    refine ⟨by omega, by omega, fun k hk1 hk2 => ?_⟩
    omega

/-- Going back over the path of a forward move of `n + 1` steps from `p` spends
`n + 1` units of the budget and ends on `p`. -/
theorem backward_chain (A : MappedMemoryArea) (hfit : A.CellsFit) (hno : A.NonOverlap)
    (hrep : A.Representable) (n : Nat) :
    ∀ p b, A.GetCellData p ≠ none → A.refForward (n + 1) p = some b →
      ∀ (fuel m : Nat), backwardLoop A (fuel + (n + 1)) b ((n + 1 + m : Nat) : Int) =
        A.backwardRest fuel p (m : Int) := by
  induction n with
  | zero =>
    intro p b hne hfw fuel m
    obtain ⟨c, hc⟩ := Option.ne_none_iff_exists'.1 hne
    have hpres := GetCellData_present A p c hc
    have hp := (isCellPresent_iff A p).1 hpres
    obtain ⟨hl1, hl2, hgap⟩ := reported_cell A hfit hno hrep p c hc
    have hadv : A.refAdvance p = p + c.GetLength := by simp [refAdvance, hc]
    have hlt := refAdvance_lt A hrep p hpres
    rw [hadv] at hlt
    unfold refForward at hfw
    simp only [hadv] at hfw
    split at hfw
    · simp only [refForward, Option.some.injEq] at hfw
      subst hfw
      have := backwardLoop_step A p c hp.1 hc hl1 hl2
        (GetCellData_inside A hfit p c hc hgap) hlt fuel ((0 + 1 + m : Nat) : Int)
        (by push_cast; omega)
      rw [show fuel + (0 + 1) = fuel + 1 from rfl, this]
      congr 1
      push_cast; ring
    · cases hfw
  | succ n ih =>
    intro p b hne hfw fuel m
    obtain ⟨c, hc⟩ := Option.ne_none_iff_exists'.1 hne
    have hpres := GetCellData_present A p c hc
    have hp := (isCellPresent_iff A p).1 hpres
    obtain ⟨hl1, hl2, hgap⟩ := reported_cell A hfit hno hrep p c hc
    have hadv : A.refAdvance p = p + c.GetLength := by simp [refAdvance, hc]
    have hlt := refAdvance_lt A hrep p hpres
    rw [hadv] at hlt
    rw [refForward] at hfw
    simp only [hadv] at hfw
    split at hfw
    · rename_i hin
      have hpres2 : A.IsCellPresent (p + c.GetLength) = true := (isCellPresent_iff A _).2 hin
      have hne2 := GetCellData_after A p c hc hl1 hgap hpres2
      have h1 := ih (p + c.GetLength) b hne2 hfw (fuel + 1) (m + 1)
      have h2 := backwardLoop_step A p c hp.1 hc hl1 hl2
        (GetCellData_inside A hfit p c hc hgap) hlt fuel ((m + 1 : Nat) : Int)
        (by push_cast; omega)
      have e1 : fuel + (n + 1 + 1) = fuel + 1 + (n + 1) := by omega
      have e2 : n + 1 + 1 + m = n + 1 + (m + 1) := by omega
      rw [e1, e2, h1]
      unfold backwardRest at h2 ⊢
      have h3 : ¬ (((m + 1 : Nat) : Int) = 0) := by push_cast; omega
      have h4 : ¬ (p + c.GetLength = A.m_VirtualBase.m_Offset) := by omega
      rw [if_neg h3, if_neg h4, h2]
      have h5 : ((m + 1 : Nat) : Int) - 1 = (m : Int) := by push_cast; ring
      rw [h5]
    · cases hfw

end MappedMemoryArea

/-! ## The example area with one four-byte cell -/

theorem fourByteArea_cellAt (i : Nat) (c : CellData) (h : fourByteArea.cellAt i = some c) :
    i = 0 ∧ c = cellOfLength 4 := by
  match i, h with
  | 0, h => exact ⟨rfl, (Option.some.inj h).symm⟩
  | 1, h => cases h
  | 2, h => cases h
  | 3, h => cases h
  | i + 4, h => simp [MappedMemoryArea.cellAt, fourByteArea, emptyArea] at h

theorem fourByteArea_cellsFit : fourByteArea.CellsFit := by
  intro i c h
  obtain ⟨rfl, rfl⟩ := fourByteArea_cellAt i c h
  decide

theorem fourByteArea_nonOverlap : fourByteArea.NonOverlap := by
  intro i j ci cj hi hj hij
  obtain ⟨rfl, rfl⟩ := fourByteArea_cellAt i ci hi
  obtain ⟨rfl, rfl⟩ := fourByteArea_cellAt j cj hj
  omega

theorem fourByteArea_representable : fourByteArea.Representable := by
  refine ⟨by decide, fun i c h => ?_⟩
  obtain ⟨rfl, rfl⟩ := fourByteArea_cellAt i c h
  decide

/-- Witness of C4: in the area with one four-byte cell at its base, offset 0 reads
as the cell, offset 1 as absent and offset 4 as the default cell. -/
theorem GetCellData_under_C1_witness :
    fourByteArea.CellsFit ∧ fourByteArea.NonOverlap ∧
    fourByteArea.GetCellData 0 = some (cellOfLength 4) ∧
    fourByteArea.GetCellData 1 = none ∧
    fourByteArea.GetCellData 4 = some defaultCellData :=
  have h := fun p => GetCellData_under_C1 fourByteArea fourByteArea_cellsFit
    fourByteArea_nonOverlap p
  ⟨fourByteArea_cellsFit, fourByteArea_nonOverlap,
    ((h 0).1 (by decide)).1 _ (by decide),
    ((h 1).1 (by decide)).2.1 ⟨0, cellOfLength 4, by decide, by decide, by decide⟩,
    ((h 4).1 (by decide)).2.2.1 (by decide) (by
      rintro ⟨s, c, hc, h1, h2⟩
      obtain ⟨rfl, rfl⟩ := fourByteArea_cellAt s c hc
      revert h2
      decide)⟩

/-- Inside one mapped area a forward move from a reported cell is undone by the
backward move of the same number of steps. -/
theorem area_round_trip (A : MappedMemoryArea) (hfit : A.CellsFit)
    (hno : A.NonOverlap) (hrep : A.Representable) (a : Address) (n : Nat) (hn : 0 < n)
    (hbase : a = A.MakeAddress a.m_Offset) (hcell : A.GetCellData a.m_Offset ≠ none)
    (b : Address) (h1 : A.MoveAddress a (n : Int) = Move.moved b) :
    A.MoveAddress b (-(n : Int)) = Move.moved a := by
  obtain ⟨k, rfl⟩ : ∃ k, n = k + 1 := ⟨n - 1, by omega⟩
  obtain ⟨c, hc⟩ := Option.ne_none_iff_exists'.1 hcell
  have hpres := MappedMemoryArea.GetCellData_present A _ c hc
  -- the forward move is the reference walk
  have hpos : ¬ (((k + 1 : Nat) : Int) < 0) := by omega
  have hpos2 : ((k + 1 : Nat) : Int) > 0 := by omega
  unfold MappedMemoryArea.MoveAddress at h1
  rw [if_neg hpos, if_pos hpos2, Int.toNat_ofNat] at h1
  unfold MappedMemoryArea.MoveAddressForward at h1
  rw [if_neg (by omega), MappedMemoryArea.forwardLoop_eq A hrep (k + 1) _ hpres] at h1
  cases hfw : A.refForward (k + 1) a.m_Offset with
  | none => rw [hfw] at h1; cases h1
  | some o =>
    rw [hfw] at h1
    simp only [Move.moved.injEq] at h1
    subst h1
    -- the backward move walks the same path
    have hneg : -((k + 1 : Nat) : Int) < 0 := by omega
    unfold MappedMemoryArea.MoveAddress
    rw [if_pos hneg]
    unfold MappedMemoryArea.MoveAddressBackward
    rw [if_neg (by omega)]
    have hfuel : TOffsetMod * (-((k + 1 : Nat) : Int)).natAbs + 1 =
        (TOffsetMod * (k + 1) - k) + (k + 1) := by
      have : (-((k + 1 : Nat) : Int)).natAbs = k + 1 := by omega
      rw [this, MappedMemoryArea.TOffsetMod_eq]
      omega
    have hbud : - -((k + 1 : Nat) : Int) = ((k + 1 + 0 : Nat) : Int) := by simp
    rw [hfuel, hbud]
    have := MappedMemoryArea.backward_chain A hfit hno hrep k a.m_Offset o hcell hfw
      (TOffsetMod * (k + 1) - k) 0
    have hoff : (A.MakeAddress o).m_Offset = o := rfl
    rw [hoff, this]
    simp only [MappedMemoryArea.backwardRest, Nat.cast_zero, if_true, Move.moved.injEq]
    exact hbase.symm

/-- C9: on a mapped area with virtual base offset `b`, file offset `f` and file size
`s`, `ConvertOffsetToFileOffset(b + k)` succeeds with `f + k` when `k < s` (the result
being a `TOffset`) and fails when `k ≥ s`; it fails for every offset below `b`; on a
virtual area it always fails. -/
theorem ConvertOffsetToFileOffset_spec (A : MappedMemoryArea) (k : Nat) :
    (k < A.m_FileSize → A.m_FileOffset + k < TOffsetMod →
      A.ConvertOffsetToFileOffset (A.m_VirtualBase.m_Offset + k) =
        some (A.m_FileOffset + k)) ∧
    (A.m_FileSize ≤ k →
      A.ConvertOffsetToFileOffset (A.m_VirtualBase.m_Offset + k) = none) ∧
    (∀ o, o < A.m_VirtualBase.m_Offset → A.ConvertOffsetToFileOffset o = none) ∧
    (∀ (V : VirtualMemoryArea) (o : Nat), V.ConvertOffsetToFileOffset o = none) := by
  refine ⟨fun hk hlt => ?_, fun hk => ?_, fun o ho => ?_, fun _ _ => rfl⟩
  · have hb : MappedMemoryArea.IsBetween A.m_VirtualBase A.m_FileSize
        (A.m_VirtualBase.m_Offset + k) = true := by
      simp [MappedMemoryArea.IsBetween, hk]
    unfold MappedMemoryArea.ConvertOffsetToFileOffset
    rw [if_neg (by simp [hb])]
    congr 1
    rw [Nat.add_sub_cancel_left, Nat.add_comm, Nat.mod_eq_of_lt hlt]
  · have hb : MappedMemoryArea.IsBetween A.m_VirtualBase A.m_FileSize
        (A.m_VirtualBase.m_Offset + k) = false := by
      simp [MappedMemoryArea.IsBetween]; omega
    simp [MappedMemoryArea.ConvertOffsetToFileOffset, hb]
  · have hb : MappedMemoryArea.IsBetween A.m_VirtualBase A.m_FileSize o = false := by
      simp [MappedMemoryArea.IsBetween]; omega
    simp [MappedMemoryArea.ConvertOffsetToFileOffset, hb]

/-- C10: on a mapped area whose offsets are representable, for an address `a` of the
area and `n ≥ 1`, `MoveAddressForward(a, n)` is the reference algorithm of the
specification: it fails when the reference walk fails and otherwise returns the
final offset of the walk, which is an offset of the area. -/
theorem MoveAddressForward_refines (A : MappedMemoryArea) (hrep : A.Representable)
    (a : Address) (n : Nat) (hn : 1 ≤ n) (ha : A.IsCellPresent a.m_Offset = true) :
    A.MoveAddressForward a n =
      (match A.refForward n a.m_Offset with
        | some o => Move.moved (A.MakeAddress o)
        | none => Move.failed) ∧
    ∀ o, A.refForward n a.m_Offset = some o → A.IsCellPresent o = true := by
  constructor
  · unfold MappedMemoryArea.MoveAddressForward
    rw [if_neg (by omega)]
    exact MappedMemoryArea.forwardLoop_eq A hrep n _ ha
  · intro o h
    exact MappedMemoryArea.refForward_present A n _ o ha h

/-- Witness of C10: two steps forward from the base of the area with one four-byte
cell go over the cell and one default cell and end on offset 5. -/
theorem MoveAddressForward_refines_witness :
    fourByteArea.MoveAddressForward ⟨0, 0⟩ 2 = Move.moved ⟨0, 5⟩ ∧
    fourByteArea.refForward 2 0 = some 5 ∧ fourByteArea.IsCellPresent 5 = true :=
  have h := MoveAddressForward_refines fourByteArea fourByteArea_representable ⟨0, 0⟩ 2
    (by decide) (by decide)
  ⟨h.1.trans (by decide), by decide, h.2 5 (by decide)⟩

/-- Witness of C9: offset `0x1005` of the example area is byte `0x205` of the file,
and offset `0x1010`, past the 16 bytes of file image, has no file offset. -/
theorem ConvertOffsetToFileOffset_spec_witness :
    fileArea.ConvertOffsetToFileOffset (0x1000 + 5) = some (0x200 + 5) ∧
    fileArea.ConvertOffsetToFileOffset (0x1000 + 0x10) = none :=
  ⟨(ConvertOffsetToFileOffset_spec fileArea 5).1 (by decide) (by decide),
    (ConvertOffsetToFileOffset_spec fileArea 0x10).2.1 (by decide)⟩

/-! ## Lemmas on coordinate conversion -/

theorem MemoryArea.isCellPresent_iff_contains (M : MemoryArea) (a : Address) :
    M.IsCellPresent a = true ↔ M.Contains a.m_Offset := by
  cases M with
  | mapped A =>
    simp [MemoryArea.IsCellPresent, MemoryArea.IsCellPresentOffset, MemoryArea.Contains,
      MemoryArea.GetBaseAddress, MemoryArea.GetSize, MappedMemoryArea.IsCellPresent,
      MappedMemoryArea.IsBetween, MappedMemoryArea.GetBaseAddress, MappedMemoryArea.GetSize]
  | virt V =>
    simp [MemoryArea.IsCellPresent, MemoryArea.IsCellPresentOffset, MemoryArea.Contains,
      MemoryArea.GetBaseAddress, MemoryArea.GetSize, VirtualMemoryArea.IsCellPresent,
      MappedMemoryArea.IsBetween, VirtualMemoryArea.GetBaseAddress, VirtualMemoryArea.GetSize]

theorem GetMemoryArea_ne_none (areas : List MemoryArea) (a : Address) (M : MemoryArea)
    (hM : M ∈ areas) (hc : M.IsCellPresent a = true) : GetMemoryArea areas a ≠ none := by
  induction areas with
  | nil => cases hM
  | cons N rest ih =>
    unfold GetMemoryArea
    by_cases hN : N.IsCellPresent a = true
    · simp [hN]
    · simp only [hN, if_false]
      rcases List.mem_cons.1 hM with rfl | h
      · exact absurd hc hN
      · exact ih h

/-- The position of the address a position converts to, from any start of the
position counter. -/
theorem positionLoop_of_position (areas : List MemoryArea) :
    ∀ (p acc : Nat) (a : Address), DisjointAreas areas → RepresentableAreas areas →
      ConvertPositionToAddress areas p = some a → acc + p < U32Mod →
      positionLoop areas a acc = some (acc + p) ∧ ∃ M, M ∈ areas ∧ M.IsCellPresent a = true := by
  induction areas with
  | nil => intro p acc a _ _ h; cases h
  | cons M rest ih =>
    intro p acc a hd hr h hacc
    have hrM := hr M (List.mem_cons_self _ _)
    unfold ConvertPositionToAddress at h
    by_cases hp : p < M.GetSize
    · simp only [hp, if_true, Option.some.injEq] at h
      subst h
      have hoff : (M.GetBaseAddress.add p).m_Offset = M.GetBaseAddress.m_Offset + p := by
        simp only [Address.add]
        exact Nat.mod_eq_of_lt (by omega)
      have hc : M.IsCellPresent (M.GetBaseAddress.add p) = true := by
        rw [MemoryArea.isCellPresent_iff_contains, hoff]
        exact ⟨by omega, by omega⟩
      refine ⟨?_, M, List.mem_cons_self _ _, hc⟩
      unfold positionLoop
      rw [if_pos hc, hoff, Nat.add_sub_cancel_left]
      rw [MappedMemoryArea.U32Mod_eq] at hacc ⊢
      congr 1
      omega
    · simp only [hp, if_false] at h
      have hd2 : DisjointAreas rest := (List.pairwise_cons.1 hd).2
      have hr2 : RepresentableAreas rest := fun N hN => hr N (List.mem_cons_of_mem _ hN)
      have hacc2 : (acc + M.GetSize) % U32Mod + (p - M.GetSize) < U32Mod := by
        rw [MappedMemoryArea.U32Mod_eq] at hacc ⊢
        omega
      obtain ⟨h1, N, hN, hNc⟩ := ih (p - M.GetSize) ((acc + M.GetSize) % U32Mod) a hd2 hr2 h hacc2
      have hMc : ¬ (M.IsCellPresent a = true) := by
        intro hMc
        have := (List.pairwise_cons.1 hd).1 N hN a.m_Offset
        exact this ⟨(MemoryArea.isCellPresent_iff_contains M a).1 hMc,
          (MemoryArea.isCellPresent_iff_contains N a).1 hNc⟩
      refine ⟨?_, N, List.mem_cons_of_mem _ hN, hNc⟩
      unfold positionLoop
      rw [if_neg hMc, h1]
      rw [MappedMemoryArea.U32Mod_eq] at hacc ⊢
      congr 1
      omega

/-- Two addresses of one area of a document with disjoint areas are positioned
from the same count of preceding bytes. -/
theorem positionLoop_same_area (areas : List MemoryArea) :
    ∀ (acc : Nat) (M : MemoryArea) (a b : Address), DisjointAreas areas → M ∈ areas →
      M.IsCellPresent a = true → M.IsCellPresent b = true →
      ∃ acc2, positionLoop areas a acc =
          some ((acc2 + (a.m_Offset - M.GetBaseAddress.m_Offset) % U32Mod) % U32Mod) ∧
        positionLoop areas b acc =
          some ((acc2 + (b.m_Offset - M.GetBaseAddress.m_Offset) % U32Mod) % U32Mod) := by
  induction areas with
  | nil => intro acc M a b _ hM; cases hM
  | cons N rest ih =>
    intro acc M a b hd hM ha hb
    have hdis := (List.pairwise_cons.1 hd).1
    rcases List.mem_cons.1 hM with rfl | hMr
    · exact ⟨acc, by simp [positionLoop, ha], by simp [positionLoop, hb]⟩
    · have hNa : ¬ (N.IsCellPresent a = true) := fun h =>
        hdis M hMr a.m_Offset ⟨(MemoryArea.isCellPresent_iff_contains N a).1 h,
          (MemoryArea.isCellPresent_iff_contains M a).1 ha⟩
      have hNb : ¬ (N.IsCellPresent b = true) := fun h =>
        hdis M hMr b.m_Offset ⟨(MemoryArea.isCellPresent_iff_contains N b).1 h,
          (MemoryArea.isCellPresent_iff_contains M b).1 hb⟩
      obtain ⟨acc2, h1, h2⟩ := ih ((acc + N.GetSize) % U32Mod) M a b
        (List.pairwise_cons.1 hd).2 hMr ha hb
      refine ⟨acc2, ?_, ?_⟩
      · unfold positionLoop
        rw [if_neg hNa, h1]
      · unfold positionLoop
        rw [if_neg hNb, h2]

theorem MappedMemoryArea.nextLoop_some (A : MappedMemoryArea) :
    ∀ (k s : Nat) (b : Address), A.nextLoop k s = some b →
      ∃ o, s ≤ o ∧ o < s + k ∧ b = A.MakeAddress o ∧ A.GetCellData o ≠ none ∧
        ∀ j, s ≤ j → j < o → A.GetCellData j = none := by
  intro k
  induction k with
  | zero => intro s b h; cases h
  | succ k ih =>
    intro s b h
    unfold MappedMemoryArea.nextLoop at h
    cases hc : A.GetCellData s with
    | some c =>
      rw [hc] at h
      simp only [Option.some.injEq] at h
      exact ⟨s, Nat.le_refl _, by omega, h.symm, by simp [hc], fun j h1 h2 => by omega⟩
    | none =>
      rw [hc] at h
      obtain ⟨o, h1, h2, h3, h4, h5⟩ := ih (s + 1) b h
      refine ⟨o, by omega, by omega, h3, h4, fun j hj1 hj2 => ?_⟩
      by_cases hjs : j = s
      · subst hjs; exact hc
      · exact h5 j (by omega) hj2

theorem ConvertPositionToAddress_isSome (areas : List MemoryArea) :
    ∀ p, (ConvertPositionToAddress areas p).isSome = true ↔
      p < (areas.map MemoryArea.GetSize).sum := by
  induction areas with
  | nil => intro p; simp [ConvertPositionToAddress]
  | cons M rest ih =>
    intro p
    unfold ConvertPositionToAddress
    by_cases hp : p < M.GetSize
    · simp only [hp, if_true, Option.isSome_some, List.map_cons, List.sum_cons, true_iff]
      omega
    · simp only [hp, if_false, List.map_cons, List.sum_cons]
      rw [ih]
      omega

theorem twoAreas_disjoint : DisjointAreas twoAreas := by
  unfold DisjointAreas twoAreas
  simp only [List.pairwise_cons, List.mem_singleton, forall_eq, List.not_mem_nil,
    false_implies, implies_true, List.Pairwise.nil, and_true]
  intro o
  simp only [MemoryArea.Contains, MemoryArea.GetBaseAddress, MemoryArea.GetSize,
    MappedMemoryArea.GetBaseAddress, MappedMemoryArea.GetSize, VirtualMemoryArea.GetBaseAddress,
    VirtualMemoryArea.GetSize, fourByteArea, emptyArea]
  omega

theorem twoAreas_representable : RepresentableAreas twoAreas := by
  intro M hM
  simp only [twoAreas, List.mem_cons, List.mem_singleton, List.not_mem_nil, or_false] at hM
  rcases hM with rfl | rfl <;> decide

/-- C6: in a document whose areas have pairwise disjoint, representable ranges, a
position `p` is valid, that is `ConvertPositionToAddress(p)` succeeds, exactly when
`p` is below the sum of the area sizes, and then `ConvertAddressToPosition` of the
address it converts to succeeds and returns `p`. -/
theorem position_address_round_trip (areas : List MemoryArea) (hd : DisjointAreas areas)
    (hr : RepresentableAreas areas) (p : Nat) (hp : p < U32Mod) :
    ((ConvertPositionToAddress areas p).isSome = true ↔
      p < (areas.map MemoryArea.GetSize).sum) ∧
    ∀ a, ConvertPositionToAddress areas p = some a →
      ConvertAddressToPosition areas a = some p := by
  refine ⟨ConvertPositionToAddress_isSome areas p, fun a h => ?_⟩
  obtain ⟨h1, M, hM, hc⟩ := positionLoop_of_position areas p 0 a hd hr h (by omega)
  unfold ConvertAddressToPosition
  cases hg : GetMemoryArea areas a with
  | none => exact absurd hg (GetMemoryArea_ne_none areas a M hM hc)
  | some _ => simpa using h1

/-- Witness of C6: position 17 of the two-area document is the second byte of the
virtual area, and converts back to 17. -/
theorem position_address_round_trip_witness :
    ConvertPositionToAddress twoAreas 17 = some ⟨0, 0x101⟩ ∧
    ConvertAddressToPosition twoAreas ⟨0, 0x101⟩ = some 17 :=
  ⟨by decide, (position_address_round_trip twoAreas twoAreas_disjoint twoAreas_representable
    17 (by decide)).2 _ (by decide)⟩

/-- C8 (counter-example): in the document whose one area holds a four-byte cell at
its base, the next address after the base is offset 4, and its position is 4, not
the position of the base plus one. -/
theorem GetNextAddress_position_not_succ :
    ¬ (∀ (areas : List MemoryArea) (A : MappedMemoryArea) (a b : Address) (pa pb : Nat),
        MemoryArea.mapped A ∈ areas → A.IsCellPresent a.m_Offset = true →
        A.GetNextAddress a = some b → ConvertAddressToPosition areas a = some pa →
        ConvertAddressToPosition areas b = some pb → pb = pa + 1) := by
  intro h
  have := h [MemoryArea.mapped fourByteArea] fourByteArea ⟨0, 0⟩ ⟨0, 4⟩ 0 4
    (List.mem_singleton.2 rfl) (by decide) (by decide) (by decide) (by decide)
  revert this
  decide

/-- C8 (amended): in a document whose areas have pairwise disjoint ranges, for a
mapped area of it lying in the 64-bit offset space and an address `a` of that area
for which `GetNextAddress(a)` succeeds with `b`: `b` lies after `a`, and the position
of `b` is the position of `a` plus the byte distance `b.offset - a.offset` (in
unsigned 32-bit arithmetic); when the cell reported at `a` is one byte long the
distance is 1 and the position of `b` is the position of `a` plus one. -/
theorem GetNextAddress_position (areas : List MemoryArea) (hd : DisjointAreas areas)
    (A : MappedMemoryArea) (hA : MemoryArea.mapped A ∈ areas)
    (hrep : A.m_VirtualBase.m_Offset + A.m_VirtualSize ≤ TOffsetMod)
    (a b : Address) (ha : A.IsCellPresent a.m_Offset = true)
    (hb : A.GetNextAddress a = some b) :
    ∃ pa, ConvertAddressToPosition areas a = some pa ∧ a.m_Offset < b.m_Offset ∧
      ConvertAddressToPosition areas b = some ((pa + (b.m_Offset - a.m_Offset)) % U32Mod) ∧
      ∀ c, A.GetCellData a.m_Offset = some c → c.GetLength = 1 →
        b.m_Offset = a.m_Offset + 1 ∧
        ConvertAddressToPosition areas b = some ((pa + 1) % U32Mod) := by
  have hpa := (MappedMemoryArea.isCellPresent_iff A _).1 ha
  unfold MappedMemoryArea.GetNextAddress at hb
  simp only [MappedMemoryArea.GetSize] at hb
  obtain ⟨o, ho1, ho2, rfl, ho4, ho5⟩ := MappedMemoryArea.nextLoop_some A _ _ b hb
  have hT := MappedMemoryArea.TOffsetMod_eq
  -- the start of the scan is `a.offset + 1`
  have hstart : (a.m_Offset + 1) % TOffsetMod = a.m_Offset + 1 := by
    rw [hT] at hrep ho1 ho2 ⊢
    omega
  rw [hstart] at ho1 ho2 ho5
  obtain ⟨co, hco⟩ := Option.ne_none_iff_exists'.1 ho4
  have hob := MappedMemoryArea.GetCellData_present A o co hco
  have hpo := (MappedMemoryArea.isCellPresent_iff A _).1 hob
  have hMa : (MemoryArea.mapped A).IsCellPresent a = true := ha
  have hMb : (MemoryArea.mapped A).IsCellPresent (A.MakeAddress o) = true := hob
  obtain ⟨acc, h1, h2⟩ := positionLoop_same_area areas 0 _ a (A.MakeAddress o) hd hA hMa hMb
  have hga := GetMemoryArea_ne_none areas a _ hA hMa
  have hgb := GetMemoryArea_ne_none areas (A.MakeAddress o) _ hA hMb
  have hposa : ConvertAddressToPosition areas a =
      some ((acc + (a.m_Offset - A.m_VirtualBase.m_Offset) % U32Mod) % U32Mod) := by
    unfold ConvertAddressToPosition
    cases hg : GetMemoryArea areas a with
    | none => exact absurd hg hga
    | some _ => exact h1
  have hposb : ConvertAddressToPosition areas (A.MakeAddress o) =
      some ((acc + (o - A.m_VirtualBase.m_Offset) % U32Mod) % U32Mod) := by
    unfold ConvertAddressToPosition
    cases hg : GetMemoryArea areas (A.MakeAddress o) with
    | none => exact absurd hg hgb
    | some _ => exact h2
  have hdist : (acc + (o - A.m_VirtualBase.m_Offset) % U32Mod) % U32Mod =
      ((acc + (a.m_Offset - A.m_VirtualBase.m_Offset) % U32Mod) % U32Mod +
        (o - a.m_Offset)) % U32Mod := by
    rw [MappedMemoryArea.U32Mod_eq]
    omega
  refine ⟨_, hposa, ?_, ?_, fun c hc hl => ?_⟩
  · show a.m_Offset < o
    omega
  · rw [hposb, hdist]
    rfl
  · have hnext : A.IsCellPresent (a.m_Offset + c.GetLength) = true := by
      rw [MappedMemoryArea.isCellPresent_iff, hl]
      omega
    have hne := MappedMemoryArea.GetCellData_after A a.m_Offset c hc (by omega)
      (fun k hk1 hk2 => by omega) hnext
    rw [hl] at hne
    have ho : o = a.m_Offset + 1 := by
      by_contra hne2
      exact hne (ho5 (a.m_Offset + 1) (Nat.le_refl _) (by omega))
    refine ⟨ho, ?_⟩
    rw [hposb, hdist, ho]
    congr 2
    omega

/-- Witness of C8: in the two-area document the next address after offset 4, which
hosts a default one-byte cell, is offset 5, and its position is the position of
offset 4 plus one. -/
theorem GetNextAddress_position_witness :
    fourByteArea.GetNextAddress ⟨0, 4⟩ = some ⟨0, 5⟩ ∧
    ∃ pa, ConvertAddressToPosition twoAreas ⟨0, 4⟩ = some pa ∧
      (⟨0, 4⟩ : Address).m_Offset < (⟨0, 5⟩ : Address).m_Offset ∧
      ConvertAddressToPosition twoAreas ⟨0, 5⟩ =
        some ((pa + ((⟨0, 5⟩ : Address).m_Offset - (⟨0, 4⟩ : Address).m_Offset)) % U32Mod) ∧
      ∀ c, fourByteArea.GetCellData (⟨0, 4⟩ : Address).m_Offset = some c → c.GetLength = 1 →
        (⟨0, 5⟩ : Address).m_Offset = (⟨0, 4⟩ : Address).m_Offset + 1 ∧
        ConvertAddressToPosition twoAreas ⟨0, 5⟩ = some ((pa + 1) % U32Mod) :=
  ⟨by decide, GetNextAddress_position twoAreas twoAreas_disjoint fourByteArea
    (List.mem_cons_self _ _) (by decide) ⟨0, 4⟩ ⟨0, 5⟩ (by decide) (by decide)⟩

/-! ## The text database -/

/-- The encoding of the two bytes of `hi` ends with one `=`, and `Base64Decode` reads
it back as three bytes: the loop runs once per character of the encoding. -/
theorem Base64Decode_Base64Encode_hi :
    Base64Encode [0x68, 0x69] = "aGk=".toList ∧
    Base64Decode (Base64Encode [0x68, 0x69]) = [0x68, 0x69, 0] := by
  constructor <;> decide

/-- C5 (defect): for a database whose binary stream is empty, whatever the text
forms of the other sections are, `Flush` writes an empty line under
`## BinaryStream`, and `Open` of that file into a fresh database returns `false`:
the empty line decodes to the empty string, which the parser rejects. -/
theorem Open_Flush_empty_stream_fails (G : Dumps) (R : Readers) :
    (Flush G true emptyStreamDatabase).isSome = true ∧
    ((Flush G true emptyStreamDatabase).map fun lines => lines.take 3) =
      some ["# Medusa Text Database".toList, "## BinaryStream".toList, []] ∧
    Open R (Flush G true emptyStreamDatabase) "a.mdt".toList TextDatabase.fresh =
      OpenResult.returned false { TextDatabase.fresh with m_DatabasePath := "a.mdt".toList } := by
  refine ⟨rfl, rfl, ?_⟩
  rfl


/-! ## Navigation across the areas of a document -/

theorem toU64_of_nat (x : Nat) (h : x < TOffsetMod) : toU64 (x : Int) = x := by
  unfold toU64
  rw [Int.emod_eq_of_lt (by omega) (by exact_mod_cast h)]
  simp

theorem findArea_of_mem (areas : List MemoryArea) :
    ∀ (before : List MemoryArea) (x : Address) (M : MemoryArea), DisjointAreas areas →
      M ∈ areas → M.IsCellPresent x = true →
      ∃ b2 after, findArea before areas x = some (b2, M, after) := by
  induction areas with
  | nil => intro before x M _ hM; cases hM
  | cons N rest ih =>
    intro before x M hd hM hx
    have hdis := (List.pairwise_cons.1 hd).1
    unfold findArea
    rcases List.mem_cons.1 hM with rfl | hMr
    · exact ⟨before, rest, by simp [hx]⟩
    · have hN : ¬ (N.IsCellPresent x = true) := fun h =>
        hdis M hMr x.m_Offset ⟨(MemoryArea.isCellPresent_iff_contains N x).1 h,
          (MemoryArea.isCellPresent_iff_contains M x).1 hx⟩
      rw [if_neg hN]
      exact ih (N :: before) x M (List.pairwise_cons.1 hd).2 hMr hx

theorem MappedMemoryArea.lt_refAdvance (A : MappedMemoryArea) (hfit : A.CellsFit) (cur : Nat) :
    cur + 1 ≤ A.refAdvance cur := by
  unfold MappedMemoryArea.refAdvance
  cases h : A.GetCellData cur with
  | none => simp
  | some c =>
    simp only
    rcases MappedMemoryArea.GetCellData_some_cases A cur c h with hc | ⟨hc, _⟩
    · have := (hfit _ c hc).1
      omega
    · subst hc
      have : defaultCellData.GetLength = 1 := rfl
      omega

theorem MappedMemoryArea.refForward_ge (A : MappedMemoryArea) (hfit : A.CellsFit) (n : Nat) :
    ∀ p o, A.refForward n p = some o → p + n ≤ o := by
  induction n with
  | zero =>
    intro p o h
    simp only [MappedMemoryArea.refForward, Option.some.injEq] at h
    omega
  | succ n ih =>
    intro p o h
    unfold MappedMemoryArea.refForward at h
    simp only at h
    split at h
    · have := ih _ o h
      have := MappedMemoryArea.lt_refAdvance A hfit p
      omega
    · cases h

/-- A successful forward move inside a mapped area is the reference walk. -/
theorem MappedMemoryArea.forward_moved (A : MappedMemoryArea) (hrep : A.Representable)
    (a b : Address) (n : Nat) (hn : 0 < n) (ha : A.IsCellPresent a.m_Offset = true)
    (h : A.MoveAddress a (n : Int) = Move.moved b) :
    A.MoveAddressForward a n = Move.moved b ∧
      ∃ o, A.refForward n a.m_Offset = some o ∧ b = A.MakeAddress o := by
  have hpos : ¬ ((n : Int) < 0) := by omega
  have hpos2 : (n : Int) > 0 := by omega
  unfold MappedMemoryArea.MoveAddress at h
  rw [if_neg hpos, if_pos hpos2, Int.toNat_ofNat] at h
  refine ⟨h, ?_⟩
  unfold MappedMemoryArea.MoveAddressForward at h
  rw [if_neg (by omega), MappedMemoryArea.forwardLoop_eq A hrep n _ ha] at h
  cases hfw : A.refForward n a.m_Offset with
  | none => rw [hfw] at h; cases h
  | some o =>
    rw [hfw] at h
    simp only [Move.moved.injEq] at h
    exact ⟨o, rfl, h.symm⟩

/-- In a document with disjoint areas, a forward move that the area of `a` can
perform is what the document returns, and the backward move of the document from
its result returns `a`. -/
theorem document_round_trip (A : MappedMemoryArea) (hfit : A.CellsFit) (hno : A.NonOverlap)
    (hrep : A.Representable) (a : Address) (n : Nat) (hn : 0 < n)
    (hbase : a = A.MakeAddress a.m_Offset) (hcell : A.GetCellData a.m_Offset ≠ none)
    (areas : List MemoryArea) (hd : DisjointAreas areas) (hA : MemoryArea.mapped A ∈ areas)
    (hfirst : ∀ F, areas.head? = some F → F.GetBaseAddress.le A.m_VirtualBase = true)
    (b : Address) (h1 : A.MoveAddress a (n : Int) = Move.moved b) :
    TextDatabase.MoveAddress areas a (n : Int) = Move.moved b ∧
      TextDatabase.MoveAddress areas b (-(n : Int)) = Move.moved a := by
  obtain ⟨c, hc⟩ := Option.ne_none_iff_exists'.1 hcell
  have hpres := MappedMemoryArea.GetCellData_present A _ c hc
  have hpa := (MappedMemoryArea.isCellPresent_iff A _).1 hpres
  obtain ⟨hfwd, o, hfw, hbo⟩ := MappedMemoryArea.forward_moved A hrep a b n hn hpres h1
  have hob := MappedMemoryArea.refForward_present A n _ o hpres hfw
  have hpo := (MappedMemoryArea.isCellPresent_iff A _).1 hob
  have hge := MappedMemoryArea.refForward_ge A hfit n _ o hfw
  have hback := area_round_trip A hfit hno hrep a n hn hbase hcell b h1
  have hT := MappedMemoryArea.TOffsetMod_eq
  have hr1 := hrep.1
  have hboff : b.m_Offset = o := by rw [hbo]; rfl
  have hMa : (MemoryArea.mapped A).IsCellPresent a = true := hpres
  have hMb : (MemoryArea.mapped A).IsCellPresent b = true := by
    show A.IsCellPresent b.m_Offset = true
    rw [hboff]; exact hob
  have hneg : -(n : Int) < 0 := by omega
  constructor
  · -- forward: the move is resolved inside the area of `a`
    obtain ⟨b2, after, hfind⟩ := findArea_of_mem areas [] a _ hd hA hMa
    have hpos : ¬ ((n : Int) < 0) := by omega
    have hpos2 : (n : Int) > 0 := by omega
    unfold TextDatabase.MoveAddress
    rw [if_neg hpos, if_pos hpos2]
    unfold _MoveAddressForward
    rw [hfind]
    simp only [MemoryArea.GetBaseAddress, MemoryArea.GetSize, MappedMemoryArea.GetBaseAddress,
      MappedMemoryArea.GetSize, MemoryArea.MoveAddressForward, Int.toNat_ofNat]
    have hsum : toU64 (((a.m_Offset - A.m_VirtualBase.m_Offset : Nat) : Int) + (n : Int)) =
        a.m_Offset - A.m_VirtualBase.m_Offset + n := by
      have := toU64_of_nat (a.m_Offset - A.m_VirtualBase.m_Offset + n) (by omega)
      rw [← this]
      congr 1
    rw [hsum, if_pos (by omega), hfwd]
  · -- backward: the move is resolved inside the same area
    obtain ⟨b2, after, hfind⟩ := findArea_of_mem areas [] b _ hd hA hMb
    unfold TextDatabase.MoveAddress
    rw [if_pos hneg]
    unfold _MoveAddressBackward
    cases hareas : areas with
    | nil => rw [hareas] at hA; cases hA
    | cons F rest =>
      have hF := hfirst F (by rw [hareas]; rfl)
      have hle : b.le F.GetBaseAddress = false := by
        cases hb2 : b.le F.GetBaseAddress with
        | false => rfl
        | true =>
          exfalso
          have hbb : b.m_Base = A.m_VirtualBase.m_Base := by rw [hbo]; rfl
          simp only [Address.le, Bool.or_eq_true, Bool.and_eq_true, decide_eq_true_eq] at hF hb2
          omega
      simp only [hle, Bool.false_eq_true, if_false]
      rw [← hareas, hfind]
      simp only [MemoryArea.GetBaseAddress, MappedMemoryArea.GetBaseAddress,
        MemoryArea.MoveAddressBackward]
      have hu : toU64 (- -(n : Int)) = n := by
        rw [neg_neg]
        exact toU64_of_nat n (by omega)
      rw [hu, if_pos (by omega)]
      unfold MappedMemoryArea.MoveAddress at hback
      rw [if_pos hneg] at hback
      exact hback

/-- C7 (counter-example): in the area with one four-byte cell at its base, one step
forward from offset 1, which lies inside the cell, reaches offset 2, and one step
back from offset 2 reaches offset 0, not offset 1; and in a document of two adjacent
areas of default cells, one step forward from the last byte `0xf` of the first area
reaches `0x10`, and one step back from `0x10` reaches `0xe`, not `0xf`. -/
theorem MoveAddress_round_trip_fails :
    ¬ (∀ (A : MappedMemoryArea) (a b c : Address) (n : Int), 0 < n →
        A.MoveAddress a n = Move.moved b → A.MoveAddress b (-n) = Move.moved c → c = a) ∧
    ¬ (∀ (areas : List MemoryArea) (a b c : Address) (n : Int), 0 < n →
        TextDatabase.MoveAddress areas a n = Move.moved b →
        TextDatabase.MoveAddress areas b (-n) = Move.moved c → c = a) := by
  constructor
  · intro h
    have := h fourByteArea ⟨0, 1⟩ ⟨0, 2⟩ ⟨0, 0⟩ 1 (by decide) (by decide) (by decide)
    revert this
    decide
  · intro h
    have := h adjacentAreas ⟨0, 0xf⟩ ⟨0, 0x10⟩ ⟨0, 0xe⟩ 1 (by decide) (by decide) (by decide)
    revert this
    decide

/-- C7 (amended): on a mapped area whose recorded cells do not overlap, fit in the
vector and are representable, for an address `a` made by the area (its base with
the offset replaced) at which a cell is reported and every `n > 0`: if
`MoveAddress(a, +n)` of the area succeeds with result `b`, then `MoveAddress(b, -n)` of
the area succeeds with result `a`; and in every document with disjoint areas that
holds the area and whose first area does not start after it, `MoveAddress(a, +n)` of
the document also returns `b` and `MoveAddress(b, -n)` of the document returns `a`. -/
theorem MoveAddress_round_trip (A : MappedMemoryArea) (hfit : A.CellsFit)
    (hno : A.NonOverlap) (hrep : A.Representable) (a : Address) (n : Nat) (hn : 0 < n)
    (hbase : a = A.MakeAddress a.m_Offset) (hcell : A.GetCellData a.m_Offset ≠ none)
    (b : Address) (h1 : A.MoveAddress a (n : Int) = Move.moved b) :
    A.MoveAddress b (-(n : Int)) = Move.moved a ∧
    ∀ areas : List MemoryArea, DisjointAreas areas → MemoryArea.mapped A ∈ areas →
      (∀ F, areas.head? = some F → F.GetBaseAddress.le A.m_VirtualBase = true) →
      TextDatabase.MoveAddress areas a (n : Int) = Move.moved b ∧
        TextDatabase.MoveAddress areas b (-(n : Int)) = Move.moved a :=
  ⟨area_round_trip A hfit hno hrep a n hn hbase hcell b h1,
    fun areas hd hA hfirst =>
      document_round_trip A hfit hno hrep a n hn hbase hcell areas hd hA hfirst b h1⟩

/-- Witness of C7: in the area with one four-byte cell at its base, alone or in the
two-area document, one step forward from the base reaches offset 4 and one step back
from there reaches the base. -/
theorem MoveAddress_round_trip_witness :
    fourByteArea.MoveAddress ⟨0, 0⟩ ((1 : Nat) : Int) = Move.moved ⟨0, 4⟩ ∧
    fourByteArea.MoveAddress ⟨0, 4⟩ (-((1 : Nat) : Int)) = Move.moved ⟨0, 0⟩ ∧
    TextDatabase.MoveAddress twoAreas ⟨0, 0⟩ ((1 : Nat) : Int) = Move.moved ⟨0, 4⟩ ∧
    TextDatabase.MoveAddress twoAreas ⟨0, 4⟩ (-((1 : Nat) : Int)) = Move.moved ⟨0, 0⟩ :=
  have h := MoveAddress_round_trip fourByteArea fourByteArea_cellsFit
    fourByteArea_nonOverlap fourByteArea_representable ⟨0, 0⟩ 1 (by decide) rfl (by decide)
    ⟨0, 4⟩ (by decide)
  have h2 := h.2 twoAreas twoAreas_disjoint (List.mem_cons_self _ _)
    (fun F hF => by
      have : F = MemoryArea.mapped fourByteArea := by
        simp only [twoAreas, List.head?_cons, Option.some.injEq] at hF
        exact hF.symm
      subst this
      decide)
  ⟨by decide, h.1, h2.1, h2.2⟩

/-! ## Boundary cases of the backward and forward moves -/

/-- C11 (defect): on the mapped area `[0x10, 0x20)`, one step backward from the base
address `0x10` is reported as a success with the address `0xf`, which is not an
offset of the area; three steps backward from the base succeed with `0xd`. -/
theorem MoveAddressBackward_from_base_leaves_area :
    areaAt0x10.GetBaseAddress = ⟨0, 0x10⟩ ∧
    areaAt0x10.MoveAddressBackward ⟨0, 0x10⟩ (-1) = Move.moved ⟨0, 0xf⟩ ∧
    areaAt0x10.IsCellPresent 0xf = false ∧
    areaAt0x10.MoveAddressBackward ⟨0, 0x10⟩ (-3) = Move.moved ⟨0, 0xd⟩ := by
  refine ⟨rfl, ?_, ?_, ?_⟩ <;> decide

/-- C12 (defect): in the document of three adjacent areas of 16 default cells, the
address `0x0` is at position 0 and position `0x20` is the address `0x20`, the base of
the third area; `MoveAddress(0x0, 0x20)` returns `0x10`, the base of the second area,
and `MoveAddress(0x0, 0x21)` returns `0x20` instead of `0x21`. Moves absorbed by the
second area are right: `MoveAddress(0x0, 0x11)` returns `0x11`. -/
theorem MoveAddress_three_areas_wrong_base :
    DisjointAreas threeAreas ∧
    ConvertAddressToPosition threeAreas ⟨0, 0⟩ = some 0 ∧
    ConvertPositionToAddress threeAreas 0x20 = some ⟨0, 0x20⟩ ∧
    TextDatabase.MoveAddress threeAreas ⟨0, 0⟩ 0x20 = Move.moved ⟨0, 0x10⟩ ∧
    ConvertPositionToAddress threeAreas 0x21 = some ⟨0, 0x21⟩ ∧
    TextDatabase.MoveAddress threeAreas ⟨0, 0⟩ 0x21 = Move.moved ⟨0, 0x20⟩ ∧
    TextDatabase.MoveAddress threeAreas ⟨0, 0⟩ 0x11 = Move.moved ⟨0, 0x11⟩ := by
  refine ⟨?_, by decide, by decide, by decide, by decide, by decide, by decide⟩
  unfold DisjointAreas threeAreas
  simp only [List.pairwise_cons, List.mem_cons, List.mem_singleton, forall_eq_or_imp, forall_eq,
    List.not_mem_nil, false_implies, implies_true, List.Pairwise.nil, and_true]
  simp only [MemoryArea.Contains, MemoryArea.GetBaseAddress, MemoryArea.GetSize,
    MappedMemoryArea.GetBaseAddress, MappedMemoryArea.GetSize, emptyArea]
  refine ⟨⟨fun o => ?_, fun o => ?_⟩, fun o => ?_⟩ <;> omega

/-- C13 (counter-example): in the document whose only area starts at `0x10`, the
address `0x5` precedes the base of the first area, and `MoveAddress(0x5, -1)` returns
`0x5`, not the base `0x10`. -/
theorem MoveAddress_before_first_area_not_base :
    ¬ (∀ (F : MemoryArea) (rest : List MemoryArea) (a : Address) (n : Int),
        a.le F.GetBaseAddress = true → a ≠ F.GetBaseAddress → n < 0 →
        TextDatabase.MoveAddress (F :: rest) a n = Move.moved F.GetBaseAddress) := by
  intro h
  have := h (MemoryArea.mapped areaAt0x10) [] ⟨0, 5⟩ (-1) (by decide) (by decide) (by decide)
  revert this
  decide

/-- C13 (amended): in a document with at least one area, for an address `a` that
does not come after the base address of the first area and every `n < 0`,
`MoveAddress(a, n)` succeeds and returns `a` itself. -/
theorem MoveAddress_before_first_area (F : MemoryArea) (rest : List MemoryArea)
    (a : Address) (n : Int) (hn : n < 0) (ha : a.le F.GetBaseAddress = true) :
    TextDatabase.MoveAddress (F :: rest) a n = Move.moved a := by
  unfold TextDatabase.MoveAddress
  rw [if_pos hn]
  unfold _MoveAddressBackward
  simp only [ha, if_true]

/-- Witness of C13: two steps backward from `0x5` in the document whose only area
starts at `0x10`. -/
theorem MoveAddress_before_first_area_witness :
    TextDatabase.MoveAddress [MemoryArea.mapped areaAt0x10] ⟨0, 5⟩ (-2) = Move.moved ⟨0, 5⟩ :=
  MoveAddress_before_first_area (MemoryArea.mapped areaAt0x10) [] ⟨0, 5⟩ (-2) (by decide)
    (by decide)

/-! ## Positions: the document and the area -/

theorem GetMemoryArea_eq_none_iff (areas : List MemoryArea) (a : Address) :
    GetMemoryArea areas a = none ↔ ∀ M ∈ areas, M.IsCellPresent a = false := by
  induction areas with
  | nil => simp [GetMemoryArea]
  | cons N rest ih =>
    unfold GetMemoryArea
    cases hN : N.IsCellPresent a with
    | true => simp [hN]
    | false => simp [hN, ih]

/-- The counter of `ConvertAddressToPosition` at the first area that contains the
address, from any start. -/
theorem positionLoop_first (pre : List MemoryArea) :
    ∀ (M : MemoryArea) (post : List MemoryArea) (a : Address) (acc : Nat),
      (∀ N ∈ pre, N.IsCellPresent a = false) → M.IsCellPresent a = true →
      positionLoop (pre ++ M :: post) a acc =
        some ((acc + (pre.map MemoryArea.GetSize).sum +
          (a.m_Offset - M.GetBaseAddress.m_Offset)) % U32Mod) := by
  induction pre with
  | nil =>
    intro M post a acc _ hM
    have e : (acc + (a.m_Offset - M.GetBaseAddress.m_Offset) % U32Mod) % U32Mod =
        (acc + (([] : List MemoryArea).map MemoryArea.GetSize).sum +
          (a.m_Offset - M.GetBaseAddress.m_Offset)) % U32Mod := by
      simp only [List.map_nil, List.sum_nil, Nat.add_zero]
      rw [MappedMemoryArea.U32Mod_eq]
      omega
    rw [← e]
    simp only [List.nil_append, positionLoop, hM, if_true]
  | cons N pre ih =>
    intro M post a acc hpre hM
    have hN : N.IsCellPresent a = false := hpre N (List.mem_cons_self _ _)
    have := ih M post a ((acc + N.GetSize) % U32Mod)
      (fun K hK => hpre K (List.mem_cons_of_mem _ hK)) hM
    have e : ((acc + N.GetSize) % U32Mod + (pre.map MemoryArea.GetSize).sum +
          (a.m_Offset - M.GetBaseAddress.m_Offset)) % U32Mod =
        (acc + ((N :: pre).map MemoryArea.GetSize).sum +
          (a.m_Offset - M.GetBaseAddress.m_Offset)) % U32Mod := by
      simp only [List.map_cons, List.sum_cons]
      rw [MappedMemoryArea.U32Mod_eq]
      omega
    rw [← e, ← this]
    simp only [List.cons_append, positionLoop, hN, Bool.false_eq_true, if_false]
    rfl

/-- C15: `ConvertAddressToPosition(a)` fails exactly when no area of the document
contains `a`; otherwise, the first area that contains `a` being `M` and `pre` the areas
before it, it returns the sum of the sizes of `pre` plus `a.offset - M.base`, modulo
`2 ^ 32`. -/
theorem ConvertAddressToPosition_spec (areas : List MemoryArea) (a : Address) :
    (ConvertAddressToPosition areas a = none ↔ ∀ M ∈ areas, M.IsCellPresent a = false) ∧
    ∀ (pre : List MemoryArea) (M : MemoryArea) (post : List MemoryArea),
      areas = pre ++ M :: post → (∀ N ∈ pre, N.IsCellPresent a = false) →
      M.IsCellPresent a = true →
      ConvertAddressToPosition areas a =
        some (((pre.map MemoryArea.GetSize).sum +
          (a.m_Offset - M.GetBaseAddress.m_Offset)) % U32Mod) := by
  have hsome : ∀ (pre : List MemoryArea) (M : MemoryArea) (post : List MemoryArea),
      areas = pre ++ M :: post → (∀ N ∈ pre, N.IsCellPresent a = false) →
      M.IsCellPresent a = true →
      ConvertAddressToPosition areas a =
        some (((pre.map MemoryArea.GetSize).sum +
          (a.m_Offset - M.GetBaseAddress.m_Offset)) % U32Mod) := by
    intro pre M post hareas hpre hM
    unfold ConvertAddressToPosition
    have hne : GetMemoryArea areas a ≠ none :=
      GetMemoryArea_ne_none areas a M (by rw [hareas]; simp) hM
    cases hg : GetMemoryArea areas a with
    | none => exact absurd hg hne
    | some _ =>
      simp only
      rw [hareas, positionLoop_first pre M post a 0 hpre hM, Nat.zero_add]
  refine ⟨⟨fun h => ?_, fun h => ?_⟩, hsome⟩
  · -- a failure means that no area contains the address
    by_contra hex
    have hne : GetMemoryArea areas a ≠ none := fun hg =>
      hex ((GetMemoryArea_eq_none_iff areas a).1 hg)
    -- the first area that contains the address
    have hfirst : ∀ l : List MemoryArea, GetMemoryArea l a ≠ none →
        ∃ pre M post, l = pre ++ M :: post ∧ (∀ N ∈ pre, N.IsCellPresent a = false) ∧
          M.IsCellPresent a = true := by
      intro l
      induction l with
      | nil => intro h0; exact absurd rfl h0
      | cons N rest ih =>
        intro h0
        cases hN : N.IsCellPresent a with
        | true => exact ⟨[], N, rest, rfl, fun K hK => absurd hK (List.not_mem_nil K), hN⟩
        | false =>
          have h1 : GetMemoryArea rest a ≠ none := by
            unfold GetMemoryArea at h0
            simpa [hN] using h0
          obtain ⟨pre, M, post, h2, h3, h4⟩ := ih h1
          refine ⟨N :: pre, M, post, by rw [h2]; rfl, fun K hK => ?_, h4⟩
          rcases List.mem_cons.1 hK with rfl | hK
          · exact hN
          · exact h3 K hK
    obtain ⟨pre, M, post, h2, h3, h4⟩ := hfirst areas hne
    rw [hsome pre M post h2 h3 h4] at h
    cases h
  · unfold ConvertAddressToPosition
    rw [(GetMemoryArea_eq_none_iff areas a).2 h]

/-- Witness of C15: in the two-area document the address `0x101` lies in the second
area, after the 16 bytes of the first: its position is 17; no area contains `0x50`. -/
theorem ConvertAddressToPosition_spec_witness :
    ConvertAddressToPosition twoAreas ⟨0, 0x101⟩ = some 17 ∧
    ConvertAddressToPosition twoAreas ⟨0, 0x50⟩ = none :=
  ⟨((ConvertAddressToPosition_spec twoAreas ⟨0, 0x101⟩).2 [MemoryArea.mapped fourByteArea] _ []
      rfl (by decide) (by decide)).trans (by decide),
    (ConvertAddressToPosition_spec twoAreas ⟨0, 0x50⟩).1.2 (by decide)⟩

theorem positionScan_found (cells : List (Option CellData)) :
    ∀ (CurOff Offset pos : Nat), CurOff ≤ Offset → Offset - CurOff < cells.length →
      CurOff + cells.length ≤ TOffsetMod → pos < TOffsetMod →
      positionScan cells CurOff Offset pos = (true, (pos + (Offset - CurOff)) % TOffsetMod) := by
  induction cells with
  | nil => intro CurOff Offset pos _ h; simp at h
  | cons c rest ih =>
    intro CurOff Offset pos h1 h2 h3 h4
    have hT := MappedMemoryArea.TOffsetMod_eq
    simp only [List.length_cons] at h2 h3
    unfold positionScan
    by_cases heq : CurOff = Offset
    · subst heq
      simp only [ge_iff_le, Nat.le_refl, if_true, ne_eq, not_true_eq_false, if_false,
        Nat.sub_self, Nat.add_zero]
      rw [Nat.mod_eq_of_lt h4]
    · have hlt : ¬ (CurOff ≥ Offset) := by omega
      rw [if_neg hlt]
      have hmod : (CurOff + 1) % TOffsetMod = CurOff + 1 := Nat.mod_eq_of_lt (by omega)
      rw [hmod, ih (CurOff + 1) Offset ((pos + 1) % TOffsetMod) (by omega) (by omega) (by omega)
        (Nat.mod_lt _ (by rw [hT]; omega))]
      rw [hT] at h4 ⊢
      congr 1
      omega

theorem positionScan_missing (cells : List (Option CellData)) :
    ∀ (CurOff Offset pos : Nat), CurOff ≤ Offset → cells.length ≤ Offset - CurOff →
      CurOff + cells.length ≤ TOffsetMod →
      (positionScan cells CurOff Offset pos).1 = false := by
  induction cells with
  | nil => intro CurOff Offset pos _ _ _; rfl
  | cons c rest ih =>
    intro CurOff Offset pos h1 h2 h3
    simp only [List.length_cons] at h2 h3
    unfold positionScan
    have hlt : ¬ (CurOff ≥ Offset) := by omega
    rw [if_neg hlt]
    cases rest with
    | nil => rfl
    | cons c2 rest2 =>
      simp only [List.length_cons] at h2 h3 ih
      have hmod : (CurOff + 1) % TOffsetMod = CurOff + 1 := Nat.mod_eq_of_lt (by omega)
      rw [hmod]
      exact ih (CurOff + 1) Offset _ (by omega) (by omega) (by omega)

/-- C16 (counter-example): with four-byte cells at offsets 0 and 4 of an area at
offset 0, one cell starts in `[0, 4)`, and `ConvertOffsetToPosition(4, pos)` with `pos`
at 0 leaves `pos` at 4, not at 1. -/
theorem ConvertOffsetToPosition_counts_bytes :
    ¬ (∀ (A : MappedMemoryArea) (o pos : Nat) (c : CellData), A.IsCellPresent o = true →
        A.cellAt (o - A.m_VirtualBase.m_Offset) = some c →
        A.ConvertOffsetToPosition o pos = (true, pos + A.cellStartsBefore o)) := by
  intro h
  have := h twoCellArea 4 0 (cellOfLength 4) (by decide) (by decide)
  revert this
  decide

/-- C16 (amended): on a mapped area whose vector slots are representable offsets, for
an offset `o` not below the base, `ConvertOffsetToPosition(o, pos)` succeeds when the
vector has a slot for `o`, as it has wherever a recorded cell starts, and then
increases `pos` by `o - base`, the number of bytes of `[base, o)`, in unsigned 64-bit
arithmetic; it fails when the vector has no slot for `o`. -/
theorem ConvertOffsetToPosition_spec (A : MappedMemoryArea) (o pos : Nat)
    (hbase : A.m_VirtualBase.m_Offset ≤ o)
    (hrep : A.m_VirtualBase.m_Offset + A.m_Cells.length ≤ TOffsetMod) (hpos : pos < TOffsetMod) :
    (o - A.m_VirtualBase.m_Offset < A.m_Cells.length →
      A.ConvertOffsetToPosition o pos =
        (true, (pos + (o - A.m_VirtualBase.m_Offset)) % TOffsetMod)) ∧
    (∀ c, A.cellAt (o - A.m_VirtualBase.m_Offset) = some c →
      A.ConvertOffsetToPosition o pos =
        (true, (pos + (o - A.m_VirtualBase.m_Offset)) % TOffsetMod)) ∧
    (A.m_Cells.length ≤ o - A.m_VirtualBase.m_Offset →
      (A.ConvertOffsetToPosition o pos).1 = false) := by
  refine ⟨fun h => ?_, fun c hc => ?_, fun h => ?_⟩
  · exact positionScan_found A.m_Cells _ o pos hbase h hrep hpos
  · exact positionScan_found A.m_Cells _ o pos hbase (MappedMemoryArea.cellAt_lt_length A hc)
      hrep hpos
  · exact positionScan_missing A.m_Cells _ o pos hbase h hrep

/-- Witness of C16: with four-byte cells at offsets 0 and 4, the position of offset
4 is 4 bytes after the start, and offset 9, beyond the vector, has no position. -/
theorem ConvertOffsetToPosition_spec_witness :
    twoCellArea.ConvertOffsetToPosition 4 0 = (true, 4) ∧
    (twoCellArea.ConvertOffsetToPosition 9 0).1 = false :=
  have h4 := ConvertOffsetToPosition_spec twoCellArea 4 0 (by decide) (by decide) (by decide)
  have h9 := ConvertOffsetToPosition_spec twoCellArea 9 0 (by decide) (by decide) (by decide)
  ⟨(h4.2.1 (cellOfLength 4) (by decide)).trans (by decide), h9.2.2 (by decide)⟩

/-! ## The set of memory areas -/

theorem Address.lt_or_lt_of_ne (a b : Address) (h : a ≠ b) : a.lt b = true ∨ b.lt a = true := by
  cases a with
  | mk ab ao =>
    cases b with
    | mk bb bo =>
      simp only [Address.lt, Bool.or_eq_true, Bool.and_eq_true, decide_eq_true_eq]
      simp only [ne_eq, Address.mk.injEq, not_and] at h
      by_cases hb : ab = bb
      · have := h hb
        omega
      · omega

theorem mem_insertArea_of_mem (areas : List MemoryArea) (M N : MemoryArea) (h : N ∈ areas) :
    N ∈ insertArea M areas := by
  induction areas with
  | nil => cases h
  | cons K rest ih =>
    unfold insertArea
    split
    · exact List.mem_cons_of_mem _ h
    · split
      · rcases List.mem_cons.1 h with rfl | h2
        · exact List.mem_cons_self _ _
        · exact List.mem_cons_of_mem _ (ih h2)
      · exact h

theorem mem_insertArea_self (areas : List MemoryArea) (M : MemoryArea)
    (h : ∀ N ∈ areas, N.GetBaseAddress ≠ M.GetBaseAddress) : M ∈ insertArea M areas := by
  induction areas with
  | nil => simp [insertArea]
  | cons K rest ih =>
    unfold insertArea
    split
    · exact List.mem_cons_self _ _
    · rename_i h1
      split
      · exact List.mem_cons_of_mem _ (ih fun N hN => h N (List.mem_cons_of_mem _ hN))
      · rename_i h2
        exfalso
        rcases Address.lt_or_lt_of_ne _ _ (h K (List.mem_cons_self _ _)) with h3 | h3
        · exact h2 h3
        · exact h1 h3

theorem GetMemoryArea_some_mem (areas : List MemoryArea) (a : Address) (M : MemoryArea)
    (h : GetMemoryArea areas a = some M) : M ∈ areas ∧ M.IsCellPresent a = true := by
  induction areas with
  | nil => cases h
  | cons N rest ih =>
    unfold GetMemoryArea at h
    cases hN : N.IsCellPresent a with
    | true =>
      simp only [hN, if_true, Option.some.injEq] at h
      subst h
      exact ⟨List.mem_cons_self _ _, hN⟩
    | false =>
      simp only [hN, Bool.false_eq_true, if_false] at h
      exact ⟨List.mem_cons_of_mem _ (ih h).1, (ih h).2⟩

theorem disjointAreas_unique (areas : List MemoryArea) (hd : DisjointAreas areas) (a : Address)
    (M N : MemoryArea) (hM : M ∈ areas) (hN : N ∈ areas) (hMa : M.IsCellPresent a = true)
    (hNa : N.IsCellPresent a = true) : M = N := by
  induction areas with
  | nil => cases hM
  | cons K rest ih =>
    have hdis := (List.pairwise_cons.1 hd).1
    have hMc := (MemoryArea.isCellPresent_iff_contains M a).1 hMa
    have hNc := (MemoryArea.isCellPresent_iff_contains N a).1 hNa
    rcases List.mem_cons.1 hM with rfl | hM2
    · rcases List.mem_cons.1 hN with rfl | hN2
      · rfl
      · exact absurd ⟨hMc, hNc⟩ (hdis N hN2 a.m_Offset)
    · rcases List.mem_cons.1 hN with rfl | hN2
      · exact absurd ⟨hNc, hMc⟩ (hdis M hM2 a.m_Offset)
      · exact ih (List.pairwise_cons.1 hd).2 hM2 hN2

/-- C14 (counter-example): adding the areas `[0, 0x20)` and `[0x10, 0x30)` to an empty
document gives a document that holds both, whose ranges overlap: the address `0x15`
is in both areas, and `GetMemoryArea(0x15)` returns the first of them. -/
theorem AddMemoryArea_keeps_overlapping_areas :
    ¬ (∀ areas : List MemoryArea, AreasBuilt areas → DisjointAreas areas) ∧
    (AddMemoryArea (AddMemoryArea [] (MemoryArea.mapped (emptyArea 0x10 0x20))).2
      (MemoryArea.mapped (emptyArea 0 0x20))) = (true, overlappingAreas) ∧
    (MemoryArea.mapped (emptyArea 0 0x20)).IsCellPresent ⟨0, 0x15⟩ = true ∧
    (MemoryArea.mapped (emptyArea 0x10 0x20)).IsCellPresent ⟨0, 0x15⟩ = true ∧
    GetMemoryArea overlappingAreas ⟨0, 0x15⟩ = some (MemoryArea.mapped (emptyArea 0 0x20)) := by
  refine ⟨fun h => ?_, by decide, by decide, by decide, by decide⟩
  have hb : AreasBuilt overlappingAreas :=
    AreasBuilt.add _ (MemoryArea.mapped (emptyArea 0 0x20))
      (AreasBuilt.add [] (MemoryArea.mapped (emptyArea 0x10 0x20)) AreasBuilt.empty)
  have hd := h overlappingAreas hb
  have := (List.pairwise_cons.1 hd).1 (MemoryArea.mapped (emptyArea 0x10 0x20))
    (List.mem_singleton.2 rfl) 0x15
  apply this
  simp only [MemoryArea.Contains, MemoryArea.GetBaseAddress, MemoryArea.GetSize,
    MappedMemoryArea.GetBaseAddress, MappedMemoryArea.GetSize, emptyArea]
  omega

/-- C14 (amended): `AddMemoryArea` returns `true` for every area, keeps the areas
already in the document and adds the new one whenever no area of the document has
its base address, whatever its range; and in a document whose areas have pairwise
disjoint ranges, at most one area contains a given address, `GetMemoryArea(addr)`
returns that area, and it returns nothing exactly when no area contains `addr`. -/
theorem GetMemoryArea_unique (areas : List MemoryArea) (a : Address) :
    (∀ M : MemoryArea, (AddMemoryArea areas M).1 = true ∧
      (∀ N ∈ areas, N ∈ (AddMemoryArea areas M).2) ∧
      ((∀ N ∈ areas, N.GetBaseAddress ≠ M.GetBaseAddress) → M ∈ (AddMemoryArea areas M).2)) ∧
    (DisjointAreas areas →
      (∀ M N, M ∈ areas → N ∈ areas → M.IsCellPresent a = true → N.IsCellPresent a = true →
        M = N) ∧
      (∀ M, GetMemoryArea areas a = some M ↔ (M ∈ areas ∧ M.IsCellPresent a = true)) ∧
      (GetMemoryArea areas a = none ↔ ∀ M ∈ areas, M.IsCellPresent a = false)) := by
  refine ⟨fun M => ⟨rfl, fun N hN => mem_insertArea_of_mem areas M N hN,
    fun h => mem_insertArea_self areas M h⟩, fun hd => ⟨fun M N hM hN hMa hNa =>
      disjointAreas_unique areas hd a M N hM hN hMa hNa, fun M => ⟨fun h =>
        GetMemoryArea_some_mem areas a M h, fun h => ?_⟩, GetMemoryArea_eq_none_iff areas a⟩⟩
  cases hg : GetMemoryArea areas a with
  | none => exact absurd hg (GetMemoryArea_ne_none areas a M h.1 h.2)
  | some K =>
    have hK := GetMemoryArea_some_mem areas a K hg
    rw [disjointAreas_unique areas hd a K M hK.1 h.1 hK.2 h.2]

/-- Witness of C14: in the two-area document, whose areas are disjoint, the address
`0x101` is in the virtual area only, which is the area `GetMemoryArea` returns. -/
theorem GetMemoryArea_unique_witness :
    DisjointAreas twoAreas ∧
    ∃ M, M ∈ twoAreas ∧ M.IsCellPresent ⟨0, 0x101⟩ = true ∧
      GetMemoryArea twoAreas ⟨0, 0x101⟩ = some M :=
  ⟨twoAreas_disjoint,
    ⟨MemoryArea.virt { m_Name := "", m_Access := 0, m_VirtualBase := ⟨0, 0x100⟩, m_VirtualSize := 8 },
      by decide, by decide,
      (((GetMemoryArea_unique twoAreas ⟨0, 0x101⟩).2 twoAreas_disjoint).2.1 _).2
        ⟨by decide, by decide⟩⟩⟩

/-! ## The label registry -/

theorem find?_of_unique {α : Type} (p : α → Bool) (m : List α) (x : α) (hx : x ∈ m)
    (hp : p x = true) (hu : ∀ y ∈ m, p y = true → y = x) : m.find? p = some x := by
  induction m with
  | nil => cases hx
  | cons z rest ih =>
    rw [List.find?_cons]
    cases hz : p z with
    | true =>
      simp only
      rw [hu z (List.mem_cons_self _ _) hz]
    | false =>
      simp only
      rcases List.mem_cons.1 hx with rfl | hx2
      · rw [hp] at hz; cases hz
      · exact ih hx2 fun y hy => hu y (List.mem_cons_of_mem _ hy)

theorem LabelsUnique.addr {m : List (Address × Label)} (h : LabelsUnique m)
    (p q : Address × Label) (hp : p ∈ m) (hq : q ∈ m) (he : p.1 = q.1) : p = q := by
  induction m with
  | nil => cases hp
  | cons z rest ih =>
    have hz := (List.pairwise_cons.1 h).1
    rcases List.mem_cons.1 hp with rfl | hp2
    · rcases List.mem_cons.1 hq with rfl | hq2
      · rfl
      · exact absurd he (hz q hq2).1
    · rcases List.mem_cons.1 hq with rfl | hq2
      · exact absurd he.symm (hz p hp2).1
      · exact ih (List.pairwise_cons.1 h).2 hp2 hq2

theorem LabelsUnique.name {m : List (Address × Label)} (h : LabelsUnique m)
    (p q : Address × Label) (hp : p ∈ m) (hq : q ∈ m) (he : p.2.m_Name = q.2.m_Name) :
    p = q := by
  induction m with
  | nil => cases hp
  | cons z rest ih =>
    have hz := (List.pairwise_cons.1 h).1
    rcases List.mem_cons.1 hp with rfl | hp2
    · rcases List.mem_cons.1 hq with rfl | hq2
      · rfl
      · exact absurd he (hz q hq2).2
    · rcases List.mem_cons.1 hq with rfl | hq2
      · exact absurd he.symm (hz p hp2).2
      · exact ih (List.pairwise_cons.1 h).2 hp2 hq2

theorem labelInsert_unique (m : List (Address × Label)) (a : Address) (l : Label)
    (h : LabelsUnique m) : LabelsUnique (labelInsert m a l) := by
  unfold labelInsert
  split
  · exact h
  · rename_i hany
    have hfree : ∀ q ∈ m, (a, l).1 ≠ q.1 ∧ (a, l).2.m_Name ≠ q.2.m_Name := by
      intro q hq
      have hnot : ¬ ((decide (q.1 = a) || q.2.sameKey l) = true) := fun hc =>
        hany (List.any_eq_true.2 ⟨q, hq, hc⟩)
      simp only [Label.sameKey, Bool.or_eq_true, decide_eq_true_eq, not_or] at hnot
      exact ⟨fun e => hnot.1 e.symm, fun e => hnot.2 e.symm⟩
    unfold LabelsUnique
    rw [List.Perm.pairwise_iff (fun hxy => ⟨fun e => hxy.1 e.symm, fun e => hxy.2 e.symm⟩)
      (List.perm_orderedInsert _ (a, l) m)]
    exact List.pairwise_cons.2 ⟨hfree, h⟩

theorem removeLabel_unique (m : List (Address × Label)) (a : Address) (h : LabelsUnique m) :
    LabelsUnique (RemoveLabel m a).2 := by
  unfold RemoveLabel
  split
  · exact h
  · exact List.Pairwise.sublist (List.eraseP_sublist m) h

theorem labelsBuilt_unique {m : List (Address × Label)} (h : LabelsBuilt m) : LabelsUnique m := by
  induction h with
  | empty => exact List.Pairwise.nil
  | add m a l _ ih => exact labelInsert_unique m a l ih
  | remove m a _ ih => exact removeLabel_unique m a ih

theorem GetLabel_eq_some_iff (m : List (Address × Label)) (h : LabelsUnique m) (a : Address)
    (l : Label) : GetLabel m a = some l ↔ (a, l) ∈ m := by
  unfold GetLabel
  constructor
  · intro hg
    cases hf : m.find? (fun p => decide (p.1 = a)) with
    | none => rw [hf] at hg; cases hg
    | some p =>
      rw [hf] at hg
      simp only [Option.map_some', Option.some.injEq] at hg
      have hp := List.find?_some hf
      have hmem := List.mem_of_find?_eq_some hf
      simp only [decide_eq_true_eq] at hp
      cases p with
      | mk pa pl =>
        simp only at hp hg
        subst hp; subst hg
        exact hmem
  · intro hmem
    rw [find?_of_unique _ m (a, l) hmem (by simp)
      (fun y hy hya => h.addr y (a, l) hy hmem (by simpa using hya))]
    rfl

theorem GetLabelAddress_eq_some_iff (m : List (Address × Label)) (h : LabelsUnique m)
    (a : Address) (l : Label) :
    GetLabelAddress m l = some a ↔ ∃ k, (a, k) ∈ m ∧ k.m_Name = l.m_Name := by
  unfold GetLabelAddress
  constructor
  · intro hg
    cases hf : m.find? (fun p => p.2.sameKey l) with
    | none => rw [hf] at hg; cases hg
    | some p =>
      rw [hf] at hg
      simp only [Option.map_some', Option.some.injEq] at hg
      have hp := List.find?_some hf
      have hmem := List.mem_of_find?_eq_some hf
      simp only [Label.sameKey, decide_eq_true_eq] at hp
      cases p with
      | mk pa pl =>
        simp only at hp hg
        subst hg
        exact ⟨pl, hmem, hp⟩
  · rintro ⟨k, hmem, hk⟩
    rw [find?_of_unique _ m (a, k) hmem (by simp [Label.sameKey, hk])
      (fun y hy hya => h.name y (a, k) hy hmem (by
        simp only [Label.sameKey, decide_eq_true_eq] at hya
        rw [hya, hk]))]
    rfl

/-- C19: in every registry reached from the empty one by `AddLabel` and `RemoveLabel`
calls, the lookup by address and the lookup by label read the same pairs: `GetLabel(a)`
returns the stored label `l` exactly when the pair `(a, l)` is in the registry,
`GetLabelAddress(l)` returns `a` exactly when a pair of `a` with a label named like `l`
is in it, so `GetLabel(a)` returns a label named like `l` iff `GetLabelAddress(l)`
returns `a`; no two pairs share an address or a label name; and `RemoveLabel(a)`
returns `false` iff `a` has no label, in which case the registry is unchanged. -/
theorem label_indexes_agree (m : List (Address × Label)) (hm : LabelsBuilt m) :
    (∀ a l, GetLabel m a = some l ↔ (a, l) ∈ m) ∧
    (∀ a l, GetLabelAddress m l = some a ↔ ∃ k, (a, k) ∈ m ∧ k.m_Name = l.m_Name) ∧
    (∀ a l, (∃ k, GetLabel m a = some k ∧ k.m_Name = l.m_Name) ↔
      GetLabelAddress m l = some a) ∧
    (∀ a l, GetLabel m a = some l → GetLabelAddress m l = some a) ∧
    (∀ p q, p ∈ m → q ∈ m → p.1 = q.1 → p = q) ∧
    (∀ p q, p ∈ m → q ∈ m → p.2.m_Name = q.2.m_Name → p = q) ∧
    (∀ a, (RemoveLabel m a).1 = false ↔ GetLabel m a = none) ∧
    (∀ a, GetLabel m a = none → RemoveLabel m a = (false, m)) := by
  have hu := labelsBuilt_unique hm
  have h3 : ∀ a l, (∃ k, GetLabel m a = some k ∧ k.m_Name = l.m_Name) ↔
      GetLabelAddress m l = some a := by
    intro a l
    rw [GetLabelAddress_eq_some_iff m hu]
    constructor
    · rintro ⟨k, hk, hn⟩
      exact ⟨k, (GetLabel_eq_some_iff m hu a k).1 hk, hn⟩
    · rintro ⟨k, hk, hn⟩
      exact ⟨k, (GetLabel_eq_some_iff m hu a k).2 hk, hn⟩
  refine ⟨GetLabel_eq_some_iff m hu, GetLabelAddress_eq_some_iff m hu, h3,
    fun a l h => (h3 a l).1 ⟨l, h, rfl⟩, fun p q => hu.addr p q, fun p q => hu.name p q,
    fun a => ?_, fun a h => ?_⟩
  · unfold RemoveLabel GetLabel
    cases hf : m.find? (fun p => decide (p.1 = a)) with
    | none => simp
    | some p => simp
  · unfold RemoveLabel
    unfold GetLabel at h
    cases hf : m.find? (fun p => decide (p.1 = a)) with
    | none => rfl
    | some p => rw [hf] at h; cases h

/-- Witness of C19: the registry with the one label `start` at `0x10` is reached by
one `AddLabel`; both lookups find the pair. -/
theorem label_indexes_agree_witness :
    LabelsBuilt oneLabel ∧
    GetLabel oneLabel ⟨0, 0x10⟩ = some { m_Name := "start".toList, m_Type := 0, m_Version := 1 } ∧
    GetLabelAddress oneLabel { m_Name := "start".toList, m_Type := 0, m_Version := 1 } =
      some ⟨0, 0x10⟩ :=
  have hb : LabelsBuilt oneLabel :=
    LabelsBuilt.add [] ⟨0, 0x10⟩ { m_Name := "start".toList, m_Type := 0, m_Version := 1 }
      LabelsBuilt.empty
  ⟨hb, by decide, (label_indexes_agree oneLabel hb).2.2.2.1 _ _ (by decide)⟩

/-- C20 (defect): `AddLabel` returns `true` whatever happens. On the registry with the
label `start` at `0x10`, adding another label at `0x10` and adding `start` at another
address both leave the registry as it is, and both calls return `true`. -/
theorem AddLabel_returns_true_on_collision :
    (∀ (m : List (Address × Label)) (a : Address) (l : Label), (AddLabel m a l).1 = true) ∧
    AddLabel oneLabel ⟨0, 0x10⟩ { m_Name := "other".toList, m_Type := 0, m_Version := 1 } =
      (true, oneLabel) ∧
    AddLabel oneLabel ⟨0, 0x20⟩ { m_Name := "start".toList, m_Type := 0, m_Version := 1 } =
      (true, oneLabel) := by
  refine ⟨fun _ _ _ => rfl, by decide, by decide⟩

/-! ## Opening a database -/

/-- The place `insertSlot` gives is the place where `insertArea` puts the area. -/
theorem insertArea_insertSlot (M : MemoryArea) (areas : List MemoryArea) (i : Nat)
    (h : insertSlot M areas = some i) : (insertArea M areas)[i]? = some M := by
  induction areas generalizing i with
  | nil =>
    simp only [insertSlot, Option.some.injEq] at h
    subst h
    rfl
  | cons N rest ih =>
    unfold insertSlot at h
    unfold insertArea
    split at h
    · rename_i h1
      simp only [Option.some.injEq] at h
      subst h
      rw [if_pos h1]
      rfl
    · rename_i h1
      split at h
      · rename_i h2
        cases hs : insertSlot M rest with
        | none => rw [hs] at h; cases h
        | some j =>
          rw [hs] at h
          simp only [Option.map_some', Option.some.injEq] at h
          subst h
          rw [if_neg h1, if_pos h2]
          simpa using ih j hs
      · cases h

theorem openLoop_eq (R : Readers) (lines : List (List Char)) (st : OpenState) :
    openLoop R lines st = (openAfter R lines st).toOpen := by
  induction lines generalizing st with
  | nil => rfl
  | cons l rest ih =>
    simp only [openLoop, openAfter]
    cases h : openLine R l st with
    | next st2 => simp only [ih]
    | returnFalse db => rfl
    | undefined => rfl

theorem openAfter_append (R : Readers) (pre post : List (List Char)) (st : OpenState) :
    openAfter R (pre ++ post) st =
      match openAfter R pre st with
      | LineResult.next st2 => openAfter R post st2
      | r => r := by
  induction pre generalizing st with
  | nil => rfl
  | cons l rest ih =>
    simp only [List.cons_append, openAfter]
    cases h : openLine R l st with
    | next st2 => exact ih st2
    | returnFalse db => rfl
    | undefined => rfl

theorem openLine_returnFalse (R : Readers) (l : List Char) (st : OpenState) (db : TextDatabase)
    (h : openLine R l st = LineResult.returnFalse db) : db = st.db := by
  unfold openLine openAreaLine openCellLine at h
  simp only at h
  repeat' (split at h)
  all_goals first | (cases h; rfl) | cases h

theorem openLine_next_state (R : Readers) (l : List Char) (st st2 : OpenState)
    (hl : l.take 3 ≠ "## ".toList) (h : openLine R l st = LineResult.next st2) :
    st2.CurState = st.CurState := by
  unfold openLine openAreaLine openCellLine at h
  simp only at h
  repeat' (split at h)
  all_goals first | (cases h; rfl) | cases h

theorem openAfter_next_state (R : Readers) (mid : List (List Char)) (st st2 : OpenState)
    (hmid : ∀ l ∈ mid, l.take 3 ≠ "## ".toList) (h : openAfter R mid st = LineResult.next st2) :
    st2.CurState = st.CurState := by
  induction mid generalizing st with
  | nil => cases h; rfl
  | cons l rest ih =>
    simp only [openAfter] at h
    cases hl : openLine R l st with
    | next st1 =>
      rw [hl] at h
      rw [ih st1 (fun k hk => hmid k (List.mem_cons_of_mem _ hk)) h]
      exact openLine_next_state R l st st1 (hmid l (List.mem_cons_self _ _)) hl
    | returnFalse db => rw [hl] at h; cases h
    | undefined => rw [hl] at h; cases h

theorem openAfter_returnFalse (R : Readers) (lines : List (List Char)) (st : OpenState)
    (db : TextDatabase) (h : openAfter R lines st = LineResult.returnFalse db) :
    ∃ pre bad post st2, lines = pre ++ bad :: post ∧ openAfter R pre st = LineResult.next st2 ∧
      openLine R bad st2 = LineResult.returnFalse db := by
  induction lines generalizing st with
  | nil => cases h
  | cons l rest ih =>
    simp only [openAfter] at h
    cases hl : openLine R l st with
    | next st1 =>
      rw [hl] at h
      obtain ⟨pre, bad, post, st2, e, hp, hb⟩ := ih st1 h
      refine ⟨l :: pre, bad, post, st2, by rw [e]; rfl, ?_, hb⟩
      simp only [openAfter, hl]
      exact hp
    | returnFalse db2 =>
      rw [hl] at h
      cases h
      exact ⟨[], l, rest, st, rfl, rfl, hl⟩
    | undefined => rw [hl] at h; cases h

theorem Open_of_bound (R : Readers) (file : Option (List (List Char))) (path : List Char)
    (D : TextDatabase) (hD : D.m_DatabasePath ≠ []) :
    Open R file path D = OpenResult.returned false D := by
  unfold Open
  rw [if_pos hD]

theorem Open_of_unbound (R : Readers) (lines : List (List Char)) (path : List Char)
    (D : TextDatabase) (hD : D.m_DatabasePath = []) :
    Open R (some lines) path D =
      (openAfter R lines
        { db := { D with m_DatabasePath := path }, CurState := State.UnknownState,
          pMemArea := none }).toOpen := by
  unfold Open
  rw [if_neg (not_not.2 hD)]
  exact openLoop_eq R lines _

theorem openLine_bad_header (R : Readers) (bad : List Char) (st : OpenState)
    (hb : bad.take 3 = "## ".toList) (hs : StrToState bad = none) :
    openLine R bad st = LineResult.returnFalse st.db := by
  have hm : bad ≠ "# Medusa Text Database".toList := by
    intro e
    rw [e] at hb
    exact absurd hb (by decide)
  unfold openLine
  rw [if_neg hm, if_pos hb, hs]

theorem openLine_bad_type (R : Readers) (bad : List Char) (st : OpenState) (c : Char)
    (hst : st.CurState = State.MemoryAreaState) (hb : bad.take 3 = "ma(".toList)
    (hc : areaTypeChar bad = some c) (hm : c ≠ 'm') (hv : c ≠ 'v') :
    openLine R bad st = LineResult.returnFalse st.db := by
  have h1 : bad ≠ "# Medusa Text Database".toList := by
    intro e
    rw [e] at hb
    exact absurd hb (by decide)
  have h2 : bad.take 3 ≠ "## ".toList := by
    rw [hb]
    decide
  have h3 : bad.drop 3 ≠ [] := by
    intro e
    unfold areaTypeChar at hc
    rw [e] at hc
    cases hc
  unfold openLine
  rw [if_neg h1, if_neg h2, hst]
  simp only
  rw [if_pos hb]
  unfold openAreaLine
  simp only
  rw [if_neg h3]
  unfold areaTypeChar at hc
  cases hbody : List.dropWhile isspace (bad.drop 3).dropLast with
  | nil => rw [hbody] at hc; cases hc
  | cons x iss =>
    rw [hbody] at hc
    cases hc
    simp only [if_neg hm, if_neg hv]

theorem Open_of_bad_line (R : Readers) (path : List Char) (D : TextDatabase)
    (pre post : List (List Char)) (bad : List Char)
    (hbad : ∀ st, openAfter R pre
        { db := { D with m_DatabasePath := path }, CurState := State.UnknownState,
          pMemArea := none } = LineResult.next st →
      openLine R bad st = LineResult.returnFalse st.db) :
    (Open R (some pre) path D = OpenResult.undefined →
      Open R (some (pre ++ bad :: post)) path D = OpenResult.undefined) ∧
    (Open R (some pre) path D ≠ OpenResult.undefined →
      ∃ D2, Open R (some (pre ++ bad :: post)) path D = OpenResult.returned false D2) := by
  by_cases hD : D.m_DatabasePath = []
  · rw [Open_of_unbound R pre path D hD, Open_of_unbound R (pre ++ bad :: post) path D hD,
      openAfter_append]
    cases hp : openAfter R pre
        { db := { D with m_DatabasePath := path }, CurState := State.UnknownState,
          pMemArea := none } with
    | next st =>
      refine ⟨fun h => (by cases h), fun _ => ⟨st.db, ?_⟩⟩
      simp only [openAfter, hbad st hp]
      rfl
    | returnFalse db => exact ⟨fun h => (by cases h), fun _ => ⟨db, rfl⟩⟩
    | undefined => exact ⟨fun _ => rfl, fun h => absurd rfl h⟩
  · rw [Open_of_bound R _ path D hD, Open_of_bound R _ path D hD]
    exact ⟨fun h => (by cases h), fun _ => ⟨D, rfl⟩⟩

/-- C17: `Open` can return `false` and leave what it has read: on a file that stores a
binary stream and then has a header of no section, `Open` into a fresh database
returns `false`, the path is bound and the three bytes of the stream are stored; on a
file whose first line is `# Other DB` it returns `false` and the path is bound. -/
theorem Open_false_leaves_parsed_stream :
    Open noReaders (some streamThenBadHeader) "a.mdt".toList TextDatabase.fresh =
      OpenResult.returned false
        { TextDatabase.fresh with
          m_DatabasePath := "a.mdt".toList, m_spBinStrm := some [0x61, 0x62, 0x63] } ∧
    Open noReaders (some ["# Other DB".toList]) "a.mdt".toList TextDatabase.fresh =
      OpenResult.returned false { TextDatabase.fresh with m_DatabasePath := "a.mdt".toList } :=
  ⟨rfl, rfl⟩

/-- C17, amended: when a path is bound already, `Open` returns `false` and leaves the
database as it was. When no path is bound and the file cannot be opened, `Open`
returns `false` and what the database stores is as before. When no path is bound and
`Open` returns `false` on a file it could open, the file has an offending line, and
what the database stores is what a successful `Open` of the lines before that line
stores: the sections read before the offending line stay. -/
theorem Open_false_keeps_lines_before (R : Readers) (path : List Char) (D : TextDatabase) :
    (D.m_DatabasePath ≠ [] → ∀ file, Open R file path D = OpenResult.returned false D) ∧
    (D.m_DatabasePath = [] →
      ∃ D2, Open R none path D = OpenResult.returned false D2 ∧ D2.content = D.content) ∧
    (D.m_DatabasePath = [] → ∀ lines D2,
      Open R (some lines) path D = OpenResult.returned false D2 →
      ∃ pre bad post D3, lines = pre ++ bad :: post ∧
        Open R (some pre) path D = OpenResult.returned true D3 ∧ D2.content = D3.content) := by
  refine ⟨fun hD file => Open_of_bound R file path D hD, fun hD => ?_, fun hD lines D2 h => ?_⟩
  · refine ⟨{ D with m_DatabasePath := path }, ?_, rfl⟩
    unfold Open
    rw [if_neg (not_not.2 hD)]
  · rw [Open_of_unbound R lines path D hD] at h
    cases hr : openAfter R lines
        { db := { D with m_DatabasePath := path }, CurState := State.UnknownState,
          pMemArea := none } with
    | next st => rw [hr] at h; cases h
    | undefined => rw [hr] at h; cases h
    | returnFalse db =>
      rw [hr] at h
      cases h
      obtain ⟨pre, bad, post, st2, e, hp, hb⟩ := openAfter_returnFalse R lines _ _ hr
      refine ⟨pre, bad, post, st2.db, e, ?_, ?_⟩
      · rw [Open_of_unbound R pre path D hD, hp]
        rfl
      · rw [openLine_returnFalse R bad st2 _ hb]

/-- Witness of C17, amended: the file that stores a binary stream and then has
a header of no section. -/
theorem Open_false_keeps_lines_before_witness :
    TextDatabase.fresh.m_DatabasePath = [] ∧
    Open noReaders (some streamThenBadHeader) "a.mdt".toList TextDatabase.fresh =
      OpenResult.returned false
        { TextDatabase.fresh with
          m_DatabasePath := "a.mdt".toList, m_spBinStrm := some [0x61, 0x62, 0x63] } ∧
    ∃ pre bad post D3, streamThenBadHeader = pre ++ bad :: post ∧
      Open noReaders (some pre) "a.mdt".toList TextDatabase.fresh = OpenResult.returned true D3 ∧
      TextDatabase.content
        { TextDatabase.fresh with
          m_DatabasePath := "a.mdt".toList, m_spBinStrm := some [0x61, 0x62, 0x63] } =
        D3.content :=
  ⟨rfl, rfl,
    (Open_false_keeps_lines_before noReaders "a.mdt".toList TextDatabase.fresh).2.2 rfl
      streamThenBadHeader _ rfl⟩

/-- C18 (defect): a file with a header of no section on which `Open` does not return
`false`: its cell line comes before any `ma(` line and is applied to the null
`pMemArea`. Apart from lines without defined behaviour the claim holds: when the lines
before a header of no section, or before an `ma(` line of the memory-area section
whose type character is neither `m` nor `v`, have defined behaviour, `Open` returns
`false`, and otherwise it has no defined behaviour; it never returns `true`. A line of
the architecture section always lets the loop go on, and registers the tags the
module manager knows and no other. -/
theorem Open_malformed_header_or_type (R : Readers) (path : List Char) (D : TextDatabase) :
    Open R (some cellBeforeArea) "a.mdt".toList TextDatabase.fresh = OpenResult.undefined ∧
    (∃ pre bad post, cellBeforeArea = pre ++ bad :: post ∧ bad.take 3 = "## ".toList ∧
      StrToState bad = none) ∧
    (∀ pre bad post, bad.take 3 = "## ".toList → StrToState bad = none →
      (Open R (some pre) path D = OpenResult.undefined →
        Open R (some (pre ++ bad :: post)) path D = OpenResult.undefined) ∧
      (Open R (some pre) path D ≠ OpenResult.undefined →
        ∃ D2, Open R (some (pre ++ bad :: post)) path D = OpenResult.returned false D2)) ∧
    (∀ pre mid bad post c, (∀ l ∈ mid, l.take 3 ≠ "## ".toList) →
      bad.take 3 = "ma(".toList → areaTypeChar bad = some c → c ≠ 'm' → c ≠ 'v' →
      (Open R (some (pre ++ "## MemoryArea".toList :: mid)) path D = OpenResult.undefined →
        Open R (some ((pre ++ "## MemoryArea".toList :: mid) ++ bad :: post)) path D =
          OpenResult.undefined) ∧
      (Open R (some (pre ++ "## MemoryArea".toList :: mid)) path D ≠ OpenResult.undefined →
        ∃ D2, Open R (some ((pre ++ "## MemoryArea".toList :: mid) ++ bad :: post)) path D =
          OpenResult.returned false D2)) ∧
    (∀ CurLine st, st.CurState = State.ArchitectureState →
      CurLine ≠ "# Medusa Text Database".toList → CurLine.take 3 ≠ "## ".toList →
      ∃ st2, openLine R CurLine st = LineResult.next st2 ∧
        st2.db.m_ArchitectureTags =
          st.db.m_ArchitectureTags ++ (R.tags CurLine).filter R.FindArchitecture ∧
        ∀ t, R.FindArchitecture t = false →
          (t ∈ st2.db.m_ArchitectureTags ↔ t ∈ st.db.m_ArchitectureTags)) := by
  refine ⟨rfl, ⟨["## MemoryArea".toList, "|0x0 dna(0x2 0x3 0x1 0 0 0 0)".toList],
    "## NoSuchSection".toList, [], rfl, by decide, by decide⟩, ?_, ?_, ?_⟩
  · intro pre bad post hb hs
    exact Open_of_bad_line R path D pre post bad fun st _ => openLine_bad_header R bad st hb hs
  · intro pre mid bad post c hmid hb hc hm hv
    refine Open_of_bad_line R path D _ post bad fun st hst => ?_
    refine openLine_bad_type R bad st c ?_ hb hc hm hv
    rw [openAfter_append] at hst
    cases hp : openAfter R pre
        { db := { D with m_DatabasePath := path }, CurState := State.UnknownState,
          pMemArea := none } with
    | next st1 =>
      rw [hp] at hst
      simp only [openAfter] at hst
      have hh : openLine R "## MemoryArea".toList st1 =
          LineResult.next { st1 with CurState := State.MemoryAreaState } := rfl
      rw [hh] at hst
      simp only at hst
      exact openAfter_next_state R mid _ st hmid hst
    | returnFalse db => rw [hp] at hst; cases hst
    | undefined => rw [hp] at hst; cases hst
  · intro CurLine st hst h1 h2
    refine ⟨{ st with
      db := { st.db with
        m_ArchitectureTags :=
          st.db.m_ArchitectureTags ++ (R.tags CurLine).filter R.FindArchitecture } },
      ?_, rfl, ?_⟩
    · unfold openLine
      rw [if_neg h1, if_neg h2, hst]
    · intro t ht
      simp only [List.mem_append, List.mem_filter]
      constructor
      · rintro (h | ⟨_, h⟩)
        · exact h
        · rw [ht] at h; cases h
      · exact fun h => Or.inl h

/-- Witness of C18: on the file whose `ma(` line has the type character `x`, `Open`
returns `false`. -/
theorem Open_malformed_header_or_type_witness :
    areaTypeChar "ma(x .text 0x0 0x10 0:0x0 0x10 RWX)".toList = some 'x' ∧
    Open noReaders (some ["# Medusa Text Database".toList, "## MemoryArea".toList]) "a.mdt".toList
      TextDatabase.fresh ≠ OpenResult.undefined ∧
    ∃ D2, Open noReaders (some badAreaType) "a.mdt".toList TextDatabase.fresh =
      OpenResult.returned false D2 :=
  ⟨by decide, by decide,
    ((Open_malformed_header_or_type noReaders "a.mdt".toList TextDatabase.fresh).2.2.2.1
      ["# Medusa Text Database".toList] [] "ma(x .text 0x0 0x10 0:0x0 0x10 RWX)".toList [] 'x'
      (fun l hl => absurd hl (List.not_mem_nil l)) (by decide) (by decide) (by decide)
      (by decide)).2 (by decide)⟩

/-! ## Virtual areas, moves of zero steps and writes outside an area -/

theorem virtual_isCellPresent_iff (V : VirtualMemoryArea) (o : Nat) :
    V.IsCellPresent o = true ↔
      V.m_VirtualBase.m_Offset ≤ o ∧ o < V.m_VirtualBase.m_Offset + V.m_VirtualSize := by
  simp [VirtualMemoryArea.IsCellPresent, MappedMemoryArea.IsBetween, VirtualMemoryArea.GetSize]

theorem virtual_step_eq (V : VirtualMemoryArea) (m : Nat) :
    (if V.IsCellPresent m = false then Move.failed else Move.moved (V.MakeAddress m)) =
      if V.m_VirtualBase.m_Offset ≤ m ∧ m < V.m_VirtualBase.m_Offset + V.m_VirtualSize then
        Move.moved { V.m_VirtualBase with m_Offset := m }
      else Move.failed := by
  by_cases h : V.m_VirtualBase.m_Offset ≤ m ∧ m < V.m_VirtualBase.m_Offset + V.m_VirtualSize
  · rw [if_pos h, if_neg (by rw [(virtual_isCellPresent_iff V m).2 h]; simp)]
    rfl
  · rw [if_neg h, if_pos]
    cases hp : V.IsCellPresent m
    · rfl
    · exact absurd ((virtual_isCellPresent_iff V m).1 hp) h

/-- C21: on a virtual area with base offset `b` and size `s`, `MoveAddressForward(a, n)`
and `MoveAddressBackward(a, n)` for every `n`, and `MoveAddress(a, n)` for every
`n ≠ 0`, succeed exactly when `a.offset + n`, computed as a `TOffset`, lies in
`[b, b + s)`, and then return the address of the area with that offset; otherwise they
fail. When `a.offset + n` is a `TOffset` value, it is that offset. In an area that
lies in the offset space, `MoveAddressForward(base, 3)` returns `base + 3` if `3 < s`
and fails otherwise. `SetCellData` returns `false` on every input and leaves the area
and the list of deleted addresses as they are. -/
theorem VirtualMemoryArea_byte_steps (V : VirtualMemoryArea) (a : Address) (n : Int) :
    (V.MoveAddressForward a n =
      if V.m_VirtualBase.m_Offset ≤ toU64 (a.m_Offset + n) ∧
          toU64 (a.m_Offset + n) < V.m_VirtualBase.m_Offset + V.m_VirtualSize then
        Move.moved { V.m_VirtualBase with m_Offset := toU64 (a.m_Offset + n) }
      else Move.failed) ∧
    (V.MoveAddressBackward a n =
      if V.m_VirtualBase.m_Offset ≤ toU64 (a.m_Offset + n) ∧
          toU64 (a.m_Offset + n) < V.m_VirtualBase.m_Offset + V.m_VirtualSize then
        Move.moved { V.m_VirtualBase with m_Offset := toU64 (a.m_Offset + n) }
      else Move.failed) ∧
    (n ≠ 0 → V.MoveAddress a n =
      if V.m_VirtualBase.m_Offset ≤ toU64 (a.m_Offset + n) ∧
          toU64 (a.m_Offset + n) < V.m_VirtualBase.m_Offset + V.m_VirtualSize then
        Move.moved { V.m_VirtualBase with m_Offset := toU64 (a.m_Offset + n) }
      else Move.failed) ∧
    (0 ≤ (a.m_Offset : Int) + n → (a.m_Offset : Int) + n < TOffsetMod →
      (toU64 (a.m_Offset + n) : Int) = a.m_Offset + n) ∧
    (V.m_VirtualBase.m_Offset + V.m_VirtualSize ≤ TOffsetMod →
      V.MoveAddressForward V.GetBaseAddress 3 =
        if 3 < V.m_VirtualSize then
          Move.moved { V.m_VirtualBase with m_Offset := V.m_VirtualBase.m_Offset + 3 }
        else Move.failed) ∧
    (∀ Offset spCell rDeleted Force,
      V.SetCellData Offset spCell rDeleted Force = (false, V, rDeleted) ∧
      (MemoryArea.virt V).SetCellData Offset spCell rDeleted Force =
        some (false, MemoryArea.virt V, rDeleted)) := by
  have hf : V.MoveAddressForward a n =
      if V.m_VirtualBase.m_Offset ≤ toU64 (a.m_Offset + n) ∧
          toU64 (a.m_Offset + n) < V.m_VirtualBase.m_Offset + V.m_VirtualSize then
        Move.moved { V.m_VirtualBase with m_Offset := toU64 (a.m_Offset + n) }
      else Move.failed := virtual_step_eq V _
  have hb : V.MoveAddressBackward a n =
      if V.m_VirtualBase.m_Offset ≤ toU64 (a.m_Offset + n) ∧
          toU64 (a.m_Offset + n) < V.m_VirtualBase.m_Offset + V.m_VirtualSize then
        Move.moved { V.m_VirtualBase with m_Offset := toU64 (a.m_Offset + n) }
      else Move.failed := virtual_step_eq V _
  refine ⟨hf, hb, fun hn => ?_, fun h0 h1 => ?_, fun hrep => ?_, fun _ _ _ _ => ⟨rfl, rfl⟩⟩
  · unfold VirtualMemoryArea.MoveAddress
    by_cases hneg : n < 0
    · rw [if_pos hneg, hb]
    · rw [if_neg hneg, if_pos (by omega), hf]
  · unfold toU64
    rw [Int.emod_eq_of_lt h0 h1]
    exact Int.toNat_of_nonneg h0
  · have h3 := virtual_step_eq V (toU64 (V.GetBaseAddress.m_Offset + 3))
    have e : V.MoveAddressForward V.GetBaseAddress 3 =
        if V.IsCellPresent (toU64 (V.GetBaseAddress.m_Offset + 3)) = false then Move.failed
        else Move.moved (V.MakeAddress (toU64 (V.GetBaseAddress.m_Offset + 3))) := rfl
    rw [e, h3]
    have hb3 : V.GetBaseAddress.m_Offset = V.m_VirtualBase.m_Offset := rfl
    rw [hb3]
    by_cases hs : 3 < V.m_VirtualSize
    · have hu : toU64 ((V.m_VirtualBase.m_Offset : Int) + 3) = V.m_VirtualBase.m_Offset + 3 := by
        have := toU64_of_nat (V.m_VirtualBase.m_Offset + 3) (by omega)
        simpa using this
      rw [hu, if_pos hs, if_pos (by omega)]
    · rw [if_neg hs, if_neg]
      intro hc
      unfold toU64 at hc
      rw [MappedMemoryArea.TOffsetMod_eq] at hrep hc
      push_cast at hc
      omega

/-- Witness of C21: in the virtual area of 8 bytes at `0x100`, three steps forward from
the base end on `0x103`, and eight steps fail. -/
theorem VirtualMemoryArea_byte_steps_witness :
    virtualArea.MoveAddressForward virtualArea.GetBaseAddress 3 = Move.moved ⟨0, 0x103⟩ ∧
    virtualArea.MoveAddress ⟨0, 0x100⟩ 8 = Move.failed :=
  ⟨((VirtualMemoryArea_byte_steps virtualArea ⟨0, 0⟩ 0).2.2.2.2.1 (by decide)).trans (by decide),
    ((VirtualMemoryArea_byte_steps virtualArea ⟨0, 0x100⟩ 8).2.2.1 (by decide)).trans
      (by decide)⟩

/-- C22: a move of zero steps. On a mapped area `MoveAddress(a, 0)` succeeds for every
address and returns it unchanged; on a virtual area `MoveAddress(a, 0)` fails exactly
when the offset of `a` is outside `[base, base + size)` and returns `a` unchanged
otherwise. -/
theorem MoveAddress_zero_steps (A : MappedMemoryArea) (V : VirtualMemoryArea) (a : Address) :
    A.MoveAddress a 0 = Move.moved a ∧
    (V.MoveAddress a 0 = Move.failed ↔
      ¬ (V.m_VirtualBase.m_Offset ≤ a.m_Offset ∧
        a.m_Offset < V.m_VirtualBase.m_Offset + V.m_VirtualSize)) ∧
    (V.m_VirtualBase.m_Offset ≤ a.m_Offset ∧
        a.m_Offset < V.m_VirtualBase.m_Offset + V.m_VirtualSize →
      V.MoveAddress a 0 = Move.moved a) := by
  have hv : V.MoveAddress a 0 =
      if V.IsCellPresent a.m_Offset = false then Move.failed else Move.moved a := rfl
  refine ⟨rfl, ?_, fun h => ?_⟩
  · rw [hv]
    cases hp : V.IsCellPresent a.m_Offset
    · simp only [if_true, true_iff]
      intro hc
      rw [(virtual_isCellPresent_iff V _).2 hc] at hp
      cases hp
    · simp only [Bool.true_eq_false, if_false, false_iff, not_not]
      exact ⟨fun h => (by cases h), fun h => absurd ((virtual_isCellPresent_iff V _).1 hp) h⟩
  · rw [hv, (virtual_isCellPresent_iff V _).2 h]
    rfl

/-- Witness of C22: in the virtual area of 8 bytes at `0x100`, a move of zero steps
from `0x103` returns `0x103`, and one from `0x200` fails. -/
theorem MoveAddress_zero_steps_witness :
    virtualArea.MoveAddress ⟨0, 0x103⟩ 0 = Move.moved ⟨0, 0x103⟩ ∧
    virtualArea.MoveAddress ⟨0, 0x200⟩ 0 = Move.failed :=
  ⟨(MoveAddress_zero_steps fourByteArea virtualArea ⟨0, 0x103⟩).2.2 (by decide),
    (MoveAddress_zero_steps fourByteArea virtualArea ⟨0, 0x200⟩).2.1.2 (by decide)⟩

/-- C23: for an offset outside `[base, base + size)`, `SetCellData` on a mapped area
returns `false` and changes nothing: the area, hence its cell vector, every
`GetCellData` result and the enumeration of `ForEachCellData`, and the caller's list of
deleted addresses are as before. -/
theorem SetCellData_outside_area (A : MappedMemoryArea) (o : Nat) (c : CellData)
    (d : List Address) (f : Bool)
    (ho : ¬ (A.m_VirtualBase.m_Offset ≤ o ∧ o < A.m_VirtualBase.m_Offset + A.m_VirtualSize)) :
    A.SetCellData o c d f = some (false, A, d) ∧
    ∀ b A2 d2, A.SetCellData o c d f = some (b, A2, d2) →
      b = false ∧ A2.m_Cells = A.m_Cells ∧ d2 = d ∧
      (∀ x, A2.GetCellData x = A.GetCellData x) ∧ A2.ForEachCellData = A.ForEachCellData := by
  have h := MappedMemoryArea.SetCellData_not_present A o c d f
    ((MappedMemoryArea.isCellPresent_eq_false_iff A o).2 ho)
  refine ⟨h, fun b A2 d2 h2 => ?_⟩
  rw [h] at h2
  simp only [Option.some.injEq, Prod.mk.injEq] at h2
  obtain ⟨rfl, rfl, rfl⟩ := h2
  exact ⟨rfl, rfl, rfl, fun _ => rfl, rfl⟩

/-- Witness of C23: a write at offset `0x20` of the area `[0, 0x10)` with one four-byte
cell. -/
theorem SetCellData_outside_area_witness :
    fourByteArea.SetCellData 0x20 (cellOfLength 2) [⟨0, 1⟩] true =
      some (false, fourByteArea, [⟨0, 1⟩]) :=
  (SetCellData_outside_area fourByteArea 0x20 (cellOfLength 2) [⟨0, 1⟩] true (by decide)).1

/-! ## Creating a database -/

/-- C24 (defect): with no file at the path and `Force` false, `Create` on a fresh
database returns `false`, binds nothing and leaves no file: `_FileCanCreate` opens the
path in a mode that never creates a file. Without `Force`, `Create` never returns
`true`. With `Force`, on a database with no bound path, it returns `true`, binds the
path and leaves an empty file, whether a file was there or not; with no `Force` and a
file at the path it returns `false` and changes nothing. -/
theorem Create_without_force_fails :
    Create none "a.mdt".toList false TextDatabase.fresh = (false, TextDatabase.fresh, none) ∧
    (∀ file path D, (Create file path false D).1 = false) ∧
    (∀ file path, Create file path true TextDatabase.fresh =
      (true, { TextDatabase.fresh with m_DatabasePath := path }, some [])) ∧
    (∀ lines path, Create (some lines) path false TextDatabase.fresh =
      (false, TextDatabase.fresh, some lines)) := by
  refine ⟨rfl, fun file path D => ?_, fun file path => rfl, fun lines path => rfl⟩
  unfold Create
  split
  · rfl
  · cases file with
    | none => rfl
    | some lines => rfl

/-! ## The ARM architecture -/

theorem Suffix_getD (k : Nat) (h : k < 16) : (Suffix.getD k "") = conditionSuffix k := by
  interval_cases k <;> rfl

/-- C25: for every instruction and every value of `ARM_Prefix_S`, `FormatInstruction`
sets the instruction string to the name, then the condition suffix of the low four
bits of the prefix, then `s` if the prefix has a bit of `ARM_Prefix_S`, and changes
nothing else. When `ARM_Prefix_S` is not zero and has none of the low four bits, the
name `mov` with prefix `0x1 | ARM_Prefix_S` gives `movnes`. -/
theorem FormatInstruction_spec (ARM_Prefix_S : Nat) (rInsn : Instruction) :
    FormatInstruction ARM_Prefix_S rInsn =
      { rInsn with
        m_String := rInsn.m_Name ++ (conditionSuffix (rInsn.m_Prefix % 16)).toList ++
          (if rInsn.m_Prefix &&& ARM_Prefix_S ≠ 0 then "s" else "").toList } ∧
    (ARM_Prefix_S ≠ 0 → ARM_Prefix_S % 16 = 0 → ∀ old,
      (FormatInstruction ARM_Prefix_S
        { m_Name := "mov".toList, m_Prefix := 0x1 ||| ARM_Prefix_S, m_String := old }).m_String =
        "movnes".toList) := by
  have hmod : ∀ p : Nat, p &&& 0xf = p % 16 := fun p => Nat.and_pow_two_sub_one_eq_mod p 4
  have hmain : ∀ I : Instruction, FormatInstruction ARM_Prefix_S I =
      { I with
        m_String := I.m_Name ++ (conditionSuffix (I.m_Prefix % 16)).toList ++
          (if I.m_Prefix &&& ARM_Prefix_S ≠ 0 then "s" else "").toList } := by
    intro I
    unfold FormatInstruction
    simp only [hmod, Suffix_getD _ (Nat.mod_lt _ (by decide : 16 > 0))]
    split
    · rfl
    · simp
  refine ⟨hmain rInsn, fun h0 h16 old => ?_⟩
  rw [hmain]
  have hS : ∀ i, i < 4 → ARM_Prefix_S.testBit i = false := by
    intro i hi
    have := Nat.testBit_mod_two_pow ARM_Prefix_S 4 i
    rw [show (2 : Nat) ^ 4 = 16 from rfl, h16] at this
    simpa [hi] using this.symm
  have h1 : (0x1 ||| ARM_Prefix_S) % 16 = 1 := by
    apply Nat.eq_of_testBit_eq
    intro i
    rw [show (16 : Nat) = 2 ^ 4 from rfl, Nat.testBit_mod_two_pow, Nat.testBit_or]
    by_cases hi : i < 4
    · simp [hi, hS i hi]
    · have h1i : Nat.testBit 1 i = false := by
        cases hb : Nat.testBit 1 i
        · rfl
        · have := Nat.testBit_one_eq_true_iff_self_eq_zero.1 hb
          omega
      simp [hi, h1i]
  have h2 : (0x1 ||| ARM_Prefix_S) &&& ARM_Prefix_S = ARM_Prefix_S := by
    apply Nat.eq_of_testBit_eq
    intro i
    simp only [Nat.testBit_and, Nat.testBit_or]
    cases Nat.testBit 1 i <;> cases ARM_Prefix_S.testBit i <;> rfl
  simp only [h1, h2, if_pos h0]
  rfl

/-- Witness of C25: with `0x10` for `ARM_Prefix_S`, `mov` with prefix `0x11` is
formatted as `movnes`. -/
theorem FormatInstruction_spec_witness :
    (FormatInstruction 0x10 { m_Name := "mov".toList, m_Prefix := 0x1 ||| 0x10, m_String := [] }).m_String =
      "movnes".toList :=
  (FormatInstruction_spec 0x10 { m_Name := [], m_Prefix := 0, m_String := [] }).2 (by decide)
    (by decide) []

/-! ## Cell lines and the current area -/

/-- C28 (defect): in the memory-area section, a line that starts with `|` and is read
while `pMemArea` is still null has no defined behaviour: the parser applies it to the
missing area. `Open` of the file whose first line of the section is a cell line does
not return. After an `ma(` line with type `m` or `v`, `pMemArea` points to the area
of that line: a cell line that follows it is applied to that area. -/
theorem Open_cell_line_without_area (R : Readers) :
    (∀ CurLine st, st.CurState = State.MemoryAreaState → st.pMemArea = none →
      CurLine.head? = some '|' → openLine R CurLine st = LineResult.undefined) ∧
    Open R (some cellLineFirst) "a.mdt".toList TextDatabase.fresh = OpenResult.undefined ∧
    (∀ CurLine st st2, st.CurState = State.MemoryAreaState →
      CurLine.take 3 = "ma(".toList → openLine R CurLine st = LineResult.next st2 →
      st2.pMemArea ≠ none) := by
  refine ⟨fun CurLine st hst hp hh => ?_, rfl, fun CurLine st st2 hst hma h => ?_⟩
  · have h1 : CurLine ≠ "# Medusa Text Database".toList := by
      intro e; rw [e] at hh; exact absurd hh (by decide)
    have hhead : (CurLine.take 3).head? = some '|' := by
      rw [List.head?_take, if_neg (by decide), hh]
    have h2 : CurLine.take 3 ≠ "## ".toList := by
      intro e
      rw [e] at hhead
      exact absurd hhead (by decide)
    have h3 : CurLine.take 3 ≠ "ma(".toList := by
      intro e
      rw [e] at hhead
      exact absurd hhead (by decide)
    unfold openLine
    rw [if_neg h1, if_neg h2, hst]
    simp only
    rw [if_neg h3, if_pos hh]
    unfold openCellLine
    simp only [hp]
  · have h1 : CurLine ≠ "# Medusa Text Database".toList := by
      intro e; rw [e] at hma; exact absurd hma (by decide)
    have h2 : CurLine.take 3 ≠ "## ".toList := by
      rw [hma]; decide
    unfold openLine at h
    rw [if_neg h1, if_neg h2, hst] at h
    simp only at h
    rw [if_pos hma] at h
    unfold openAreaLine at h
    simp only at h
    repeat' (split at h)
    all_goals (cases h)
    all_goals simp

/-- Witness of C28: a cell line read in the memory-area section while `pMemArea` is
null has no defined behaviour; the file whose cell line follows an `ma(` line is read
to its end. -/
theorem Open_cell_line_without_area_witness :
    openLine noReaders "|0x0 dna(0x2 0x3 0x1 0 0 0 0)".toList
      { db := TextDatabase.fresh, CurState := State.MemoryAreaState, pMemArea := none } =
      LineResult.undefined ∧
    ∃ D, Open noReaders (some cellLineAfterArea) "a.mdt".toList TextDatabase.fresh =
      OpenResult.returned true D :=
  ⟨(Open_cell_line_without_area noReaders).1 _ _ rfl rfl (by decide), ⟨_, rfl⟩⟩

/-! ## Reported cells below an offset: nearest address and backward moves -/

namespace MappedMemoryArea

/-- The base of a non-empty area is never absent. -/
theorem GetCellData_base (A : MappedMemoryArea)
    (hp : A.IsCellPresent A.m_VirtualBase.m_Offset = true) :
    A.GetCellData A.m_VirtualBase.m_Offset ≠ none := by
  unfold GetCellData
  simp only [hp, Bool.true_eq_false, if_false, Nat.sub_self]
  split
  · simp
  · cases hc : A.m_Cells.getD 0 none with
    | some c => simp
    | none => simp [_GetPreviousCellOffset]

/-- An absent offset of the area lies inside the nearest recorded cell below it. -/
theorem GetCellData_none_cases (A : MappedMemoryArea) (o : Nat) (hp : A.IsCellPresent o = true)
    (h : A.GetCellData o = none) :
    ∃ s cs, s < o - A.m_VirtualBase.m_Offset ∧ A.cellAt s = some cs ∧
      (∀ j, s < j → j ≤ o - A.m_VirtualBase.m_Offset → A.cellAt j = none) ∧
      o - A.m_VirtualBase.m_Offset < s + cs.GetLength := by
  unfold GetCellData at h
  simp only [hp, Bool.true_eq_false, if_false] at h
  split at h
  · cases h
  · cases hc : A.m_Cells.getD (o - A.m_VirtualBase.m_Offset) none with
    | some c => rw [hc] at h; cases h
    | none =>
      rw [hc] at h
      simp only at h
      cases hprev : A._GetPreviousCellOffset (o - A.m_VirtualBase.m_Offset) with
      | none => rw [hprev] at h; cases h
      | some s =>
        rw [hprev] at h
        simp only at h
        obtain ⟨hs, ⟨cs, hcs⟩, hgap⟩ := (prev_some_iff A _ s).1 hprev
        have hcs2 := hcs
        unfold cellAt at hcs2
        rw [hcs2] at h
        simp only at h
        split at h
        · rename_i hcov
          refine ⟨s, cs, hs, hcs, fun j hj1 hj2 => ?_, hcov⟩
          by_cases hj : j = o - A.m_VirtualBase.m_Offset
          · subst hj; exact hc
          · exact hgap j hj1 (by omega)
        · cases h

/-- A run of absent offsets of the area above a reported cell lies inside that
cell, which is a recorded one. -/
theorem absent_run_lt (A : MappedMemoryArea) (q t : Nat) (c : CellData)
    (hq : A.m_VirtualBase.m_Offset ≤ q) (hc : A.GetCellData q = some c) (ht : 1 ≤ t)
    (hp : A.IsCellPresent (q + t) = true)
    (habs : ∀ x, q < x → x ≤ q + t → A.GetCellData x = none) :
    t < c.GetLength ∧ A.cellAt (q - A.m_VirtualBase.m_Offset) = some c := by
  obtain ⟨s, cs, hs, hcs, hgap, hcov⟩ :=
    GetCellData_none_cases A (q + t) hp (habs (q + t) (by omega) (Nat.le_refl _))
  have hpq := GetCellData_present A q c hc
  rcases Nat.lt_trichotomy s (q - A.m_VirtualBase.m_Offset) with h | h | h
  · -- the recorded cell would reach over `q`
    have : A.GetCellData q = none := by
      apply GetCellData_covered A q s cs
      · have := cellAt_lt_length A hcs
        by_contra hlen
        have h1 := hgap (q + t - A.m_VirtualBase.m_Offset) (by omega) (Nat.le_refl _)
        have hq2 := (isCellPresent_iff A (q + t)).1 hp
        -- `q + t` is inside the vector, as it is absent
        have habsq := habs (q + t) (by omega) (Nat.le_refl _)
        unfold GetCellData at habsq
        simp only [hp, Bool.true_eq_false, if_false] at habsq
        split at habsq
        · cases habsq
        · omega
      · exact h
      · exact hcs
      · intro j hj1 hj2
        exact hgap j hj1 (by omega)
      · omega
    rw [this] at hc
    cases hc
  · subst h
    have hrec := GetCellData_recorded A q cs hpq hcs
    rw [hrec] at hc
    cases hc
    exact ⟨by omega, hcs⟩
  · -- a recorded cell strictly between `q` and `q + t` is reported
    have hsp : A.IsCellPresent (A.m_VirtualBase.m_Offset + s) = true := by
      have h1 := (isCellPresent_iff A (q + t)).1 hp
      exact (isCellPresent_iff A _).2 ⟨by omega, by omega⟩
    have hrec := GetCellData_recorded A (A.m_VirtualBase.m_Offset + s) cs hsp
      (by rw [Nat.add_sub_cancel_left]; exact hcs)
    rw [habs _ (by omega) (by omega)] at hrec
    cases hrec

/-- The greatest reported offset below `base + k` heads the list of the reported
offsets, and the offsets between it and `base + k` are absent. -/
theorem reportedBelow_cons (A : MappedMemoryArea) (k : Nat) (hk1 : 1 ≤ k)
    (hk2 : k ≤ A.m_VirtualSize) :
    ∃ q c, A.m_VirtualBase.m_Offset ≤ q ∧ q < A.m_VirtualBase.m_Offset + k ∧
      A.GetCellData q = some c ∧
      (∀ x, q < x → x < A.m_VirtualBase.m_Offset + k → A.GetCellData x = none) ∧
      A.reportedBelow k = q :: A.reportedBelow (q - A.m_VirtualBase.m_Offset) := by
  induction k with
  | zero => omega
  | succ k ih =>
    cases hc : A.GetCellData (A.m_VirtualBase.m_Offset + k) with
    | some c =>
      refine ⟨A.m_VirtualBase.m_Offset + k, c, by omega, by omega, hc, fun x h1 h2 => by omega, ?_⟩
      rw [reportedBelow, hc]
      simp
    | none =>
      have hk0 : 1 ≤ k := by
        by_contra h0
        have hk : k = 0 := by omega
        subst hk
        exact GetCellData_base A ((isCellPresent_iff A _).2 ⟨Nat.le_refl _, by omega⟩) hc
      obtain ⟨q, c, h1, h2, h3, h4, h5⟩ := ih hk0 (by omega)
      refine ⟨q, c, h1, by omega, h3, fun x hx1 hx2 => ?_, ?_⟩
      · by_cases hx : x = A.m_VirtualBase.m_Offset + k
        · subst hx; exact hc
        · exact h4 x hx1 (by omega)
      · rw [reportedBelow, hc]
        simpa using h5

theorem mem_reportedBelow (A : MappedMemoryArea) (k x : Nat) :
    x ∈ A.reportedBelow k ↔
      A.m_VirtualBase.m_Offset ≤ x ∧ x < A.m_VirtualBase.m_Offset + k ∧
        A.GetCellData x ≠ none := by
  induction k with
  | zero =>
    simp only [reportedBelow, List.not_mem_nil, false_iff]
    rintro ⟨h1, h2, _⟩
    omega
  | succ k ih =>
    rw [reportedBelow]
    cases hc : A.GetCellData (A.m_VirtualBase.m_Offset + k) with
    | some c =>
      simp only [Option.isSome_some, if_true, List.mem_cons, ih]
      constructor
      · rintro (rfl | ⟨h1, h2, h3⟩)
        · exact ⟨by omega, by omega, by rw [hc]; simp⟩
        · exact ⟨h1, by omega, h3⟩
      · rintro ⟨h1, h2, h3⟩
        by_cases hx : x = A.m_VirtualBase.m_Offset + k
        · exact Or.inl hx
        · exact Or.inr ⟨h1, by omega, h3⟩
    | none =>
      simp only [Option.isSome_none, Bool.false_eq_true, if_false, ih]
      constructor
      · rintro ⟨h1, h2, h3⟩
        exact ⟨h1, by omega, h3⟩
      · rintro ⟨h1, h2, h3⟩
        refine ⟨h1, ?_, h3⟩
        by_contra hx
        have : x = A.m_VirtualBase.m_Offset + k := by omega
        subst this
        exact h3 hc

theorem reportedBelow_sorted (A : MappedMemoryArea) (k : Nat) :
    (A.reportedBelow k).Pairwise fun x y => y < x := by
  induction k with
  | zero => exact List.Pairwise.nil
  | succ k ih =>
    rw [reportedBelow]
    split
    · refine List.pairwise_cons.2 ⟨fun y hy => ?_, ih⟩
      have := (mem_reportedBelow A k y).1 hy
      omega
    · exact ih

/-- The loop of `GetNearestAddress` entered above the base ends on the greatest
reported offset below. -/
theorem nearestLoop_eq (A : MappedMemoryArea) (k : Nat) (hk1 : 1 ≤ k)
    (hk2 : k ≤ A.m_VirtualSize) :
    A.nearestLoop (A.m_VirtualBase.m_Offset + k) = (A.reportedBelow k).head? := by
  induction k with
  | zero => omega
  | succ k ih =>
    rw [show A.m_VirtualBase.m_Offset + (k + 1) = (A.m_VirtualBase.m_Offset + k) + 1 from rfl,
      nearestLoop, reportedBelow]
    cases hc : A.GetCellData (A.m_VirtualBase.m_Offset + k) with
    | some c => simp
    | none =>
      have hk0 : 1 ≤ k := by
        by_contra h0
        have hk : k = 0 := by omega
        subst hk
        exact GetCellData_base A ((isCellPresent_iff A _).2 ⟨Nat.le_refl _, by omega⟩) hc
      simp only [Option.isSome_none, Bool.false_eq_true, if_false]
      rw [if_pos (by omega)]
      exact ih hk0 (by omega)

/-- One round and the rest of the loop of `MoveAddressBackward` from an offset above
the base: the budget `m` is spent one reported offset at a time. -/
theorem backwardLoop_eq (A : MappedMemoryArea)
    (hsize : A.m_VirtualBase.m_Offset + A.m_VirtualSize ≤ TOffsetMod)
    (hlen : ∀ i c, A.cellAt i = some c → c.GetLength < 2 ^ 16) :
    ∀ (k : Nat), 1 ≤ k → k < A.m_VirtualSize → ∀ (m fuel : Nat), 1 ≤ m → m ≤ fuel →
      backwardLoop A fuel (A.m_VirtualBase.m_Offset + k) (m : Int) =
        match (A.reportedBelow k)[m - 1]? with
        | some q => Move.moved (A.MakeAddress q)
        | none => Move.failed := by
  intro k
  induction k using Nat.strong_induction_on with
  | _ k ih =>
    intro hk1 hk2 m fuel hm hfuel
    obtain ⟨f, rfl⟩ : ∃ f, fuel = f + 1 := ⟨fuel - 1, by omega⟩
    obtain ⟨q, c, hq1, hq2, hc, habs, hlist⟩ := reportedBelow_cons A k hk1 (by omega)
    -- the scan goes over `t` absent offsets and stops on `q`
    have hP : (A.m_VirtualBase.m_Offset + k + TOffsetMod - 1) % TOffsetMod =
        q + (A.m_VirtualBase.m_Offset + k - 1 - q) := by
      rw [TOffsetMod_eq] at hsize ⊢
      omega
    have ht : A.m_VirtualBase.m_Offset + k - 1 - q = 0 ∨
        (A.m_VirtualBase.m_Offset + k - 1 - q < c.GetLength ∧ c.GetLength < 2 ^ 16) := by
      by_cases h0 : A.m_VirtualBase.m_Offset + k - 1 - q = 0
      · exact Or.inl h0
      · right
        have hp : A.IsCellPresent (q + (A.m_VirtualBase.m_Offset + k - 1 - q)) = true :=
          (isCellPresent_iff A _).2 ⟨by omega, by omega⟩
        have := absent_run_lt A q _ c hq1 hc (by omega) hp
          (fun x hx1 hx2 => habs x hx1 (by omega))
        exact ⟨this.1, hlen _ c this.2⟩
    have hscan := backwardScan_run A q c hq1 hc (A.m_VirtualBase.m_Offset + k - 1 - q)
      (2 ^ 31 + 1) 0 (by rcases ht with h | h <;> omega)
      (by rw [INT32_MAX_eq]; rcases ht with h | h <;> omega)
      (by rw [TOffsetMod_eq] at hsize ⊢; omega)
      (fun x hx1 hx2 => habs x hx1 (by omega))
    unfold backwardLoop
    rw [hP, hscan]
    have hneg : (0 : Int) + ((A.m_VirtualBase.m_Offset + k - 1 - q : Nat) : Int) -
        (c.GetLength : Int) ≤ 0 := by
      rcases ht with h | h
      · rw [h]; simp
      · omega
    have hskip : (if (0 : Int) + ((A.m_VirtualBase.m_Offset + k - 1 - q : Nat) : Int) -
        (c.GetLength : Int) < 0 then (0 : Int)
        else (0 : Int) + ((A.m_VirtualBase.m_Offset + k - 1 - q : Nat) : Int) -
          (c.GetLength : Int)) = 0 := by
      split
      · rfl
      · omega
    simp only [hskip, if_true]
    have h0 : ¬ ((0 : Int) > (m : Int) - 1) := by omega
    rw [if_neg h0, hlist]
    by_cases hm1 : m = 1
    · subst hm1
      simp
    · have hm0 : ¬ ((m : Int) - 1 = 0) := by omega
      rw [if_neg hm0]
      have hidx : (q :: A.reportedBelow (q - A.m_VirtualBase.m_Offset))[m - 1]? =
          (A.reportedBelow (q - A.m_VirtualBase.m_Offset))[m - 2]? := by
        obtain ⟨j, rfl⟩ : ∃ j, m = j + 2 := ⟨m - 2, by omega⟩
        simp
      rw [hidx]
      by_cases hqb : q = A.m_VirtualBase.m_Offset
      · rw [if_pos hqb, hqb, Nat.sub_self]
        simp [reportedBelow]
      · rw [if_neg hqb]
        have hrec := ih (q - A.m_VirtualBase.m_Offset) (by omega) (by omega) (by omega)
          (m - 1) f (by omega) (by omega)
        have e1 : A.m_VirtualBase.m_Offset + (q - A.m_VirtualBase.m_Offset) = q := by omega
        have e2 : ((m - 1 : Nat) : Int) = (m : Int) - 1 := by omega
        have e3 : m - 1 - 1 = m - 2 := by omega
        rw [e1, e2, e3] at hrec
        exact hrec

end MappedMemoryArea

/-- C26: on a mapped area that lies in the offset space and whose recorded cells have
16-bit lengths, for an address `a` with `base < a.offset < base + size` and every
`n ≥ 1`, `MoveAddressBackward(a, -n)` ends: it returns the `n`-th greatest offset of
`[base, a.offset)` at which `GetCellData` returns a cell, and fails when there are fewer
than `n` such offsets. The list of these offsets, greatest first, is `reportedBelow`;
`MoveAddress(a, -n)` is the same call. -/
theorem MoveAddressBackward_counts_reported (A : MappedMemoryArea)
    (hsize : A.m_VirtualBase.m_Offset + A.m_VirtualSize ≤ TOffsetMod)
    (hlen : ∀ i c, A.cellAt i = some c → c.GetLength < 2 ^ 16)
    (a : Address) (n : Nat) (ha1 : A.m_VirtualBase.m_Offset < a.m_Offset)
    (ha2 : a.m_Offset < A.m_VirtualBase.m_Offset + A.m_VirtualSize) (hn : 1 ≤ n) :
    (A.MoveAddressBackward a (-(n : Int)) =
      match (A.reportedBelow (a.m_Offset - A.m_VirtualBase.m_Offset))[n - 1]? with
      | some q => Move.moved (A.MakeAddress q)
      | none => Move.failed) ∧
    A.MoveAddress a (-(n : Int)) = A.MoveAddressBackward a (-(n : Int)) ∧
    A.MoveAddressBackward a (-(n : Int)) ≠ Move.undefined ∧
    ((∃ r, A.MoveAddressBackward a (-(n : Int)) = Move.moved r) ↔
      n ≤ (A.reportedBelow (a.m_Offset - A.m_VirtualBase.m_Offset)).length) ∧
    (∀ x, x ∈ A.reportedBelow (a.m_Offset - A.m_VirtualBase.m_Offset) ↔
      A.m_VirtualBase.m_Offset ≤ x ∧ x < a.m_Offset ∧ A.GetCellData x ≠ none) ∧
    (A.reportedBelow (a.m_Offset - A.m_VirtualBase.m_Offset)).Pairwise fun x y => y < x := by
  have hmain : A.MoveAddressBackward a (-(n : Int)) =
      match (A.reportedBelow (a.m_Offset - A.m_VirtualBase.m_Offset))[n - 1]? with
      | some q => Move.moved (A.MakeAddress q)
      | none => Move.failed := by
    unfold MappedMemoryArea.MoveAddressBackward
    rw [if_neg (by omega)]
    have h := MappedMemoryArea.backwardLoop_eq A hsize hlen
      (a.m_Offset - A.m_VirtualBase.m_Offset) (by omega) (by omega) n
      (TOffsetMod * (-(n : Int)).natAbs + 1) hn (by
        have : (-(n : Int)).natAbs = n := by omega
        rw [this, MappedMemoryArea.TOffsetMod_eq]
        omega)
    have e : A.m_VirtualBase.m_Offset + (a.m_Offset - A.m_VirtualBase.m_Offset) = a.m_Offset := by
      omega
    rw [e] at h
    rw [neg_neg]
    exact h
  refine ⟨hmain, ?_, ?_, ?_, fun x => ?_, MappedMemoryArea.reportedBelow_sorted A _⟩
  · unfold MappedMemoryArea.MoveAddress
    rw [if_pos (by omega)]
  · rw [hmain]
    cases (A.reportedBelow (a.m_Offset - A.m_VirtualBase.m_Offset))[n - 1]? <;> simp
  · rw [hmain]
    cases hg : (A.reportedBelow (a.m_Offset - A.m_VirtualBase.m_Offset))[n - 1]? with
    | none =>
      have := List.getElem?_eq_none_iff.1 hg
      simp only [false_iff, not_le]
      constructor
      · rintro ⟨r, hr⟩; cases hr
      · intro h; omega
    | some q =>
      have hlt : n - 1 < (A.reportedBelow (a.m_Offset - A.m_VirtualBase.m_Offset)).length := by
        by_contra hc
        rw [List.getElem?_eq_none (by omega)] at hg
        cases hg
      exact ⟨fun _ => by omega, fun _ => ⟨_, rfl⟩⟩
  · rw [MappedMemoryArea.mem_reportedBelow]
    constructor
    · rintro ⟨h1, h2, h3⟩
      exact ⟨h1, by omega, h3⟩
    · rintro ⟨h1, h2, h3⟩
      exact ⟨h1, by omega, h3⟩

/-- Witness of C26: in the area with one four-byte cell at its base, the cells
reported below offset 6 start at 5, 4 and 0: three steps backward from 6 end on 0, and
four steps fail. -/
theorem MoveAddressBackward_counts_reported_witness :
    fourByteArea.MoveAddressBackward ⟨0, 6⟩ (-3) = Move.moved ⟨0, 0⟩ ∧
    fourByteArea.MoveAddressBackward ⟨0, 6⟩ (-4) = Move.failed :=
  have hlen : ∀ i c, fourByteArea.cellAt i = some c → c.GetLength < 2 ^ 16 := fun i c h => by
    obtain ⟨rfl, rfl⟩ := fourByteArea_cellAt i c h
    decide
  ⟨((MoveAddressBackward_counts_reported fourByteArea (by decide) hlen ⟨0, 6⟩ 3 (by decide)
      (by decide) (by decide)).1).trans (by decide),
    ((MoveAddressBackward_counts_reported fourByteArea (by decide) hlen ⟨0, 6⟩ 4 (by decide)
      (by decide) (by decide)).1).trans (by decide)⟩

/-- C29: on every mapped area, for an address whose offset `o` lies in
`[base, base + size)`, `GetNearestAddress` succeeds and returns the greatest offset
`q ≤ o` at which `GetCellData` returns a cell: `o` itself when a cell is returned there,
and otherwise the start of the recorded cell that reaches over `o`. For an address
below the base it succeeds and returns the base address. -/
theorem GetNearestAddress_spec (A : MappedMemoryArea) (a : Address) :
    (a.m_Offset < A.m_VirtualBase.m_Offset → A.GetNearestAddress a = some A.GetBaseAddress) ∧
    (A.m_VirtualBase.m_Offset ≤ a.m_Offset →
      a.m_Offset < A.m_VirtualBase.m_Offset + A.m_VirtualSize →
      ∃ q, A.GetNearestAddress a = some (A.MakeAddress q) ∧
        A.m_VirtualBase.m_Offset ≤ q ∧ q ≤ a.m_Offset ∧ A.GetCellData q ≠ none ∧
        (∀ r, q < r → r ≤ a.m_Offset → A.GetCellData r = none) ∧
        (A.GetCellData a.m_Offset ≠ none → q = a.m_Offset) ∧
        (A.GetCellData a.m_Offset = none →
          ∃ c, A.cellAt (q - A.m_VirtualBase.m_Offset) = some c ∧
            a.m_Offset < q + c.GetLength)) := by
  refine ⟨fun h => ?_, fun h1 h2 => ?_⟩
  · unfold MappedMemoryArea.GetNearestAddress
    simp only [h, if_true]
    rfl
  · unfold MappedMemoryArea.GetNearestAddress
    simp only [if_neg (Nat.not_lt.2 h1)]
    have hp : A.IsCellPresent a.m_Offset = true :=
      (MappedMemoryArea.isCellPresent_iff A _).2 ⟨h1, h2⟩
    cases hc : A.GetCellData a.m_Offset with
    | some c =>
      refine ⟨a.m_Offset, rfl, h1, Nat.le_refl _, by rw [hc]; simp, fun r hr1 hr2 => by omega,
        fun _ => rfl, fun h => by cases h⟩
    | none =>
      have hk1 : 1 ≤ a.m_Offset - A.m_VirtualBase.m_Offset := by
        by_contra h0
        have e : a.m_Offset = A.m_VirtualBase.m_Offset := by omega
        rw [e] at hc hp
        exact MappedMemoryArea.GetCellData_base A hp hc
      obtain ⟨q, c, hq1, hq2, hqc, habs, hlist⟩ := MappedMemoryArea.reportedBelow_cons A
        (a.m_Offset - A.m_VirtualBase.m_Offset) hk1 (by omega)
      have hloop := MappedMemoryArea.nearestLoop_eq A
        (a.m_Offset - A.m_VirtualBase.m_Offset) hk1 (by omega)
      have e : A.m_VirtualBase.m_Offset + (a.m_Offset - A.m_VirtualBase.m_Offset) =
          a.m_Offset := by omega
      rw [e] at hloop hq2 habs
      have habs2 : ∀ r, q < r → r ≤ a.m_Offset → A.GetCellData r = none := by
        intro r hr1 hr2
        by_cases hr : r = a.m_Offset
        · rw [hr]; exact hc
        · exact habs r hr1 (by omega)
      refine ⟨q, ?_, hq1, by omega, by rw [hqc]; simp, habs2, fun h => absurd rfl h, fun _ => ?_⟩
      · simp only [hloop, hlist, List.head?_cons, Option.map_some']
      · have hrun := MappedMemoryArea.absent_run_lt A q (a.m_Offset - q) c hq1 hqc (by omega)
          (by rw [show q + (a.m_Offset - q) = a.m_Offset by omega]; exact hp)
          (fun x hx1 hx2 => habs2 x hx1 (by omega))
        exact ⟨c, hrun.2, by omega⟩

/-- Witness of C29: in the area with one four-byte cell at its base, the nearest
address of offset 2, inside the cell, is offset 0. -/
theorem GetNearestAddress_spec_witness :
    ∃ q, fourByteArea.GetNearestAddress ⟨0, 2⟩ = some (fourByteArea.MakeAddress q) ∧ q = 0 :=
  have h := (GetNearestAddress_spec fourByteArea ⟨0, 2⟩).2 (by decide) (by decide)
  h.elim fun q hq => ⟨q, hq.1, by
    have h1 := hq.1
    have h2 : fourByteArea.GetNearestAddress ⟨0, 2⟩ = some ⟨0, 0⟩ := by decide
    rw [h2] at h1
    exact (congrArg Address.m_Offset (Option.some.inj h1)).symm⟩

/-! ## Base64: decoding what was encoded -/

/-- C27 (defect): `Base64Decode` of an encoding with padding returns more bytes than
were encoded. One byte `a` is encoded as `YQ==` and read back as three bytes, the two
bytes of `hi` as `aGk=` and read back as three bytes, and four bytes are read back as
six; three bytes, encoded without padding, are read back as they are. `Open` of a file
whose binary stream is `hi` stores the three bytes `hi\0`. -/
theorem Base64Decode_reads_padding_as_bytes :
    Base64Encode [0x61] = "YQ==".toList ∧
    Base64Decode (Base64Encode [0x61]) = [0x61, 0, 0] ∧
    Base64Encode [0x68, 0x69] = "aGk=".toList ∧
    Base64Decode (Base64Encode [0x68, 0x69]) = [0x68, 0x69, 0] ∧
    Base64Decode (Base64Encode [0x61, 0x62, 0x63]) = [0x61, 0x62, 0x63] ∧
    Base64Decode (Base64Encode [0x61, 0x62, 0x63, 0x64]) = [0x61, 0x62, 0x63, 0x64, 0, 0] ∧
    Open noReaders (some hiStreamFile) "a.mdt".toList TextDatabase.fresh =
      OpenResult.returned true
        { TextDatabase.fresh with
          m_DatabasePath := "a.mdt".toList, m_spBinStrm := some [0x68, 0x69, 0] } := by
  refine ⟨by decide, by decide, by decide, by decide, by decide, by decide, by decide⟩

/-! ## Replaying the cells of an area -/

namespace MappedMemoryArea

/-- Every recorded cell of an area the program can build starts inside the area. -/
theorem Built.startsInside {A : MappedMemoryArea} (h : Built A) :
    ∀ i c, A.cellAt i = some c → i < A.m_VirtualSize := by
  induction h with
  | init A h =>
    intro i c hc
    simp [cellAt, h] at hc
  | step A A2 o c d d2 f _ hl hs ih =>
    by_cases hp : A.IsCellPresent o = true
    · obtain ⟨A3, h1, _, hsz, _, _, _, hget⟩ := SetCellData_spec A o c d f hp hl
      rw [h1] at hs
      obtain rfl : A3 = A2 := by
        simp only [Option.some.injEq, Prod.mk.injEq, true_and] at hs
        exact hs.1
      intro i ci hci
      rw [hget i] at hci
      rw [hsz]
      have hpo := (isCellPresent_iff A o).1 hp
      by_cases hi : i = o - A.m_VirtualBase.m_Offset
      · omega
      · simp only [hi, if_false] at hci
        split at hci
        · cases hci
        · exact ih i ci hci
    · have hp2 : A.IsCellPresent o = false := by
        cases h : A.IsCellPresent o
        · rfl
        · exact absurd h hp
      rw [SetCellData_not_present A o c d f hp2] at hs
      simp at hs

/-- Two areas with the same range and the same recorded cells, both long enough for
their cells: where one reports an absent offset, so does the other. -/
theorem GetCellData_none_of_same_cells (A B : MappedMemoryArea)
    (hb : B.m_VirtualBase = A.m_VirtualBase) (hs : B.m_VirtualSize = A.m_VirtualSize)
    (hB : B.CellsFit) (hc : ∀ i, B.cellAt i = A.cellAt i) (o : Nat)
    (h : A.GetCellData o = none) : B.GetCellData o = none := by
  by_cases hp : A.IsCellPresent o = true
  · obtain ⟨s, cs, hs1, hcs, hgap, hcov⟩ := GetCellData_none_cases A o hp h
    have hcsB : B.cellAt s = some cs := by rw [hc]; exact hcs
    have hfit := hB s cs hcsB
    apply GetCellData_covered B o s cs
    · rw [hb]; omega
    · rw [hb]; exact hs1
    · exact hcsB
    · intro j hj1 hj2
      rw [hc]
      rw [hb] at hj2
      exact hgap j hj1 hj2
    · rw [hb]; exact hcov
  · apply GetCellData_not_present
    have hpA := (isCellPresent_eq_false_iff A o).1 (by
      cases h2 : A.IsCellPresent o
      · rfl
      · exact absurd h2 hp)
    apply (isCellPresent_eq_false_iff B o).2
    rw [hb, hs]
    exact hpA

/-- Two areas with the same range and the same recorded cells, both long enough for
their cells, report the same cell at every offset. -/
theorem GetCellData_same_cells (A B : MappedMemoryArea)
    (hb : B.m_VirtualBase = A.m_VirtualBase) (hs : B.m_VirtualSize = A.m_VirtualSize)
    (hA : A.CellsFit) (hB : B.CellsFit) (hc : ∀ i, B.cellAt i = A.cellAt i) (o : Nat) :
    B.GetCellData o = A.GetCellData o := by
  cases hAo : A.GetCellData o with
  | none => exact GetCellData_none_of_same_cells A B hb hs hB hc o hAo
  | some c =>
    cases hBo : B.GetCellData o with
    | none =>
      have := GetCellData_none_of_same_cells B A hb.symm hs.symm hA (fun i => (hc i).symm) o hBo
      rw [this] at hAo
      cases hAo
    | some c2 =>
      rcases GetCellData_some_cases A o c hAo with h1 | ⟨h1, h1n⟩
      · rcases GetCellData_some_cases B o c2 hBo with h2 | ⟨_, h2n⟩
        · rw [hb, hc, h1] at h2
          exact h2.symm ▸ rfl
        · rw [hb, hc, h1] at h2n
          cases h2n
      · rcases GetCellData_some_cases B o c2 hBo with h2 | ⟨h2, _⟩
        · rw [hb, hc, h1n] at h2
          cases h2
        · rw [h1, h2]

/-- The replay of the cells of a vector, from slot `n` on, into an area that holds
no cell from slot `n` on. -/
theorem replayCells_enumFrom (base size : Nat) (hsize : base + size ≤ TOffsetMod) :
    ∀ (w : List (Option CellData)) (n : Nat) (B : MappedMemoryArea), Built B →
      B.m_VirtualBase.m_Offset = base → B.m_VirtualSize = size →
      (∀ i c, w.getD i none = some c → 1 ≤ c.GetLength ∧ n + i < size) →
      (∀ j, n ≤ j → B.cellAt j = none) →
      ∃ B2, replayCells ((w.enumFrom n).filterMap fun p => p.2.map fun c => (p.1, c)) B =
          some B2 ∧ Built B2 ∧
        B2.m_VirtualBase = B.m_VirtualBase ∧ B2.m_VirtualSize = B.m_VirtualSize ∧
        ∀ j, B2.cellAt j = if j < n then B.cellAt j else w.getD (j - n) none := by
  intro w
  induction w with
  | nil =>
    intro n B hB _ _ _ hnone
    refine ⟨B, rfl, hB, rfl, rfl, fun j => ?_⟩
    split
    · rfl
    · simpa using hnone j (by omega)
  | cons x w ih =>
    intro n B hB hbase hsz hw hnone
    have hw2 : ∀ i c, w.getD i none = some c → 1 ≤ c.GetLength ∧ n + 1 + i < size := by
      intro i c hic
      have := hw (i + 1) c (by simpa using hic)
      omega
    cases x with
    | none =>
      obtain ⟨B2, h1, h2, h3, h4, h5⟩ := ih (n + 1) B hB hbase hsz hw2
        (fun j hj => hnone j (by omega))
      refine ⟨B2, ?_, h2, h3, h4, fun j => ?_⟩
      · simpa [List.enumFrom_cons, List.filterMap_cons] using h1
      · rw [h5 j]
        by_cases hj : j < n
        · rw [if_pos hj, if_pos (by omega)]
        · rw [if_neg hj]
          by_cases hjn : j = n
          · subst hjn
            rw [if_pos (by omega), hnone j (Nat.le_refl _)]
            simp
          · rw [if_neg (by omega)]
            obtain ⟨k, rfl⟩ : ∃ k, j = n + 1 + k := ⟨j - (n + 1), by omega⟩
            have e1 : n + 1 + k - (n + 1) = k := by omega
            have e2 : n + 1 + k - n = k + 1 := by omega
            rw [e1, e2]
            simp
    | some c =>
      have hc := hw 0 c (by simp)
      have hoff : (B.GetBaseAddress.m_Offset + n) % TOffsetMod = base + n := by
        show (B.m_VirtualBase.m_Offset + n) % TOffsetMod = base + n
        rw [hbase]
        rw [TOffsetMod_eq] at hsize ⊢
        omega
      have hp : B.IsCellPresent (base + n) = true :=
        (isCellPresent_iff B _).2 ⟨by omega, by omega⟩
      obtain ⟨B1, hs1, hb1, hsz1, _, _, _, hget1⟩ := SetCellData_spec B (base + n) c [] true hp hc.1
      have hB1 : Built B1 := Built.step B B1 (base + n) c [] [] true hB hc.1 hs1
      have hidx : base + n - B.m_VirtualBase.m_Offset = n := by omega
      rw [hidx] at hget1
      obtain ⟨B2, h1, h2, h3, h4, h5⟩ := ih (n + 1) B1 hB1 (by rw [hb1]; exact hbase)
        (by rw [hsz1]; exact hsz) hw2 (fun j hj => by
          rw [hget1 j, if_neg (by omega)]
          split
          · rfl
          · exact hnone j (by omega))
      refine ⟨B2, ?_, h2, by rw [h3, hb1], by rw [h4, hsz1], fun j => ?_⟩
      · simp only [List.enumFrom_cons, List.filterMap_cons, Option.map_some']
        rw [replayCells, hoff, hs1]
        exact h1
      · rw [h5 j]
        by_cases hj : j < n
        · rw [if_pos hj, if_pos (by omega), hget1 j, if_neg (by omega), if_neg (by omega)]
        · rw [if_neg hj]
          by_cases hjn : j = n
          · subst hjn
            rw [if_pos (by omega), hget1 j, if_pos rfl]
            simp
          · rw [if_neg (by omega)]
            obtain ⟨k, rfl⟩ : ∃ k, j = n + 1 + k := ⟨j - (n + 1), by omega⟩
            have e1 : n + 1 + k - (n + 1) = k := by omega
            have e2 : n + 1 + k - n = k + 1 := by omega
            rw [e1, e2]
            simp

/-- The offsets an enumeration from slot `n` reports are at least `n` and strictly
ascending. -/
theorem enumFrom_cells_sorted :
    ∀ (w : List (Option CellData)) (n : Nat),
      (∀ p ∈ (w.enumFrom n).filterMap fun p => p.2.map fun c => (p.1, c), n ≤ p.1) ∧
      (((w.enumFrom n).filterMap fun p => p.2.map fun c => (p.1, c)).map Prod.fst).Pairwise
        fun x y => x < y := by
  intro w
  induction w with
  | nil => intro n; exact ⟨fun p hp => (by cases hp), List.Pairwise.nil⟩
  | cons x w ih =>
    intro n
    obtain ⟨h1, h2⟩ := ih (n + 1)
    cases x with
    | none =>
      simp only [List.enumFrom_cons, List.filterMap_cons, Option.map_none']
      exact ⟨fun p hp => Nat.le_of_succ_le (h1 p hp), h2⟩
    | some c =>
      simp only [List.enumFrom_cons, List.filterMap_cons, Option.map_some', List.mem_cons,
        List.map_cons, List.pairwise_cons]
      refine ⟨fun p hp => ?_, fun y hy => ?_, h2⟩
      · rcases hp with rfl | hp
        · exact Nat.le_refl _
        · exact Nat.le_of_succ_le (h1 p hp)
      · obtain ⟨p, hp, rfl⟩ := List.mem_map.1 hy
        exact h1 p hp

end MappedMemoryArea

/-- C30: let `A` be a mapped area built by `SetCellData` calls with cells of length at
least 1, lying in the offset space. `ForEachCellData` reports exactly the pairs of a
slot of the vector and the cell recorded there, that is the recorded cell starts with
their zero-based offsets, in strictly ascending order. Writing these pairs in order
with `SetCellData(base + offset, cell, force = true)` into the area with the same base
and size and no cell succeeds and gives an area with the same recorded cells, whose
`GetCellData` agrees with that of `A` at every offset. -/
theorem replayCells_round_trip (A : MappedMemoryArea) (hA : A.Built)
    (hsize : A.m_VirtualBase.m_Offset + A.m_VirtualSize ≤ TOffsetMod) :
    (∀ i c, (i, c) ∈ A.ForEachCellData ↔ A.cellAt i = some c) ∧
    (A.ForEachCellData.map Prod.fst).Pairwise (fun x y => x < y) ∧
    ∃ B, MappedMemoryArea.replayCells A.ForEachCellData { A with m_Cells := [] } = some B ∧
      B.m_VirtualBase = A.m_VirtualBase ∧ B.m_VirtualSize = A.m_VirtualSize ∧
      (∀ i, B.cellAt i = A.cellAt i) ∧ ∀ o, B.GetCellData o = A.GetCellData o := by
  have henum : A.ForEachCellData =
      (A.m_Cells.enumFrom 0).filterMap fun p => p.2.map fun c => (p.1, c) := rfl
  refine ⟨fun i c => ?_, ?_, ?_⟩
  · unfold MappedMemoryArea.ForEachCellData
    rw [List.mem_filterMap]
    constructor
    · rintro ⟨⟨j, x⟩, hmem, hx⟩
      have hj := List.mk_mem_enum_iff_getElem?.1 hmem
      cases x with
      | none => simp at hx
      | some c2 =>
        simp only [Option.map_some', Option.some.injEq, Prod.mk.injEq] at hx
        obtain ⟨rfl, rfl⟩ := hx
        unfold MappedMemoryArea.cellAt
        rw [List.getD_eq_getElem?_getD, hj]
        rfl
    · intro h
      have hlt := MappedMemoryArea.cellAt_lt_length A h
      refine ⟨(i, some c), List.mk_mem_enum_iff_getElem?.2 ?_, rfl⟩
      rw [MappedMemoryArea.getElem?_eq_cellAt A hlt, h]
  · rw [henum]
    exact (MappedMemoryArea.enumFrom_cells_sorted A.m_Cells 0).2
  · have hfit := MappedMemoryArea.Built.cellsFit hA
    have hin := MappedMemoryArea.Built.startsInside hA
    obtain ⟨B, h1, h2, h3, h4, h5⟩ := MappedMemoryArea.replayCells_enumFrom
      A.m_VirtualBase.m_Offset A.m_VirtualSize hsize A.m_Cells 0 { A with m_Cells := [] }
      (MappedMemoryArea.Built.init _ rfl) rfl rfl
      (fun i c hic => ⟨(hfit i c hic).1, by have := hin i c hic; omega⟩)
      (fun j _ => by simp [MappedMemoryArea.cellAt])
    have hcells : ∀ i, B.cellAt i = A.cellAt i := by
      intro i
      rw [h5 i, if_neg (by omega)]
      rfl
    rw [henum]
    exact ⟨B, h1, h3, h4, hcells, fun o =>
      MappedMemoryArea.GetCellData_same_cells A B h3 h4 hfit
        (MappedMemoryArea.Built.cellsFit h2) hcells o⟩

/-- Witness of C30: the area with one four-byte cell at its base is built by one
`SetCellData`; its enumeration is the pair of offset 0 and the cell, and the replay
gives an area that reports the same cells. -/
theorem replayCells_round_trip_witness :
    fourByteArea.ForEachCellData = [(0, cellOfLength 4)] ∧
    ∃ B, MappedMemoryArea.replayCells fourByteArea.ForEachCellData
        { fourByteArea with m_Cells := [] } = some B ∧
      ∀ o, B.GetCellData o = fourByteArea.GetCellData o :=
  have hb : fourByteArea.Built :=
    MappedMemoryArea.Built.step (emptyArea 0 16) fourByteArea 0 (cellOfLength 4) [] [] false
      (MappedMemoryArea.Built.init _ rfl) (by decide) (by decide)
  have h := (replayCells_round_trip fourByteArea hb (by decide)).2.2
  ⟨by decide, h.elim fun B hB => ⟨B, hB.1, hB.2.2.2.2⟩⟩

end Medusa
